import Mathlib

/-!
# segmentwinner: weighted winner selection over a segment tree

A shallow embedding of `segment_tree.go` and `picker.go`.

Modelling conventions.

* Go `int` is the 64-bit two's-complement integer: a value of that type is an
  `Int`, and every `+` and `-` of the program on such values is `addInt` /
  `subInt`, which wrap into `[-2 ^ 63, 2 ^ 63)`.  Lengths, indices, the worker
  count and the requested number of winners are `Nat` (the program only ever
  uses them at non-negative values far below `2 ^ 63`; `make` with a negative
  capacity and a division by a zero worker count abort the Go program).
* A slice `s[a:b]` is `(s.drop a).take (b - a)`; a cell read `t[i]` is
  `cell t i`, which is `0` outside the slice, where Go would abort.  Every
  call of `Update`, `MarkAsDeleted`, `Sum` and of the splitting loops in the
  theorems below keeps its indices in range.  `IsDeleted` reads the bitmask at
  an index the caller chooses, so it answers `none` where Go aborts with an
  index out of range.
* The words of the bitmask are `Nat` reduced modulo `2 ^ 64`.
* `rand.Intn m` is `rng c % m`, where `rng : Nat → Nat` is an arbitrary oracle
  and `c` counts the draws made so far.  The workers of `Do` share no state
  besides the generator, so running them one after the other with an arbitrary
  oracle covers every interleaving.  The write-only counter `totalPoints` is
  left out.
* `runtime.GOMAXPROCS` belongs to the Go runtime, not to the repository; it is
  modelled from its documentation, with the process-wide setting as explicit
  state.
* The draw loop and the recursion of `Do` need not terminate, so they take a
  fuel argument and return `none` when it runs out (or when the program
  aborts).  Loops that always terminate carry an internal bound.
-/

namespace Segmentwinner

set_option maxRecDepth 10000

/-! ## The program and the notions used to state its properties -/

/-- User represents a user with an ID and points. -/
structure User where
  ID : Int
  Points : Int
deriving DecidableEq

/-- SegmentTree represents the data structure of a segment tree. -/
structure SegmentTree where
  tree : List Int
  bitmask : List Nat
  n : Nat
  bitMapSize : Nat
deriving DecidableEq

/-- The value a 64-bit two's-complement `int` holds after an operation whose
exact result is `x`. -/
def wrapInt (x : Int) : Int := (x + 2 ^ 63) % 2 ^ 64 - 2 ^ 63

/-- Go's `a + b` on `int`. -/
def addInt (a b : Int) : Int := wrapInt (a + b)

/-- Go's `a - b` on `int`. -/
def subInt (a b : Int) : Int := wrapInt (a - b)

/-- Read of `t[i]`. -/
def cell (t : List Int) (i : Nat) : Int := t.getD i 0

/-- Read of `users[i]`. -/
def userAt (users : List User) (i : Nat) : User := users.getD i ⟨0, 0⟩

/-- First loop of `build`: `for i := 0; i < n; i++ { tree[n+i] = users[i].Points }`,
with `k` iterations left at index `i`. -/
def buildLeaves (n : Nat) (users : List User) : Nat → Nat → List Int → List Int
  | 0, _, t => t
  | k + 1, i, t => buildLeaves n users k (i + 1) (t.set (n + i) (userAt users i).Points)

/-- Second loop of `build`: `for i := n - 1; i > 0; i-- { tree[i] = tree[2i] + tree[2i+1] }`,
started at `i`. -/
def buildInternal : Nat → List Int → List Int
  | 0, t => t
  | i + 1, t =>
    buildInternal i (t.set (i + 1) (addInt (cell t ((i + 1) * 2)) (cell t ((i + 1) * 2 + 1))))

/-- Method `build`. -/
def SegmentTree.build (st : SegmentTree) (users : List User) : SegmentTree :=
  { st with tree := buildInternal (st.n - 1) (buildLeaves st.n users st.n 0 st.tree) }

/-- NewSegmentTree creates a new segment tree. -/
def NewSegmentTree (users : List User) : SegmentTree :=
  let n := users.length
  SegmentTree.build
    { tree := List.replicate (2 * n) 0,
      bitmask := List.replicate ((n + 63) / 64) 0,
      n := n, bitMapSize := 64 } users

/-- Loop of `Update`: `for index > 1 { index /= 2; tree[index] = tree[2*index] + tree[2*index+1] }`. -/
def updateLoop : Nat → Nat → List Int → List Int
  | 0, _, t => t
  | fuel + 1, index, t =>
    if index > 1 then
      updateLoop fuel (index / 2)
        (t.set (index / 2) (addInt (cell t (index / 2 * 2)) (cell t (index / 2 * 2 + 1))))
    else t

/-- Update modifies a value in the segment tree. -/
def SegmentTree.Update (st : SegmentTree) (index : Nat) (value : Int) : SegmentTree :=
  { st with tree := updateLoop (index + st.n) (index + st.n) (st.tree.set (index + st.n) value) }

/-- The `uint64` value `1 << bit`. -/
def bitOf (bit : Nat) : Nat := (1 <<< bit) % 2 ^ 64

/-- MarkAsDeleted sets the deletion bit in the bitmask and zeroes the leaf. -/
def SegmentTree.MarkAsDeleted (st : SegmentTree) (index : Nat) : SegmentTree :=
  let word := index / st.bitMapSize
  let bit := index % st.bitMapSize
  SegmentTree.Update
    { st with bitmask := st.bitmask.set word ((st.bitmask.getD word 0 ||| bitOf bit) % 2 ^ 64) }
    index 0

/-- IsDeleted checks if an element is deleted; `none` when the word lies past
the bitmask, where Go aborts with an index out of range. -/
def SegmentTree.IsDeleted (st : SegmentTree) (index : Nat) : Option Bool :=
  let word := index / st.bitMapSize
  let bit := index % st.bitMapSize
  if word < st.bitmask.length then some ((st.bitmask.getD word 0 &&& bitOf bit) != 0)
  else none

/-- Loop of `Sum` on the shifted bounds. -/
def sumLoop (t : List Int) : Nat → Nat → Nat → Int → Int
  | 0, _, _, sum => sum
  | fuel + 1, left, right, sum =>
    if left < right then
      let sum1 := if left % 2 = 1 then addInt sum (cell t left) else sum
      let left1 := if left % 2 = 1 then left + 1 else left
      let right1 := if right % 2 = 1 then right - 1 else right
      let sum2 := if right % 2 = 1 then addInt sum1 (cell t right1) else sum1
      sumLoop t fuel (left1 / 2) (right1 / 2) sum2
    else sum

/-- Sum calculates the sum of elements in a given range. -/
def SegmentTree.Sum (st : SegmentTree) (left right : Nat) : Int :=
  sumLoop st.tree (right + st.n) (left + st.n) (right + st.n) 0

/-- Loop of `FindIndex`. -/
def findLoop (t : List Int) (n : Nat) : Nat → Nat → Int → Nat
  | 0, index, _ => index
  | fuel + 1, index, target =>
    if index < n then
      if cell t (index * 2) ≥ target then findLoop t n fuel (index * 2) target
      else findLoop t n fuel (index * 2 + 1) (subInt target (cell t (index * 2)))
    else index

/-- FindIndex finds the index of a user corresponding to a random sum. -/
def SegmentTree.FindIndex (st : SegmentTree) (target : Int) : Nat :=
  findLoop st.tree st.n st.n 1 target - st.n

/-- The draw loop of `pickWinnersFromGroup` for one subgroup; the state is the
tree, the winners so far, `localPoints` and the number of draws made. -/
def drawLoop (rng : Nat → Nat) (subGroup : List User) (quota : Nat) :
    Nat → SegmentTree → List User → Int → Nat → Option (List User × Int × Nat)
  | 0, _, res, localPoints, c =>
    if res.length < quota ∧ localPoints > 0 then none else some (res, localPoints, c)
  | fuel + 1, st, res, localPoints, c =>
    if res.length < quota ∧ localPoints > 0 then
      let randPoint : Int := addInt ((rng c % localPoints.toNat : Nat) : Int) 1
      let index := st.FindIndex randPoint
      match st.IsDeleted index with
      | none => none
      | some deleted =>
        if deleted || (userAt subGroup index).Points == 0 then
          drawLoop rng subGroup quota fuel st res localPoints (c + 1)
        else
          drawLoop rng subGroup quota fuel (st.MarkAsDeleted index)
            (res ++ [userAt subGroup index])
            (subInt localPoints (userAt subGroup index).Points) (c + 1)
    else some (res, localPoints, c)

/-- Body of the subgroup loop of `pickWinnersFromGroup`, over the subgroup
numbers in the list. -/
def subGroupsLoop (rng : Nat → Nat) (fuel : Nat) (users : List User) (numWinners : Nat)
    (numSubGroups subGroupSize : Nat) : List Nat → Nat → Option (List (List User) × Nat)
  | [], c => some ([], c)
  | i :: rest, c =>
    let start := i * subGroupSize
    let stop := if i = numSubGroups - 1 then users.length else start + subGroupSize
    let subGroup := (users.drop start).take (stop - start)
    let localSt := NewSegmentTree subGroup
    let localPoints := localSt.Sum 0 subGroup.length
    match drawLoop rng subGroup (numWinners / numSubGroups) fuel localSt [] localPoints c with
    | none => none
    | some (res, _, c1) =>
      match subGroupsLoop rng fuel users numWinners numSubGroups subGroupSize rest c1 with
      | none => none
      | some (results, c2) => some (res :: results, c2)

/-- pickWinnersFromGroup selects winners from a single group of users using a segment tree. -/
def pickWinnersFromGroup (rng : Nat → Nat) (fuel : Nat) (users : List User) (numWinners : Nat)
    (c : Nat) : Option (List User × Nat) :=
  let numSubGroups := max 1 (users.length / 5000)
  let subGroupSize := users.length / numSubGroups
  match subGroupsLoop rng fuel users numWinners numSubGroups subGroupSize
      (List.range numSubGroups) c with
  | none => none
  | some (subGroupResults, c1) => some (subGroupResults.flatten, c1)

/-- Body of the worker loop of `Do`, over the worker numbers in the list. -/
def groupsLoop (rng : Nat → Nat) (fuel : Nat) (numWorkers : Nat) (users : List User)
    (numWinners : Nat) (groupSize : Nat) : List Nat → Nat → Option (List (List User) × Nat)
  | [], c => some ([], c)
  | i :: rest, c =>
    let start := i * groupSize
    let stop := if i = numWorkers - 1 then users.length else start + groupSize
    let group := (users.drop start).take (stop - start)
    match pickWinnersFromGroup rng fuel group (numWinners / numWorkers) c with
    | none => none
    | some (gw, c1) =>
      match groupsLoop rng fuel numWorkers users numWinners groupSize rest c1 with
      | none => none
      | some (results, c2) => some (gw :: results, c2)

/-- The part of `Do` before the deficit correction: the slice `winners` at the
end of the collection loop. -/
def primaryPass (rng : Nat → Nat) (fuel : Nat) (numWorkers : Nat) (users : List User)
    (numWinners : Nat) (c : Nat) : Option (List User × Nat) :=
  let groupSize := users.length / numWorkers
  match groupsLoop rng fuel numWorkers users numWinners groupSize (List.range numWorkers) c with
  | none => none
  | some (groupWinners, c1) => some (groupWinners.flatten, c1)

/-- Do splits users into groups and selects winners in parallel. -/
def Do (rng : Nat → Nat) : Nat → Nat → List User → Nat → Nat → Option (List User × Nat)
  | 0, _, _, _, _ => none
  | fuel + 1, numWorkers, users, numWinners, c =>
    match primaryPass rng fuel numWorkers users numWinners c with
    | none => none
    | some (winners, c1) =>
      if winners.length < numWinners then
        match Do rng fuel numWorkers winners (numWinners - winners.length) c1 with
        | none => none
        | some (extraWinners, c2) => some (winners ++ extraWinners, c2)
      else some (winners, c1)

/-- Every internal node holds the sum of its two children, as the program
computes it: `tree[i] == tree[2i] + tree[2i+1]` with Go's `+`. -/
def TreeInv (t : List Int) (n : Nat) : Prop :=
  ∀ i, 1 ≤ i → i < n → cell t i = addInt (cell t (i * 2)) (cell t (i * 2 + 1))

/-- Every internal node holds the exact sum of its two children. -/
def ExactInv (t : List Int) (n : Nat) : Prop :=
  ∀ i, 1 ≤ i → i < n → cell t i = cell t (i * 2) + cell t (i * 2 + 1)

/-- Sum of the absolute values of the cells `t[a], ..., t[b-1]`. -/
def absSum (t : List Int) (a b : Nat) : Int := ∑ i ∈ Finset.Ico a b, |cell t i|

/-- Sum of the cells `t[a], ..., t[b-1]`. -/
def cellSum (t : List Int) (a b : Nat) : Int := ∑ i ∈ Finset.Ico a b, cell t i

/-- Sum of the absolute values of the users' points. -/
def absWeight (users : List User) : Int := (users.map (fun u => |u.Points|)).sum

/-- The tree is well formed for the subgroup: sizes agree, internal nodes are
sums of their children as the program computes them, and a leaf holds the
user's points unless it has been marked deleted, in which case it holds 0. -/
structure TreeOk (sub : List User) (st : SegmentTree) : Prop where
  hn : st.n = sub.length
  hlen : st.tree.length = st.n * 2
  hbits : st.bitMapSize = 64
  hmask : st.bitmask.length = (st.n + 63) / 64
  hinv : TreeInv st.tree st.n
  hleaf : ∀ j, j < st.n →
    cell st.tree (st.n + j) = if st.IsDeleted j = some true then 0 else (userAt sub j).Points

/-- Sum of the current leaf values. -/
def total (st : SegmentTree) : Int := cellSum st.tree st.n (st.n * 2)

/-- The number of users with `Points > 0`. -/
def eligible (users : List User) : Nat := users.countP (fun u => decide (0 < u.Points))

/-- The draw loop on the fresh tree of a subgroup. -/
def drawFresh (rng : Nat → Nat) (fuel : Nat) (quota : Nat) (sub : List User) (c : Nat) :
    Option (List User × Int × Nat) :=
  drawLoop rng sub quota fuel (NewSegmentTree sub) [] ((NewSegmentTree sub).Sum 0 sub.length) c

/-- What one subgroup contributes, whatever its points; the count holds when
the sums do not wrap. -/
structure SubGroupOk (quota : Nat) (sub res : List User) : Prop where
  idx : ∃ idxs : List Nat, idxs.Nodup ∧ (∀ i ∈ idxs, i < sub.length) ∧
    res = idxs.map (userAt sub)
  subperm : res.Subperm sub
  nz : ∀ u ∈ res, u.Points ≠ 0
  le : res.length ≤ quota
  count : absWeight sub < 2 ^ 63 → (∀ u ∈ sub, 0 ≤ u.Points) →
    res.length = min quota (eligible sub)

/-- Chunk number `i` when a slice is cut into `k` pieces of `size` elements, the
last piece running to the end: `users[start:stop]` in both splitting loops. -/
def chunk (users : List User) (k size i : Nat) : List User :=
  (users.drop (i * size)).take
    ((if i = k - 1 then users.length else i * size + size) - i * size)

/-- Generic form of the two splitting loops: `proc` handles one chunk. -/
def chunkLoop (proc : List User → Nat → Option (List User × Nat)) (users : List User)
    (k size : Nat) : List Nat → Nat → Option (List (List User) × Nat)
  | [], c => some ([], c)
  | i :: rest, c =>
    match proc (chunk users k size i) c with
    | none => none
    | some (r, c1) =>
      match chunkLoop proc users k size rest c1 with
      | none => none
      | some (rs, c2) => some (r :: rs, c2)

/-- One subgroup of `pickWinnersFromGroup`: the winners and the draw counter. -/
def procSub (rng : Nat → Nat) (fuel quota : Nat) (sub : List User) (c : Nat) :
    Option (List User × Nat) :=
  match drawFresh rng fuel quota sub c with
  | none => none
  | some (res, _, c1) => some (res, c1)

/-- Number of subgroups of a partition of the given length. -/
def numSubGroupsOf (len : Nat) : Nat := max 1 (len / 5000)

/-- What one partition contributes, whatever its points; the count holds when
the sums do not wrap. -/
structure GroupOk (numWinners : Nat) (group res : List User) : Prop where
  subperm : res.Subperm group
  nz : ∀ u ∈ res, u.Points ≠ 0
  le : res.length ≤ numSubGroupsOf group.length * (numWinners / numSubGroupsOf group.length)
  full : absWeight group < 2 ^ 63 → (∀ u ∈ group, 1 ≤ u.Points) → numWinners ≤ group.length →
    res.length = numSubGroupsOf group.length * (numWinners / numSubGroupsOf group.length)

/-- What the primary pass yields, whatever the points. -/
structure PrimaryOk (numWorkers numWinners : Nat) (users res : List User) : Prop where
  subperm : res.Subperm users
  nz : ∀ u ∈ res, u.Points ≠ 0
  le : res.length ≤ numWorkers * (numWinners / numWorkers)

/-- Population of 10000 users with one point each and IDs 1 to 10000. -/
def tenThousandUsers : List User := (List.range 10000).map (fun (i : Nat) => User.mk ((i : Int) + 1) 1)

/-- An oracle for the examples. -/
def sampleRng : Nat → Nat := fun k => 7 * k + 3

/-- Sum of the points of the users `0 .. i`. -/
def runningSum (users : List User) (i : Nat) : Int := ((users.take (i + 1)).map User.Points).sum

/-- A call of `Update` or of `MarkAsDeleted`. -/
inductive TreeOp where
  | update (index : Nat) (value : Int)
  | markAsDeleted (index : Nat)
deriving DecidableEq

/-- The index a call works on. -/
def TreeOp.index : TreeOp → Nat
  | .update index _ => index
  | .markAsDeleted index => index

/-- Runs one call. -/
def applyOp (st : SegmentTree) : TreeOp → SegmentTree
  | .update index value => st.Update index value
  | .markAsDeleted index => st.MarkAsDeleted index

/-- Runs the calls in order. -/
def applyOps (st : SegmentTree) (ops : List TreeOp) : SegmentTree := ops.foldl applyOp st

/-- Index `i` is the smallest index whose prefix sum `w[0] + ... + w[i]` reaches the target. -/
def firstReaching (users : List User) (target : Int) (i : Nat) : Prop :=
  target ≤ runningSum users i ∧ ∀ j, j < i → runningSum users j < target

instance (users : List User) (target : Int) (i : Nat) :
    Decidable (firstReaching users target i) := by
  unfold firstReaching
  infer_instance

/-- Runs `MarkAsDeleted` on the given indices, in order. -/
def markAll (st : SegmentTree) (dels : List Nat) : SegmentTree :=
  dels.foldl SegmentTree.MarkAsDeleted st

/-- The leaves at which a descent of `FindIndex` from node `index` can end, from
left to right (same recursion as `findLoop`, taking both branches). -/
def leavesBelow (n : Nat) : Nat → Nat → List Nat
  | 0, index => [index]
  | fuel + 1, index =>
    if index < n then leavesBelow n fuel (index * 2) ++ leavesBelow n fuel (index * 2 + 1)
    else [index]

/-- Number of targets `1 .. tree[index]` for which the descent from `index` ends on `r`. -/
def hits (t : List Int) (n fuel index r : Nat) : Nat :=
  ((Finset.range (cell t index).toNat).filter
    (fun (k : Nat) => findLoop t n fuel index ((k : Int) + 1) = r)).card

/-- The variables of the draw loop: the tree, the winners so far, `localPoints`
and the number of draws made. -/
structure DrawState where
  st : SegmentTree
  res : List User
  localPoints : Int
  c : Nat

/-- One run of the body of the draw loop; `none` where `IsDeleted` aborts. -/
def drawBody (rng : Nat → Nat) (subGroup : List User) (s : DrawState) : Option DrawState :=
  let randPoint : Int := addInt ((rng s.c % s.localPoints.toNat : Nat) : Int) 1
  let index := s.st.FindIndex randPoint
  match s.st.IsDeleted index with
  | none => none
  | some deleted =>
    if deleted || (userAt subGroup index).Points == 0 then
      some { s with c := s.c + 1 }
    else
      some { st := s.st.MarkAsDeleted index,
             res := s.res ++ [userAt subGroup index],
             localPoints := subInt s.localPoints (userAt subGroup index).Points,
             c := s.c + 1 }

/-- The variables of the draw loop after at most `k` iterations (fewer when the
loop condition fails earlier); `none` when an iteration aborts. -/
def drawIter (rng : Nat → Nat) (subGroup : List User) (quota : Nat) :
    Nat → DrawState → Option DrawState
  | 0, s => some s
  | k + 1, s =>
    if s.res.length < quota ∧ s.localPoints > 0 then
      match drawBody rng subGroup s with
      | none => none
      | some s1 => drawIter rng subGroup quota k s1
    else some s

/-- The variables on entry to the draw loop of a subgroup. -/
def drawStart (subGroup : List User) (c : Nat) : DrawState :=
  { st := NewSegmentTree subGroup, res := [],
    localPoints := (NewSegmentTree subGroup).Sum 0 subGroup.length, c := c }

/-- Picker holds the number of workers. -/
structure Picker where
  numWorkers : Nat
deriving DecidableEq

/-- Modelled from the documentation of the Go runtime, since `runtime.GOMAXPROCS`
is standard-library code outside this repository: the call returns the previous
setting, and makes `n` the new setting unless `n < 1`.  The process-wide
setting is explicit state; the result is the returned value and the new
setting. -/
def GOMAXPROCS (setting : Nat) (n : Int) : Nat × Nat :=
  (setting, if n < 1 then setting else n.toNat)

/-- NewPicker initializes a new Picker: the Picker and the new process-wide setting. -/
def NewPicker (setting : Nat) (numWorkers : Int) : Picker × Nat :=
  let r := GOMAXPROCS setting numWorkers
  ({ numWorkers := r.1 }, r.2)

/-- Lower bound `start` of slice number `i` in the splitting loops. -/
def sliceStart (size i : Nat) : Nat := i * size

/-- Upper bound `end` of slice number `i` out of `k` in the splitting loops. -/
def sliceStop (len k size i : Nat) : Nat := if i = k - 1 then len else i * size + size

/-- Partition of 9999 users with one point each. -/
def partition9999 : List User := List.replicate 9999 ⟨1, 1⟩

/-- Eight users with non-negative points whose 64-bit total wraps around to 1. -/
def wrapUsers : List User :=
  [⟨1, 2 ^ 62⟩, ⟨2, 2 ^ 62⟩, ⟨3, 0⟩, ⟨4, 0⟩, ⟨5, 0⟩, ⟨6, 2 ^ 63 - 1⟩, ⟨7, 2⟩, ⟨8, 0⟩]

/-! ## Properties -/

/-! ## Cells of a slice -/

theorem cell_set_eq (t : List Int) (i : Nat) (v : Int) (h : i < t.length) :
    cell (t.set i v) i = v := by
  simp [cell, List.getD_eq_getElem?_getD, List.getElem?_set, h]

theorem cell_set_ne (t : List Int) (i j : Nat) (v : Int) (h : i ≠ j) :
    cell (t.set i v) j = cell t j := by
  simp [cell, List.getD_eq_getElem?_getD, List.getElem?_set, h]

theorem cell_eq_getElem (t : List Int) (i : Nat) (h : i < t.length) :
    cell t i = t[i] := by
  simp [cell, List.getD_eq_getElem?_getD, h]

theorem cellSum_self (t : List Int) (a : Nat) : cellSum t a a = 0 := by
  simp [cellSum]

theorem cellSum_of_le (t : List Int) {a b : Nat} (h : b ≤ a) : cellSum t a b = 0 := by
  simp [cellSum, Finset.Ico_eq_empty_of_le h]

theorem cellSum_succ_top (t : List Int) {a b : Nat} (h : a ≤ b) :
    cellSum t a (b + 1) = cellSum t a b + cell t b := by
  simp [cellSum, Finset.sum_Ico_succ_top h]

theorem cellSum_succ_bot (t : List Int) {a b : Nat} (h : a < b) :
    cellSum t a b = cell t a + cellSum t (a + 1) b := by
  simp [cellSum, Finset.sum_eq_sum_Ico_succ_bot h]

theorem cellSum_append (t : List Int) {a b c : Nat} (h1 : a ≤ b) (h2 : b ≤ c) :
    cellSum t a c = cellSum t a b + cellSum t b c := by
  simp [cellSum, Finset.sum_Ico_consecutive _ h1 h2]

theorem cellSum_congr (t t1 : List Int) (a b : Nat)
    (h : ∀ i, a ≤ i → i < b → cell t1 i = cell t i) : cellSum t1 a b = cellSum t a b := by
  unfold cellSum
  apply Finset.sum_congr rfl
  intro i hi
  rw [Finset.mem_Ico] at hi
  exact h i hi.1 hi.2

/-- One level up: the cells `2a .. 2b-1` add up to the cells `a .. b-1` when
those are internal nodes. -/
theorem cellSum_double (t : List Int) (a b : Nat)
    (h : ∀ j, a ≤ j → j < b → cell t j = cell t (j * 2) + cell t (j * 2 + 1)) :
    cellSum t (a * 2) (b * 2) = cellSum t a b := by
  induction b with
  | zero => simp [cellSum]
  | succ b ih =>
    by_cases hab : a ≤ b
    · have e : (b + 1) * 2 = b * 2 + 1 + 1 := by ring
      rw [e, cellSum_succ_top t (by omega), cellSum_succ_top t (by omega),
        cellSum_succ_top t hab, ih (fun j h1 h2 => h j h1 (by omega)), h b hab (by omega)]
      ring
    · rw [cellSum_of_le t (by omega), cellSum_of_le t (by omega)]

/-- The cells `m .. 2m-1` add up to the root, for every `1 ≤ m ≤ n`. -/
theorem cellSum_level (t : List Int) (n : Nat) (hinv : ExactInv t n) (m : Nat)
    (h1 : 1 ≤ m) (h2 : m ≤ n) : cellSum t m (m * 2) = cell t 1 := by
  induction m with
  | zero => omega
  | succ m ih =>
    by_cases hm : m = 0
    · subst hm
      simp [cellSum]
    · have ih1 := ih (by omega) (by omega)
      have e : (m + 1) * 2 = m * 2 + 1 + 1 := by ring
      rw [e, cellSum_succ_top t (by omega), cellSum_succ_top t (by omega)]
      rw [cellSum_succ_bot t (by omega : m < m * 2), hinv m (by omega) (by omega)] at ih1
      linarith

/-! ## Arithmetic without wrap-around -/

theorem wrapInt_eq (x : Int) (h1 : -2 ^ 63 ≤ x) (h2 : x < 2 ^ 63) : wrapInt x = x := by
  unfold wrapInt
  omega

theorem wrapInt_eq_of_abs (x : Int) (h : |x| < 2 ^ 63) : wrapInt x = x := by
  have h1 := neg_abs_le x
  have h2 := le_abs_self x
  exact wrapInt_eq x (by omega) (by omega)

theorem addInt_eq (a b : Int) (h : |a + b| < 2 ^ 63) : addInt a b = a + b :=
  wrapInt_eq_of_abs _ h

theorem addInt_of_range (a b : Int) (h1 : -2 ^ 63 ≤ a + b) (h2 : a + b < 2 ^ 63) :
    addInt a b = a + b :=
  wrapInt_eq _ h1 h2

theorem subInt_eq (a b : Int) (h1 : -2 ^ 63 ≤ a - b) (h2 : a - b < 2 ^ 63) :
    subInt a b = a - b :=
  wrapInt_eq _ h1 h2

theorem absSum_of_le (t : List Int) {a b : Nat} (h : b ≤ a) : absSum t a b = 0 := by
  simp [absSum, Finset.Ico_eq_empty_of_le h]

theorem absSum_succ_top (t : List Int) {a b : Nat} (h : a ≤ b) :
    absSum t a (b + 1) = absSum t a b + |cell t b| := by
  simp [absSum, Finset.sum_Ico_succ_top h]

theorem absSum_succ_bot (t : List Int) {a b : Nat} (h : a < b) :
    absSum t a b = |cell t a| + absSum t (a + 1) b := by
  simp [absSum, Finset.sum_eq_sum_Ico_succ_bot h]

theorem absSum_append (t : List Int) {a b c : Nat} (h1 : a ≤ b) (h2 : b ≤ c) :
    absSum t a c = absSum t a b + absSum t b c := by
  simp [absSum, Finset.sum_Ico_consecutive _ h1 h2]

theorem absSum_nonneg (t : List Int) (a b : Nat) : 0 ≤ absSum t a b :=
  Finset.sum_nonneg (fun _ _ => abs_nonneg _)

theorem absSum_congr (t t1 : List Int) (a b : Nat)
    (h : ∀ i, a ≤ i → i < b → cell t1 i = cell t i) : absSum t1 a b = absSum t a b := by
  unfold absSum
  apply Finset.sum_congr rfl
  intro i hi
  rw [Finset.mem_Ico] at hi
  rw [h i hi.1 hi.2]

theorem abs_cellSum_le (t : List Int) (a b : Nat) : |cellSum t a b| ≤ absSum t a b :=
  Finset.abs_sum_le_sum_abs _ _

theorem abs_cell_le_absSum (t : List Int) (a b i : Nat) (h1 : a ≤ i) (h2 : i < b) :
    |cell t i| ≤ absSum t a b := by
  rw [absSum_append t h1 (by omega : i ≤ b), absSum_succ_bot t h2]
  have := absSum_nonneg t a i
  have := absSum_nonneg t (i + 1) b
  omega

/-- One level up the absolute values do not grow. -/
theorem absSum_double_le (t : List Int) (a b : Nat)
    (h : ∀ j, a ≤ j → j < b → cell t j = cell t (j * 2) + cell t (j * 2 + 1)) :
    absSum t a b ≤ absSum t (a * 2) (b * 2) := by
  induction b with
  | zero => simp [absSum]
  | succ b ih =>
    by_cases hab : a ≤ b
    · have e : (b + 1) * 2 = b * 2 + 1 + 1 := by ring
      have r1 : absSum t (a * 2) (b * 2 + 1 + 1)
          = absSum t (a * 2) (b * 2 + 1) + |cell t (b * 2 + 1)| :=
        absSum_succ_top t (by omega)
      have r2 : absSum t (a * 2) (b * 2 + 1) = absSum t (a * 2) (b * 2) + |cell t (b * 2)| :=
        absSum_succ_top t (by omega)
      have r3 : absSum t a (b + 1) = absSum t a b + |cell t b| := absSum_succ_top t hab
      rw [e, r1, r2, r3, h b hab (by omega)]
      have := ih (fun j h1 h2 => h j h1 (by omega))
      have := abs_add (cell t (b * 2)) (cell t (b * 2 + 1))
      omega
    · rw [absSum_of_le t (by omega)]
      exact absSum_nonneg _ _ _

/-- When the absolute values of the leaves add up to less than `2 ^ 63`, no
addition in the tree wraps: the nodes hold exact sums, and on every level the
absolute values stay within the bound of the leaves. -/
theorem exact_of_bound (t : List Int) (n : Nat) (hinv : TreeInv t n)
    (hb : absSum t n (n * 2) < 2 ^ 63) :
    ∀ (d m : Nat), 1 ≤ m → m + d = n →
      (∀ i, m ≤ i → i < n → cell t i = cell t (i * 2) + cell t (i * 2 + 1)) ∧
      absSum t m (m * 2) ≤ absSum t n (n * 2) := by
  intro d
  induction d with
  | zero =>
    intro m _ h2
    have : m = n := by omega
    subst this
    exact ⟨fun i h3 h4 => by omega, le_refl _⟩
  | succ d ih =>
    intro m h1 h2
    obtain ⟨e1, e2⟩ := ih (m + 1) (by omega) (by omega)
    have e : (m + 1) * 2 = m * 2 + 1 + 1 := by ring
    rw [e, absSum_succ_top t (by omega), absSum_succ_top t (by omega)] at e2
    have hn1 := absSum_nonneg t (m + 1) (m * 2)
    have htri := abs_add (cell t (m * 2)) (cell t (m * 2 + 1))
    have hm : cell t m = cell t (m * 2) + cell t (m * 2 + 1) := by
      rw [hinv m h1 (by omega)]
      exact addInt_eq _ _ (by omega)
    refine ⟨?_, ?_⟩
    · intro i h3 h4
      by_cases him : i = m
      · subst him; exact hm
      · exact e1 i (by omega) h4
    · rw [absSum_succ_bot t (by omega : m < m * 2), hm]
      omega

theorem exactInv_of_bound (t : List Int) (n : Nat) (hinv : TreeInv t n)
    (hb : absSum t n (n * 2) < 2 ^ 63) : ExactInv t n := by
  intro i h1 h2
  exact (exact_of_bound t n hinv hb (n - 1) 1 (le_refl _) (by omega)).1 i h1 h2

/-- Under the bound every node of the tree is within the bound. -/
theorem abs_cell_le_of_bound (t : List Int) (n : Nat) (hinv : TreeInv t n)
    (hb : absSum t n (n * 2) < 2 ^ 63) (i : Nat) (h1 : 1 ≤ i) (h2 : i < n * 2) :
    |cell t i| ≤ absSum t n (n * 2) := by
  by_cases hi : i < n
  · have := (exact_of_bound t n hinv hb (n - i) i h1 (by omega)).2
    have := abs_cell_le_absSum t i (i * 2) i (le_refl _) (by omega)
    omega
  · exact abs_cell_le_absSum t n (n * 2) i (by omega) h2

/-! ## Sum -/

theorem sumLoop_eq (t : List Int) (n : Nat) (hinv : ExactInv t n) :
    ∀ (fuel left right : Nat) (sum : Int), 1 ≤ left → right ≤ n * 2 → right ≤ fuel →
      |sum| + absSum t left right < 2 ^ 63 →
      sumLoop t fuel left right sum = sum + cellSum t left right := by
  intro fuel
  induction fuel with
  | zero =>
    intro left right sum h1 _ h3 _
    simp [sumLoop, cellSum_of_le t (by omega : right ≤ left)]
  | succ fuel ih =>
    intro left right sum h1 h2 h3 hb
    unfold sumLoop
    by_cases hlr : left < right
    · simp only [hlr, if_true]
      have key : ∀ a b : Nat, 1 ≤ a → b ≤ n → a * 2 ≤ left + 1 → left ≤ a * 2 →
          b * 2 ≤ right → right ≤ b * 2 + 1 →
          cellSum t (a * 2) (b * 2) = cellSum t a b ∧
          absSum t a b ≤ absSum t (a * 2) (b * 2) := by
        intro a b ha hb _ _ _ _
        have hex : ∀ j, a ≤ j → j < b → cell t j = cell t (j * 2) + cell t (j * 2 + 1) :=
          fun j hj1 hj2 => hinv j (by omega) (by omega)
        exact ⟨cellSum_double t a b hex, absSum_double_le t a b hex⟩
      have hs0 := abs_nonneg sum
      rcases Nat.mod_two_eq_zero_or_one left with hl | hl <;>
        rcases Nat.mod_two_eq_zero_or_one right with hr | hr
      · simp only [hl, hr, if_false, Nat.zero_ne_one]
        obtain ⟨k1, k2⟩ := key (left / 2) (right / 2) (by omega) (by omega) (by omega)
          (by omega) (by omega) (by omega)
        have e1 : left / 2 * 2 = left := by omega
        have e2 : right / 2 * 2 = right := by omega
        rw [e1, e2] at k1 k2
        rw [ih _ _ _ (by omega) (by omega) (by omega) (by omega), ← k1]
      · simp only [hl, hr, if_false, if_true, Nat.zero_ne_one]
        obtain ⟨k1, k2⟩ := key (left / 2) ((right - 1) / 2) (by omega) (by omega) (by omega)
          (by omega) (by omega) (by omega)
        have e1 : left / 2 * 2 = left := by omega
        have e2 : (right - 1) / 2 * 2 = right - 1 := by omega
        rw [e1, e2] at k1 k2
        have e3 : right = (right - 1) + 1 := by omega
        have hd : absSum t left right = absSum t left (right - 1) + |cell t (right - 1)| := by
          conv_lhs => rw [e3, absSum_succ_top t (by omega : left ≤ right - 1)]
        have hn := absSum_nonneg t left (right - 1)
        have htri := abs_add sum (cell t (right - 1))
        rw [addInt_eq _ _ (by omega)]
        rw [ih _ _ _ (by omega) (by omega) (by omega) (by omega), ← k1]
        conv_rhs => rw [e3, cellSum_succ_top t (by omega : left ≤ right - 1)]
        ring
      · simp only [hl, hr, if_false, if_true, Nat.zero_ne_one]
        obtain ⟨k1, k2⟩ := key ((left + 1) / 2) (right / 2) (by omega) (by omega) (by omega)
          (by omega) (by omega) (by omega)
        have e1 : (left + 1) / 2 * 2 = left + 1 := by omega
        have e2 : right / 2 * 2 = right := by omega
        rw [e1, e2] at k1 k2
        have hd : absSum t left right = |cell t left| + absSum t (left + 1) right :=
          absSum_succ_bot t hlr
        have hn := absSum_nonneg t (left + 1) right
        have htri := abs_add sum (cell t left)
        rw [addInt_eq _ _ (by omega)]
        rw [ih _ _ _ (by omega) (by omega) (by omega) (by omega), ← k1, cellSum_succ_bot t hlr]
        ring
      · simp only [hl, hr, if_true]
        obtain ⟨k1, k2⟩ := key ((left + 1) / 2) ((right - 1) / 2) (by omega) (by omega)
          (by omega) (by omega) (by omega) (by omega)
        have e1 : (left + 1) / 2 * 2 = left + 1 := by omega
        have e2 : (right - 1) / 2 * 2 = right - 1 := by omega
        rw [e1, e2] at k1 k2
        have e3 : right = (right - 1) + 1 := by omega
        have hd : absSum t left right
            = |cell t left| + (absSum t (left + 1) (right - 1) + |cell t (right - 1)|) := by
          rw [absSum_succ_bot t hlr]
          conv_lhs => rw [e3, absSum_succ_top t (by omega : left + 1 ≤ right - 1)]
        have hn := absSum_nonneg t (left + 1) (right - 1)
        have htri := abs_add sum (cell t left)
        have htri2 := abs_add (sum + cell t left) (cell t (right - 1))
        have hc1 := abs_nonneg (cell t left)
        have hc2 := abs_nonneg (cell t (right - 1))
        rw [addInt_eq sum _ (by omega), addInt_eq _ _ (by omega)]
        rw [ih _ _ _ (by omega) (by omega) (by omega) (by omega), ← k1, cellSum_succ_bot t hlr]
        conv_rhs => rw [e3, cellSum_succ_top t (by omega : left + 1 ≤ right - 1)]
        ring
    · simp only [hlr, if_false]
      rw [cellSum_of_le t (by omega)]
      simp

/-! ## build -/

theorem buildLeaves_length (n : Nat) (users : List User) : ∀ (k i : Nat) (t : List Int),
    (buildLeaves n users k i t).length = t.length := by
  intro k
  induction k with
  | zero => intro i t; rfl
  | succ k ih => intro i t; simp [buildLeaves, ih]

theorem buildLeaves_cell (n : Nat) (users : List User) :
    ∀ (k i : Nat) (t : List Int) (j : Nat), n + i + k ≤ t.length →
    cell (buildLeaves n users k i t) j =
      if n + i ≤ j ∧ j < n + i + k then (userAt users (j - n)).Points else cell t j := by
  intro k
  induction k with
  | zero =>
    intro i t j _
    simp only [buildLeaves]
    rw [if_neg (by omega)]
  | succ k ih =>
    intro i t j hlen
    simp only [buildLeaves]
    rw [ih (i + 1) _ j (by simp; omega)]
    by_cases h1 : n + (i + 1) ≤ j ∧ j < n + (i + 1) + k
    · have h2 : n + i ≤ j ∧ j < n + i + (k + 1) := by omega
      rw [if_pos h1, if_pos h2]
    · rw [if_neg h1]
      by_cases h3 : j = n + i
      · subst h3
        have h2 : n + i ≤ n + i ∧ n + i < n + i + (k + 1) := by omega
        rw [if_pos h2, cell_set_eq _ _ _ (by omega)]
        congr 2
        omega
      · have h2 : ¬ (n + i ≤ j ∧ j < n + i + (k + 1)) := by omega
        rw [if_neg h2, cell_set_ne _ _ _ _ (fun h => h3 h.symm)]

theorem buildInternal_length : ∀ (m : Nat) (t : List Int),
    (buildInternal m t).length = t.length := by
  intro m
  induction m with
  | zero => intro t; rfl
  | succ m ih => intro t; simp [buildInternal, ih]

theorem buildInternal_cell : ∀ (m : Nat) (t : List Int) (j : Nat), m < j →
    cell (buildInternal m t) j = cell t j := by
  intro m
  induction m with
  | zero => intro t j _; rfl
  | succ m ih =>
    intro t j hj
    simp only [buildInternal]
    rw [ih _ _ (by omega), cell_set_ne _ _ _ _ (by omega)]

theorem buildInternal_inv (n : Nat) : ∀ (m : Nat) (t : List Int), m < n → n ≤ t.length →
    (∀ j, m < j → j < n → cell t j = addInt (cell t (j * 2)) (cell t (j * 2 + 1))) →
    TreeInv (buildInternal m t) n := by
  intro m
  induction m with
  | zero =>
    intro t _ _ h j hj1 hj2
    exact h j (by omega) hj2
  | succ m ih =>
    intro t hm hlen h
    simp only [buildInternal]
    apply ih _ (by omega) (by simpa using hlen)
    intro j hj1 hj2
    by_cases hj : j = m + 1
    · subst hj
      rw [cell_set_eq _ _ _ (by omega), cell_set_ne _ _ _ _ (by omega),
        cell_set_ne _ _ _ _ (by omega)]
    · rw [cell_set_ne _ _ _ _ (by omega), cell_set_ne _ _ _ _ (by omega),
        cell_set_ne _ _ _ _ (by omega)]
      exact h j (by omega) hj2

theorem NewSegmentTree_n (users : List User) : (NewSegmentTree users).n = users.length := rfl

theorem NewSegmentTree_bitMapSize (users : List User) :
    (NewSegmentTree users).bitMapSize = 64 := rfl

theorem NewSegmentTree_bitmask (users : List User) :
    (NewSegmentTree users).bitmask = List.replicate ((users.length + 63) / 64) 0 := rfl

theorem NewSegmentTree_length (users : List User) :
    (NewSegmentTree users).tree.length = users.length * 2 := by
  simp [NewSegmentTree, SegmentTree.build, buildInternal_length, buildLeaves_length]
  omega

theorem NewSegmentTree_leaf (users : List User) (j : Nat) (hj : j < users.length) :
    cell (NewSegmentTree users).tree (users.length + j) = (userAt users j).Points := by
  simp only [NewSegmentTree, SegmentTree.build]
  rw [buildInternal_cell _ _ _ (by omega), buildLeaves_cell _ _ _ _ _ _ (by simp; omega)]
  simp [hj]

theorem NewSegmentTree_inv (users : List User) :
    TreeInv (NewSegmentTree users).tree users.length := by
  by_cases h0 : users.length = 0
  · intro i h1 h2
    omega
  · simp only [NewSegmentTree, SegmentTree.build]
    apply buildInternal_inv _ _ _ (by omega) (by simp [buildLeaves_length]; omega)
    intro j h1 h2
    omega

/-! ## Update -/

theorem updateLoop_spec (n : Nat) : ∀ (fuel index : Nat) (t : List Int),
    index ≤ fuel → index < n * 2 → t.length = n * 2 →
    (∀ i, 1 ≤ i → i < n → i ≠ index / 2 →
      cell t i = addInt (cell t (i * 2)) (cell t (i * 2 + 1))) →
    (updateLoop fuel index t).length = n * 2 ∧
    (∀ j, n ≤ j → cell (updateLoop fuel index t) j = cell t j) ∧
    TreeInv (updateLoop fuel index t) n := by
  intro fuel
  induction fuel with
  | zero =>
    intro index t h1 _ h3 h4
    refine ⟨h3, fun _ _ => rfl, ?_⟩
    intro i hi1 hi2
    exact h4 i hi1 hi2 (by omega)
  | succ fuel ih =>
    intro index t h1 h2 h3 h4
    unfold updateLoop
    by_cases hi : index > 1
    · simp only [hi, if_true]
      have hp1 : 1 ≤ index / 2 := by omega
      have hp2 : index / 2 < n := by omega
      obtain ⟨r1, r2, r3⟩ := ih (index / 2)
        (t.set (index / 2) (addInt (cell t (index / 2 * 2)) (cell t (index / 2 * 2 + 1))))
        (by omega) (by omega) (by simpa using h3) (by
          intro i hi1 hi2 hi3
          by_cases hip : i = index / 2
          · subst hip
            rw [cell_set_eq _ _ _ (by omega), cell_set_ne _ _ _ _ (by omega),
              cell_set_ne _ _ _ _ (by omega)]
          · rw [cell_set_ne _ _ _ _ (fun h => hip h.symm), cell_set_ne _ _ _ _ (by omega),
              cell_set_ne _ _ _ _ (by omega)]
            exact h4 i hi1 hi2 hip)
      refine ⟨r1, ?_, r3⟩
      intro j hj
      rw [r2 j hj, cell_set_ne _ _ _ _ (by omega)]
    · rw [if_neg hi]
      refine ⟨h3, fun _ _ => rfl, ?_⟩
      intro i hi1 hi2
      exact h4 i hi1 hi2 (by omega)

theorem Update_n (st : SegmentTree) (index : Nat) (value : Int) :
    (st.Update index value).n = st.n := rfl

theorem Update_bitmask (st : SegmentTree) (index : Nat) (value : Int) :
    (st.Update index value).bitmask = st.bitmask := rfl

theorem Update_bitMapSize (st : SegmentTree) (index : Nat) (value : Int) :
    (st.Update index value).bitMapSize = st.bitMapSize := rfl

theorem Update_spec (st : SegmentTree) (index : Nat) (value : Int)
    (hlen : st.tree.length = st.n * 2) (hinv : TreeInv st.tree st.n) (hi : index < st.n) :
    (st.Update index value).tree.length = st.n * 2 ∧
    cell (st.Update index value).tree (st.n + index) = value ∧
    (∀ j, j ≠ index → cell (st.Update index value).tree (st.n + j) = cell st.tree (st.n + j)) ∧
    TreeInv (st.Update index value).tree st.n := by
  obtain ⟨r1, r2, r3⟩ := updateLoop_spec st.n (index + st.n) (index + st.n)
    (st.tree.set (index + st.n) value) (le_refl _) (by omega) (by simpa using hlen) (by
      intro i hi1 hi2 hi3
      rw [cell_set_ne _ _ _ _ (by omega), cell_set_ne _ _ _ _ (by omega),
        cell_set_ne _ _ _ _ (by omega)]
      exact hinv i hi1 hi2)
  refine ⟨r1, ?_, ?_, r3⟩
  · show cell (updateLoop _ _ _) _ = _
    rw [r2 _ (by omega), Nat.add_comm st.n index, cell_set_eq _ _ _ (by omega)]
  · intro j hj
    show cell (updateLoop _ _ _) _ = _
    rw [r2 _ (by omega), cell_set_ne _ _ _ _ (by omega)]

/-! ## FindIndex -/

/-- Whatever the cells hold, the descent ends on a leaf position. -/
theorem findLoop_range (t : List Int) (n : Nat) :
    ∀ (fuel index : Nat) (target : Int), 1 ≤ index → n ≤ index + fuel →
      n ≤ findLoop t n fuel index target ∧
      (index < n * 2 → findLoop t n fuel index target < n * 2) := by
  intro fuel
  induction fuel with
  | zero =>
    intro index target h1 h2
    simp only [findLoop]
    exact ⟨by omega, fun h => h⟩
  | succ fuel ih =>
    intro index target h1 h2
    unfold findLoop
    by_cases hin : index < n
    · simp only [hin, if_true]
      by_cases hl : cell t (index * 2) ≥ target
      · simp only [hl, if_true]
        obtain ⟨r1, r2⟩ := ih (index * 2) target (by omega) (by omega)
        exact ⟨r1, fun _ => r2 (by omega)⟩
      · simp only [hl, if_false]
        obtain ⟨r1, r2⟩ := ih (index * 2 + 1) (subInt target (cell t (index * 2))) (by omega)
          (by omega)
        exact ⟨r1, fun _ => r2 (by omega)⟩
    · simp only [hin, if_false]
      exact ⟨by omega, fun h => h⟩

/-- When the nodes hold exact sums below `2 ^ 63`, the descent ends on a leaf
that holds at least the remaining target, which is at least 1. -/
theorem findLoop_leaf (t : List Int) (n : Nat) (hinv : ExactInv t n)
    (hbd : ∀ i, 1 ≤ i → i < n * 2 → cell t i < 2 ^ 63) :
    ∀ (fuel index : Nat) (target : Int), 1 ≤ index → n ≤ index + fuel →
      1 ≤ target → target ≤ cell t index →
      n ≤ findLoop t n fuel index target ∧
      (index < n * 2 → findLoop t n fuel index target < n * 2) ∧
      1 ≤ cell t (findLoop t n fuel index target) := by
  intro fuel
  induction fuel with
  | zero =>
    intro index target h1 h2 h3 h4
    simp only [findLoop]
    exact ⟨by omega, fun h => h, by omega⟩
  | succ fuel ih =>
    intro index target h1 h2 h3 h4
    unfold findLoop
    by_cases hin : index < n
    · simp only [hin, if_true]
      by_cases hl : cell t (index * 2) ≥ target
      · simp only [hl, if_true]
        obtain ⟨r1, r2, r3⟩ := ih (index * 2) target (by omega) (by omega) h3 hl
        exact ⟨r1, fun _ => r2 (by omega), r3⟩
      · simp only [hl, if_false]
        have hnode := hinv index h1 hin
        have hr := hbd (index * 2 + 1) (by omega) (by omega)
        rw [subInt_eq _ _ (by omega) (by omega)]
        obtain ⟨r1, r2, r3⟩ := ih (index * 2 + 1) (target - cell t (index * 2)) (by omega)
          (by omega) (by omega) (by omega)
        exact ⟨r1, fun _ => r2 (by omega), r3⟩
    · simp only [hin, if_false]
      exact ⟨by omega, fun h => h, by omega⟩

/-- In a tree whose size is a power of two and whose nodes hold exact sums
below `2 ^ 63`, the descent from a node that has `2 ^ j` leaves below it ends on
the leaf where the running sum of these leaves first reaches the target. -/
theorem findLoop_pow2 (t : List Int) (n : Nat) (hinv : ExactInv t n)
    (hbd : ∀ i, 1 ≤ i → i < n * 2 → cell t i < 2 ^ 63) :
    ∀ (j fuel index : Nat) (target : Int), 1 ≤ index → j ≤ fuel →
      n ≤ index * 2 ^ j → (index + 1) * 2 ^ j ≤ n * 2 →
      1 ≤ target → target ≤ cell t index →
      index * 2 ^ j ≤ findLoop t n fuel index target ∧
      findLoop t n fuel index target < (index + 1) * 2 ^ j ∧
      cellSum t (index * 2 ^ j) (findLoop t n fuel index target) < target ∧
      target ≤ cellSum t (index * 2 ^ j) (findLoop t n fuel index target + 1) := by
  intro j
  induction j with
  | zero =>
    intro fuel index target h1 _ h3 h4 h5 h6
    have hr : findLoop t n fuel index target = index := by
      cases fuel with
      | zero => rfl
      | succ f => simp only [findLoop]; rw [if_neg (by omega)]
    rw [hr]
    simp only [pow_zero, Nat.mul_one]
    refine ⟨le_refl _, by omega, ?_, ?_⟩
    · rw [cellSum_self]; omega
    · rw [cellSum_succ_top t (le_refl _), cellSum_self]; omega
  | succ j ih =>
    intro fuel index target h1 h2 h3 h4 h5 h6
    have hp : 0 < 2 ^ j := Nat.two_pow_pos _
    have e : index * 2 ^ (j + 1) = index * 2 * 2 ^ j := by ring
    have e5 : (index + 1) * 2 ^ (j + 1) = (index * 2 + 1 + 1) * 2 ^ j := by ring
    have e6 : (index * 2 + 1) * 2 ^ j = index * 2 * 2 ^ j + 2 ^ j := by ring
    have e7 : (index * 2 + 1 + 1) * 2 ^ j = index * 2 * 2 ^ j + 2 ^ j + 2 ^ j := by ring
    rw [e] at h3
    rw [e5, e7] at h4
    have hge : index * 2 ≤ index * 2 * 2 ^ j := Nat.le_mul_of_pos_right _ hp
    have hin : index < n := by omega
    have hnode := hinv index h1 hin
    have hright := hbd (index * 2 + 1) (by omega) (by omega)
    -- the left child holds the sum of the leaves below it
    have hleft : cellSum t (index * 2 * 2 ^ j) ((index * 2 + 1) * 2 ^ j) = cell t (index * 2) := by
      clear ih h5 h6 hnode
      have gen : ∀ (k a : Nat), 1 ≤ a → (a + 1) * 2 ^ k ≤ n * 2 →
          (k ≠ 0 → (a + 1) * 2 ^ (k - 1) ≤ n) →
          cellSum t (a * 2 ^ k) ((a + 1) * 2 ^ k) = cell t a := by
        intro k
        induction k with
        | zero =>
          intro a _ _ _
          simp [cellSum]
        | succ k ihk =>
          intro a ha hb hc
          have hc1 := hc (by omega)
          simp only [Nat.add_sub_cancel] at hc1
          have e1 : a * 2 ^ (k + 1) = (a * 2 ^ k) * 2 := by ring
          have e2 : (a + 1) * 2 ^ (k + 1) = ((a + 1) * 2 ^ k) * 2 := by ring
          rw [e1, e2, cellSum_double]
          · apply ihk a ha (by omega)
            intro hk
            have hk1 : k = (k - 1) + 1 := by omega
            have : (a + 1) * 2 ^ k = (a + 1) * 2 ^ (k - 1) * 2 := by
              conv_lhs => rw [hk1]
              ring
            omega
          · intro i hi1 hi2
            have : 1 ≤ a * 2 ^ k := Nat.mul_pos ha (Nat.two_pow_pos _)
            exact hinv i (by omega) (by omega)
      apply gen j (index * 2) (by omega)
      · omega
      · intro hj0
        have hk1 : j = (j - 1) + 1 := by omega
        have e3 : index * 2 * 2 ^ j = (index * 2 * 2 ^ (j - 1)) * 2 := by
          conv_lhs => rw [hk1]
          ring
        have e8 : 2 ^ j = 2 ^ (j - 1) * 2 := by
          conv_lhs => rw [hk1]
          ring
        have e4 : (index * 2 + 1) * 2 ^ (j - 1) = index * 2 * 2 ^ (j - 1) + 2 ^ (j - 1) := by
          ring
        omega
    obtain ⟨f, rfl⟩ : ∃ f, fuel = f + 1 := ⟨fuel - 1, by omega⟩
    unfold findLoop
    simp only [hin, if_true]
    by_cases hl : cell t (index * 2) ≥ target
    · simp only [hl, if_true]
      obtain ⟨r1, r2, r3, r4⟩ := ih f (index * 2) target (by omega) (by omega)
        (by omega) (by omega) h5 hl
      rw [e, e5]
      exact ⟨r1, by omega, r3, r4⟩
    · simp only [hl, if_false]
      rw [subInt_eq _ _ (by omega) (by omega)]
      obtain ⟨r1, r2, r3, r4⟩ := ih f (index * 2 + 1) (target - cell t (index * 2))
        (by omega) (by omega) (by omega) (by omega) (by omega) (by omega)
      rw [e, e5]
      refine ⟨by omega, r2, ?_, ?_⟩
      · rw [cellSum_append t (by omega : index * 2 * 2 ^ j ≤ (index * 2 + 1) * 2 ^ j) r1, hleft]
        omega
      · rw [cellSum_append t (by omega : index * 2 * 2 ^ j ≤ (index * 2 + 1) * 2 ^ j)
          (by omega), hleft]
        omega

/-! ## The bitmask -/

theorem bitOf_eq (b : Nat) (h : b < 64) : bitOf b = 2 ^ b := by
  unfold bitOf
  rw [Nat.one_shiftLeft]
  exact Nat.mod_eq_of_lt (Nat.pow_lt_pow_right (by norm_num) h)

theorem and_bitOf_ne_zero (x b : Nat) (h : b < 64) :
    ((x &&& bitOf b) != 0) = x.testBit b := by
  rw [bitOf_eq b h]
  cases hb : x.testBit b with
  | true =>
    have h1 : (x &&& 2 ^ b).testBit b = true := by
      rw [Nat.testBit_and, hb, Nat.testBit_two_pow_self]; rfl
    have h2 : x &&& 2 ^ b ≠ 0 := by
      intro h0
      rw [h0, Nat.zero_testBit] at h1
      exact Bool.false_ne_true h1
    simpa using h2
  | false =>
    have h2 : x &&& 2 ^ b = 0 := by
      apply Nat.eq_of_testBit_eq
      intro i
      rw [Nat.testBit_and, Nat.zero_testBit, Nat.testBit_two_pow]
      by_cases hi : b = i
      · subst hi; simp [hb]
      · simp [hi]
    simp [h2]

theorem natGetD_set_eq (l : List Nat) (i v : Nat) (h : i < l.length) :
    (l.set i v).getD i 0 = v := by
  simp [List.getD_eq_getElem?_getD, List.getElem?_set, h]

theorem natGetD_set_ne (l : List Nat) (i j v : Nat) (h : i ≠ j) :
    (l.set i v).getD j 0 = l.getD j 0 := by
  simp [List.getD_eq_getElem?_getD, List.getElem?_set, h]

theorem MarkAsDeleted_n (st : SegmentTree) (index : Nat) :
    (st.MarkAsDeleted index).n = st.n := rfl

theorem MarkAsDeleted_bitMapSize (st : SegmentTree) (index : Nat) :
    (st.MarkAsDeleted index).bitMapSize = st.bitMapSize := rfl

theorem MarkAsDeleted_bitmask_length (st : SegmentTree) (index : Nat) :
    (st.MarkAsDeleted index).bitmask.length = st.bitmask.length := by
  simp [SegmentTree.MarkAsDeleted, SegmentTree.Update]

/-- Marking sets the bit of `index` and no other bit; an index whose word lies
past the bitmask stays out of range. -/
theorem IsDeleted_MarkAsDeleted (st : SegmentTree) (index j : Nat)
    (hb : st.bitMapSize = 64) (hw : index / 64 < st.bitmask.length) :
    (st.MarkAsDeleted index).IsDeleted j
      = (st.IsDeleted j).map (fun b => decide (j = index) || b) := by
  have hj : j % 64 < 64 := Nat.mod_lt _ (by norm_num)
  have hi : index % 64 < 64 := Nat.mod_lt _ (by norm_num)
  simp only [SegmentTree.IsDeleted, SegmentTree.MarkAsDeleted, SegmentTree.Update, hb,
    List.length_set]
  by_cases hjw : j / 64 < st.bitmask.length
  · rw [if_pos hjw, if_pos hjw, Option.map_some', and_bitOf_ne_zero _ _ hj,
      and_bitOf_ne_zero _ _ hj]
    congr 1
    by_cases hw1 : index / 64 = j / 64
    · rw [← hw1, natGetD_set_eq _ _ _ hw, Nat.testBit_mod_two_pow, Nat.testBit_or,
        bitOf_eq _ hi, Nat.testBit_two_pow]
      by_cases hbit : index % 64 = j % 64
      · have : j = index := by omega
        simp [hbit, hj, this]
      · have : j ≠ index := fun h => hbit (by rw [h])
        simp [hbit, hj, this]
    · rw [natGetD_set_ne _ _ _ _ hw1]
      have : j ≠ index := fun h => hw1 (by rw [h])
      simp [this]
  · rw [if_neg hjw, if_neg hjw]
    rfl

theorem IsDeleted_NewSegmentTree (users : List User) (j : Nat) (hj : j < users.length) :
    (NewSegmentTree users).IsDeleted j = some false := by
  simp only [SegmentTree.IsDeleted, NewSegmentTree_bitmask, NewSegmentTree_bitMapSize,
    List.length_replicate]
  rw [if_pos (by omega)]
  have : (List.replicate ((users.length + 63) / 64) 0).getD (j / 64) 0 = 0 := by
    simp only [List.getD_eq_getElem?_getD, List.getElem?_replicate]
    split <;> rfl
  rw [this]
  simp

/-! ## Users of a slice -/

theorem userAt_eq_getElem (users : List User) (i : Nat) (h : i < users.length) :
    userAt users i = users[i] := by
  simp [userAt, List.getD_eq_getElem?_getD, h]

theorem userAt_mem (users : List User) (i : Nat) (h : i < users.length) :
    userAt users i ∈ users := by
  rw [userAt_eq_getElem users i h]
  exact List.getElem_mem _

theorem map_userAt_range (users : List User) :
    (List.range users.length).map (userAt users) = users := by
  apply List.ext_getElem
  · simp
  · intro i h1 h2
    simp only [List.getElem_map, List.getElem_range]
    exact userAt_eq_getElem users i h2

theorem sum_map_range (g : Nat → Int) (n : Nat) :
    ((List.range n).map g).sum = ∑ j ∈ Finset.range n, g j := by
  induction n with
  | zero => simp
  | succ n ih => rw [List.sum_range_succ, Finset.sum_range_succ, ih]

theorem sum_map_users (users : List User) (f : User → Int) :
    (users.map f).sum = ∑ j ∈ Finset.range users.length, f (userAt users j) := by
  conv_lhs => rw [← map_userAt_range users]
  rw [List.map_map, sum_map_range]
  rfl

theorem absWeight_eq (users : List User) :
    absWeight users = ∑ j ∈ Finset.range users.length, |(userAt users j).Points| :=
  sum_map_users users _

theorem absWeight_nonneg (users : List User) : 0 ≤ absWeight users := by
  rw [absWeight_eq]
  exact Finset.sum_nonneg (fun _ _ => abs_nonneg _)

theorem absWeight_cons (u : User) (users : List User) :
    absWeight (u :: users) = |u.Points| + absWeight users := by
  simp [absWeight]

theorem absWeight_append (l₁ l₂ : List User) :
    absWeight (l₁ ++ l₂) = absWeight l₁ + absWeight l₂ := by
  simp [absWeight]

theorem absWeight_take_le (users : List User) (k : Nat) :
    absWeight (users.take k) ≤ absWeight users := by
  have h := absWeight_append (users.take k) (users.drop k)
  rw [List.take_append_drop] at h
  have := absWeight_nonneg (users.drop k)
  omega

theorem absWeight_drop_le (users : List User) (k : Nat) :
    absWeight (users.drop k) ≤ absWeight users := by
  have h := absWeight_append (users.take k) (users.drop k)
  rw [List.take_append_drop] at h
  have := absWeight_nonneg (users.take k)
  omega

/-- On non-negative points the absolute values add up to the total. -/
theorem absWeight_of_nonneg (users : List User) (hnn : ∀ u ∈ users, 0 ≤ u.Points) :
    absWeight users = (users.map User.Points).sum := by
  induction users with
  | nil => rfl
  | cons u rest ih =>
    rw [absWeight_cons, ih (fun v hv => hnn v (List.mem_cons_of_mem _ hv)), List.map_cons,
      List.sum_cons, abs_of_nonneg (hnn u (List.mem_cons_self _ _))]

theorem absWeight_le_length (users : List User) (B : Int)
    (h : ∀ u ∈ users, |u.Points| ≤ B) : absWeight users ≤ users.length * B := by
  induction users with
  | nil => simp [absWeight]
  | cons u rest ih =>
    have h1 := ih (fun v hv => h v (List.mem_cons_of_mem _ hv))
    have h2 := h u (List.mem_cons_self _ _)
    rw [absWeight_cons, List.length_cons]
    push_cast
    linarith

/-! ## A tree that mirrors a subgroup -/

theorem NewSegmentTree_ok (users : List User) : TreeOk users (NewSegmentTree users) where
  hn := rfl
  hlen := NewSegmentTree_length users
  hbits := rfl
  hmask := by simp [NewSegmentTree_bitmask, NewSegmentTree_n]
  hinv := NewSegmentTree_inv users
  hleaf := by
    intro j hj
    rw [IsDeleted_NewSegmentTree users j hj, if_neg (by simp)]
    exact NewSegmentTree_leaf users j hj

/-- Inside the tree `IsDeleted` answers. -/
theorem TreeOk.isDeleted_some {sub : List User} {st : SegmentTree} (h : TreeOk sub st)
    (j : Nat) (hj : j < st.n) : ∃ b, st.IsDeleted j = some b := by
  simp only [SegmentTree.IsDeleted, h.hbits, h.hmask]
  rw [if_pos (by omega)]
  exact ⟨_, rfl⟩

/-- On the tree of an empty subgroup `IsDeleted` aborts. -/
theorem TreeOk.isDeleted_none {sub : List User} {st : SegmentTree} (h : TreeOk sub st)
    (h0 : st.n = 0) (j : Nat) : st.IsDeleted j = none := by
  simp only [SegmentTree.IsDeleted, h.hbits, h.hmask, h0]
  rw [if_neg (by omega)]

/-- Whatever the cells hold, FindIndex answers an index of the subgroup. -/
theorem FindIndex_range (st : SegmentTree) (hn : 1 ≤ st.n) (target : Int) :
    st.FindIndex target < st.n := by
  obtain ⟨r1, r2⟩ := findLoop_range st.tree st.n st.n 1 target (le_refl _) (by omega)
  have := r2 (by omega)
  unfold SegmentTree.FindIndex
  omega

/-- The leaves of a well-formed tree weigh no more than the subgroup. -/
theorem TreeOk.absSum_le {sub : List User} {st : SegmentTree} (h : TreeOk sub st) :
    absSum st.tree st.n (st.n * 2) ≤ absWeight sub := by
  rw [absWeight_eq, ← h.hn]
  unfold absSum
  rw [Finset.sum_Ico_eq_sum_range, show st.n * 2 - st.n = st.n by omega]
  apply Finset.sum_le_sum
  intro j hj
  rw [Finset.mem_range] at hj
  rw [h.hleaf j hj]
  split
  · simp
  · exact le_refl _

theorem TreeOk.exact {sub : List User} {st : SegmentTree} (h : TreeOk sub st)
    (hb : absWeight sub < 2 ^ 63) : ExactInv st.tree st.n :=
  exactInv_of_bound st.tree st.n h.hinv (lt_of_le_of_lt h.absSum_le hb)

theorem TreeOk.abs_cell_le {sub : List User} {st : SegmentTree} (h : TreeOk sub st)
    (hb : absWeight sub < 2 ^ 63) (i : Nat) (h1 : 1 ≤ i) (h2 : i < st.n * 2) :
    |cell st.tree i| ≤ absWeight sub :=
  le_trans (abs_cell_le_of_bound st.tree st.n h.hinv (lt_of_le_of_lt h.absSum_le hb) i h1 h2)
    h.absSum_le

theorem TreeOk.cell_lt {sub : List User} {st : SegmentTree} (h : TreeOk sub st)
    (hb : absWeight sub < 2 ^ 63) (i : Nat) (h1 : 1 ≤ i) (h2 : i < st.n * 2) :
    cell st.tree i < 2 ^ 63 := by
  have := h.abs_cell_le hb i h1 h2
  have := le_abs_self (cell st.tree i)
  omega

/-! ## Sum and FindIndex without wrap-around -/

theorem absSum_sub_le (t : List Int) (n lo hi : Nat) (h1 : lo ≤ hi) (h2 : hi ≤ n) :
    absSum t (n + lo) (n + hi) ≤ absSum t n (n * 2) := by
  rw [absSum_append t (by omega : n ≤ n + lo) (by omega : n + lo ≤ n * 2),
    absSum_append t (by omega : n + lo ≤ n + hi) (by omega : n + hi ≤ n * 2)]
  have := absSum_nonneg t n (n + lo)
  have := absSum_nonneg t (n + hi) (n * 2)
  omega

theorem Sum_eq_cellSum (st : SegmentTree) (hinv : TreeInv st.tree st.n)
    (hb : absSum st.tree st.n (st.n * 2) < 2 ^ 63) (lo hi : Nat)
    (h1 : lo ≤ hi) (h2 : hi ≤ st.n) :
    st.Sum lo hi = cellSum st.tree (st.n + lo) (st.n + hi) := by
  unfold SegmentTree.Sum
  by_cases hn : st.n = 0
  · have e1 : hi = 0 := by omega
    have e2 : lo = 0 := by omega
    subst e1 e2
    rw [hn]
    simp [sumLoop, cellSum]
  · have hle := absSum_sub_le st.tree st.n lo hi h1 h2
    rw [Nat.add_comm lo, Nat.add_comm hi,
      sumLoop_eq st.tree st.n (exactInv_of_bound _ _ hinv hb) _ _ _ _ (by omega) (by omega)
        (le_refl _) (by simp only [abs_zero]; omega)]
    simp

theorem Sum_total (st : SegmentTree) (hinv : TreeInv st.tree st.n)
    (hb : absSum st.tree st.n (st.n * 2) < 2 ^ 63) :
    st.Sum 0 st.n = total st := by
  rw [Sum_eq_cellSum st hinv hb 0 st.n (Nat.zero_le _) (le_refl _)]
  unfold total
  congr 1
  omega

theorem total_eq_root (st : SegmentTree) (hinv : ExactInv st.tree st.n) (hn : 1 ≤ st.n) :
    total st = cell st.tree 1 :=
  cellSum_level st.tree st.n hinv st.n hn (le_refl _)

theorem abs_total_le (st : SegmentTree) : |total st| ≤ absSum st.tree st.n (st.n * 2) :=
  abs_cellSum_le _ _ _

theorem TreeOk.sum_total {sub : List User} {st : SegmentTree} (h : TreeOk sub st)
    (hb : absWeight sub < 2 ^ 63) : st.Sum 0 st.n = total st :=
  Sum_total st h.hinv (lt_of_le_of_lt h.absSum_le hb)

theorem TreeOk.abs_total {sub : List User} {st : SegmentTree} (h : TreeOk sub st) :
    |total st| ≤ absWeight sub :=
  le_trans (abs_total_le st) h.absSum_le

/-- Without wrap-around FindIndex lands on a leaf of the tree whose current
value is at least 1. -/
theorem FindIndex_leaf (st : SegmentTree) (hinv : ExactInv st.tree st.n)
    (hbd : ∀ i, 1 ≤ i → i < st.n * 2 → cell st.tree i < 2 ^ 63) (target : Int)
    (h1 : 1 ≤ target) (h2 : target ≤ total st) :
    st.FindIndex target < st.n ∧ 1 ≤ cell st.tree (st.n + st.FindIndex target) := by
  have hn : 1 ≤ st.n := by
    by_contra hc
    have h0 : st.n = 0 := by omega
    unfold total at h2
    rw [h0] at h2
    simp [cellSum] at h2
    omega
  rw [total_eq_root st hinv hn] at h2
  obtain ⟨r1, r2, r3⟩ := findLoop_leaf st.tree st.n hinv hbd st.n 1 target (le_refl _)
    (by omega) h1 h2
  have r2 := r2 (by omega)
  unfold SegmentTree.FindIndex
  refine ⟨by omega, ?_⟩
  have e : st.n + (findLoop st.tree st.n st.n 1 target - st.n)
      = findLoop st.tree st.n st.n 1 target := by omega
  rw [e]
  exact r3

theorem FindIndex_live (sub : List User) (st : SegmentTree) (hok : TreeOk sub st)
    (hb : absWeight sub < 2 ^ 63) (target : Int)
    (h1 : 1 ≤ target) (h2 : target ≤ total st) :
    st.FindIndex target < st.n ∧ st.IsDeleted (st.FindIndex target) = some false ∧
    1 ≤ (userAt sub (st.FindIndex target)).Points := by
  obtain ⟨r1, r2⟩ := FindIndex_leaf st (hok.exact hb) (hok.cell_lt hb) target h1 h2
  have h := hok.hleaf _ r1
  obtain ⟨b, hd⟩ := hok.isDeleted_some _ r1
  cases b with
  | true =>
    rw [hd, if_pos rfl] at h
    omega
  | false =>
    rw [hd, if_neg (by simp)] at h
    exact ⟨r1, hd, by omega⟩

theorem total_Update (st : SegmentTree) (index : Nat) (value : Int)
    (hlen : st.tree.length = st.n * 2) (hinv : TreeInv st.tree st.n) (hi : index < st.n) :
    total (st.Update index value) = total st - cell st.tree (st.n + index) + value := by
  obtain ⟨_, r2, r3, _⟩ := Update_spec st index value hlen hinv hi
  unfold total
  rw [Update_n]
  have hsplit : ∀ t : List Int, cellSum t st.n (st.n * 2) =
      cellSum t st.n (st.n + index) + cell t (st.n + index)
        + cellSum t (st.n + index + 1) (st.n * 2) := by
    intro t
    rw [cellSum_append t (by omega : st.n ≤ st.n + index) (by omega : st.n + index ≤ st.n * 2),
      cellSum_succ_bot t (by omega : st.n + index < st.n * 2)]
    ring
  rw [hsplit (st.Update index value).tree, hsplit st.tree, r2]
  have c1 : cellSum (st.Update index value).tree st.n (st.n + index)
      = cellSum st.tree st.n (st.n + index) := by
    apply cellSum_congr
    intro i hi1 hi2
    have := r3 (i - st.n) (by omega)
    rwa [show st.n + (i - st.n) = i by omega] at this
  have c2 : cellSum (st.Update index value).tree (st.n + index + 1) (st.n * 2)
      = cellSum st.tree (st.n + index + 1) (st.n * 2) := by
    apply cellSum_congr
    intro i hi1 hi2
    have := r3 (i - st.n) (by omega)
    rwa [show st.n + (i - st.n) = i by omega] at this
  rw [c1, c2]
  ring

theorem MarkAsDeleted_tree (st : SegmentTree) (index : Nat) :
    (st.MarkAsDeleted index).tree = (st.Update index 0).tree := rfl

theorem MarkAsDeleted_ok (sub : List User) (st : SegmentTree) (hok : TreeOk sub st)
    (index : Nat) (hi : index < st.n) :
    TreeOk sub (st.MarkAsDeleted index) ∧
    total (st.MarkAsDeleted index) = total st - cell st.tree (st.n + index) ∧
    ∀ j, (st.MarkAsDeleted index).IsDeleted j
      = (st.IsDeleted j).map (fun b => decide (j = index) || b) := by
  obtain ⟨r1, r2, r3, r4⟩ := Update_spec st index 0 hok.hlen hok.hinv hi
  have hdel : ∀ j, (st.MarkAsDeleted index).IsDeleted j
      = (st.IsDeleted j).map (fun b => decide (j = index) || b) := by
    intro j
    apply IsDeleted_MarkAsDeleted st index j hok.hbits
    rw [hok.hmask]
    omega
  refine ⟨?_, ?_, hdel⟩
  · refine ⟨hok.hn, ?_, hok.hbits, ?_, ?_, ?_⟩
    · rw [MarkAsDeleted_tree, MarkAsDeleted_n]; exact r1
    · rw [MarkAsDeleted_bitmask_length, MarkAsDeleted_n]; exact hok.hmask
    · rw [MarkAsDeleted_tree, MarkAsDeleted_n]; exact r4
    · intro j hj
      rw [MarkAsDeleted_n] at hj ⊢
      rw [MarkAsDeleted_tree, hdel]
      obtain ⟨b, hbj⟩ := hok.isDeleted_some j hj
      by_cases hji : j = index
      · subst hji
        rw [r2, hbj]
        simp
      · rw [r3 j hji, hok.hleaf j hj, hbj]
        simp [hji]
  · have := total_Update st index 0 hok.hlen hok.hinv hi
    unfold total at this ⊢
    rw [MarkAsDeleted_tree, MarkAsDeleted_n]
    rw [Update_n] at this
    rw [this]
    ring

/-- After marking, the marked index reads deleted and every other index of the
tree reads as before. -/
theorem MarkAsDeleted_reads (sub : List User) (st : SegmentTree) (hok : TreeOk sub st)
    (index : Nat) (hi : index < st.n) :
    (st.MarkAsDeleted index).IsDeleted index = some true ∧
    ∀ j, j ≠ index → (st.MarkAsDeleted index).IsDeleted j = st.IsDeleted j := by
  obtain ⟨_, _, m3⟩ := MarkAsDeleted_ok sub st hok index hi
  obtain ⟨b, hb⟩ := hok.isDeleted_some index hi
  refine ⟨by rw [m3, hb]; simp, ?_⟩
  intro j hj
  rw [m3]
  cases st.IsDeleted j with
  | none => rfl
  | some b => simp [hj]

/-! ## The draw loop -/

/-- With the quota 0 the loop is not entered. -/
theorem drawLoop_quota_zero (rng : Nat → Nat) (sub : List User) (fuel : Nat) (st : SegmentTree)
    (res : List User) (lp : Int) (c : Nat) :
    drawLoop rng sub 0 fuel st res lp c = some (res, lp, c) := by
  cases fuel with
  | zero =>
    simp only [drawLoop]
    rw [if_neg (by omega)]
  | succ fuel =>
    rw [drawLoop, if_neg (by omega)]

/-- Whatever the cells hold: a result of the draw loop from a well-formed tree
extends the winners by the users of a duplicate-free list of indices that were
not deleted and whose points are not 0, never beyond the quota. -/
theorem drawLoop_sound (rng : Nat → Nat) (sub : List User) (quota : Nat) :
    ∀ (fuel : Nat) (st : SegmentTree) (res : List User) (lp : Int) (c : Nat)
      (res1 : List User) (lp1 : Int) (c1 : Nat),
      TreeOk sub st → drawLoop rng sub quota fuel st res lp c = some (res1, lp1, c1) →
      ∃ idxs : List Nat, res1 = res ++ idxs.map (userAt sub) ∧ idxs.Nodup ∧
        (∀ i ∈ idxs, i < sub.length ∧ st.IsDeleted i = some false ∧
          (userAt sub i).Points ≠ 0) ∧
        (res.length ≤ quota → res.length + idxs.length ≤ quota) := by
  intro fuel
  induction fuel with
  | zero =>
    intro st res lp c res1 lp1 c1 _ h
    simp only [drawLoop] at h
    by_cases hcond : res.length < quota ∧ lp > 0
    · rw [if_pos hcond] at h
      exact absurd h (by simp)
    · rw [if_neg hcond] at h
      simp only [Option.some.injEq, Prod.mk.injEq] at h
      refine ⟨[], by simp [h.1], List.nodup_nil, fun i hi => by simp at hi, fun hq => by simpa using hq⟩
  | succ fuel ih =>
    intro st res lp c res1 lp1 c1 hok h
    rw [drawLoop] at h
    by_cases hcond : res.length < quota ∧ lp > 0
    · rw [if_pos hcond] at h
      simp only [] at h
      generalize hix : st.FindIndex (addInt ((rng c % lp.toNat : Nat) : Int) 1) = index at h
      cases hd : st.IsDeleted index with
      | none =>
        rw [hd] at h
        exact absurd h (by simp)
      | some deleted =>
        rw [hd] at h
        simp only at h
        by_cases hb : (deleted || (userAt sub index).Points == 0) = true
        · rw [if_pos hb] at h
          exact ih st res lp (c + 1) res1 lp1 c1 hok h
        · rw [if_neg hb] at h
          have hb2 : deleted = false ∧ (userAt sub index).Points ≠ 0 := by
            cases deleted <;> simp at hb ⊢
            exact hb
          have hn : 1 ≤ st.n := by
            by_contra hc
            have := hok.isDeleted_none (by omega) index
            rw [this] at hd
            exact absurd hd (by simp)
          have hlt : index < st.n := by
            rw [← hix]
            exact FindIndex_range st hn _
          obtain ⟨m1, _, m3⟩ := MarkAsDeleted_ok sub st hok index hlt
          obtain ⟨idxs, r1, r2, r3, r4⟩ := ih _ _ _ _ res1 lp1 c1 m1 h
          have hsplit : ∀ i ∈ idxs, i ≠ index ∧ st.IsDeleted i = some false := by
            intro i hi
            have h1 := (r3 i hi).2.1
            rw [m3] at h1
            cases hsi : st.IsDeleted i with
            | none => rw [hsi] at h1; exact absurd h1 (by simp)
            | some b =>
              rw [hsi] at h1
              simp only [Option.map_some', Option.some.injEq, Bool.or_eq_false_iff,
                decide_eq_false_iff_not] at h1
              exact ⟨h1.1, by rw [h1.2]⟩
          refine ⟨index :: idxs, ?_, ?_, ?_, ?_⟩
          · rw [r1]
            simp
          · rw [List.nodup_cons]
            exact ⟨fun hmem => (hsplit index hmem).1 rfl, r2⟩
          · intro i hi
            rw [List.mem_cons] at hi
            rcases hi with rfl | hi
            · exact ⟨by rw [← hok.hn]; exact hlt, by rw [hd, hb2.1], hb2.2⟩
            · exact ⟨(r3 i hi).1, (hsplit i hi).2, (r3 i hi).2.2⟩
          · intro hq
            have := r4 (by simp; omega)
            simp only [List.length_append, List.length_cons, List.length_nil] at this ⊢
            omega
    · rw [if_neg hcond] at h
      simp only [Option.some.injEq, Prod.mk.injEq] at h
      refine ⟨[], by simp [h.1], List.nodup_nil, fun i hi => by simp at hi, fun hq => by simpa using hq⟩

/-- Without wrap-around (the absolute values of the points add up to less than
`2 ^ 63`) the draw loop from a well-formed tree returns once the fuel covers the
missing winners; every draw accepts a winner, the accepted indices are live and
have positive points, and the loop stops early only on a tree without weight. -/
theorem drawLoop_spec (rng : Nat → Nat) (sub : List User) (hb : absWeight sub < 2 ^ 63)
    (quota : Nat) :
    ∀ (fuel : Nat) (st : SegmentTree) (res : List User) (lp : Int) (c : Nat),
      TreeOk sub st → lp = total st → quota ≤ res.length + fuel →
      ∃ (idxs : List Nat) (st1 : SegmentTree),
        drawLoop rng sub quota fuel st res lp c
          = some (res ++ idxs.map (userAt sub), total st1, c + idxs.length) ∧
        idxs.Nodup ∧
        (∀ i ∈ idxs, i < sub.length ∧ st.IsDeleted i = some false ∧
          1 ≤ (userAt sub i).Points) ∧
        TreeOk sub st1 ∧
        (∀ j, st1.IsDeleted j = (st.IsDeleted j).map (fun b => b || decide (j ∈ idxs))) ∧
        (res.length + idxs.length < quota → total st1 ≤ 0) ∧
        (res.length ≤ quota → res.length + idxs.length ≤ quota) := by
  intro fuel
  induction fuel with
  | zero =>
    intro st res lp c hok hlp hq
    refine ⟨[], st, ?_, List.nodup_nil, ?_, hok, ?_, ?_, ?_⟩
    · simp only [drawLoop]
      rw [if_neg (by omega)]
      simp [hlp]
    · intro i hi; simp at hi
    · intro j; cases st.IsDeleted j <;> simp
    · intro h; simp at h; omega
    · intro h; simpa using h
  | succ fuel ih =>
    intro st res lp c hok hlp hq
    by_cases hcond : res.length < quota ∧ lp > 0
    · obtain ⟨hc1, hc2⟩ := hcond
      have hnat : ((lp.toNat : Nat) : Int) = lp := Int.toNat_of_nonneg (by omega)
      have hpos : 0 < lp.toNat := by omega
      have hlt : rng c % lp.toNat < lp.toNat := Nat.mod_lt _ hpos
      have habs := hok.abs_total
      have hself := le_abs_self (total st)
      have hrand : addInt ((rng c % lp.toNat : Nat) : Int) 1
          = ((rng c % lp.toNat : Nat) : Int) + 1 :=
        addInt_of_range _ _ (by omega) (by omega)
      have ht1 : (1 : Int) ≤ ((rng c % lp.toNat : Nat) : Int) + 1 := by omega
      have ht2 : ((rng c % lp.toNat : Nat) : Int) + 1 ≤ total st := by omega
      generalize hix : st.FindIndex (((rng c % lp.toNat : Nat) : Int) + 1) = index
      obtain ⟨f1, f2, f3⟩ := FindIndex_live sub st hok hb _ ht1 ht2
      rw [hix] at f1 f2 f3
      obtain ⟨m1, m2, m3⟩ := MarkAsDeleted_ok sub st hok _ f1
      have hleaf := hok.hleaf _ f1
      rw [f2, if_neg (by simp)] at hleaf
      rw [hleaf] at m2
      have habs2 := m1.abs_total
      have hneg := neg_abs_le (total (st.MarkAsDeleted index))
      have hself2 := le_abs_self (total (st.MarkAsDeleted index))
      have hsub : subInt lp (userAt sub index).Points = lp - (userAt sub index).Points :=
        subInt_eq _ _ (by omega) (by omega)
      obtain ⟨idxs, st1, r1, r2, r3, r4, r5, r6, r7⟩ := ih
        (st.MarkAsDeleted index) (res ++ [userAt sub index])
        (lp - (userAt sub index).Points)
        (c + 1) m1 (by rw [m2, hlp]) (by simp; omega)
      refine ⟨index :: idxs, st1, ?_, ?_, ?_, r4, ?_, ?_, ?_⟩
      · rw [drawLoop, if_pos ⟨hc1, hc2⟩]
        simp only []
        rw [hrand, hix, f2]
        have hne : ¬ ((userAt sub index).Points = 0) := by omega
        simp only [hne, Bool.false_or, beq_iff_eq, if_false]
        rw [hsub, r1]
        simp only [List.map_cons, List.append_assoc, List.singleton_append, List.length_cons]
        have e : c + 1 + idxs.length = c + (idxs.length + 1) := by omega
        rw [e]
      · rw [List.nodup_cons]
        refine ⟨?_, r2⟩
        intro hmem
        have h1 := (r3 _ hmem).2.1
        rw [m3, f2] at h1
        simp at h1
      · intro i hi
        rw [List.mem_cons] at hi
        rcases hi with rfl | hi
        · exact ⟨by rw [← hok.hn]; exact f1, f2, f3⟩
        · obtain ⟨a1, a2, a3⟩ := r3 i hi
          rw [m3] at a2
          refine ⟨a1, ?_, a3⟩
          cases hsi : st.IsDeleted i with
          | none => rw [hsi] at a2; exact absurd a2 (by simp)
          | some b =>
            rw [hsi] at a2
            simp only [Option.map_some', Option.some.injEq, Bool.or_eq_false_iff] at a2
            rw [a2.2]
      · intro j
        rw [r5, m3]
        cases st.IsDeleted j with
        | none => rfl
        | some a =>
          simp only [Option.map_some', Option.some.injEq, List.mem_cons]
          by_cases h1 : j = index <;> by_cases h2 : j ∈ idxs <;> cases a <;> simp [h1, h2]
      · intro h
        apply r6
        simp only [List.length_append, List.length_cons, List.length_nil] at h ⊢
        omega
      · intro h
        have := r7 (by simp; omega)
        simp only [List.length_append, List.length_cons, List.length_nil] at this ⊢
        omega
    · refine ⟨[], st, ?_, List.nodup_nil, ?_, hok, ?_, ?_, ?_⟩
      · rw [drawLoop, if_neg hcond]
        simp [hlp]
      · intro i hi; simp at hi
      · intro j; cases st.IsDeleted j <;> simp
      · intro h
        simp only [List.length_nil, Nat.add_zero] at h
        by_contra hc
        exact hcond ⟨h, by omega⟩
      · intro h; simpa using h

/-- More fuel does not change a result of the draw loop. -/
theorem drawLoop_mono (rng : Nat → Nat) (sub : List User) (quota : Nat) :
    ∀ (fuel : Nat) (st : SegmentTree) (res : List User) (lp : Int) (c : Nat)
      (r : List User × Int × Nat),
      drawLoop rng sub quota fuel st res lp c = some r →
      drawLoop rng sub quota (fuel + 1) st res lp c = some r := by
  intro fuel
  induction fuel with
  | zero =>
    intro st res lp c r h
    simp only [drawLoop] at h ⊢
    by_cases hcond : res.length < quota ∧ lp > 0
    · rw [if_pos hcond] at h; exact absurd h (by simp)
    · rw [if_neg hcond] at h ⊢; exact h
  | succ fuel ih =>
    intro st res lp c r h
    rw [drawLoop] at h ⊢
    by_cases hcond : res.length < quota ∧ lp > 0
    · rw [if_pos hcond] at h ⊢
      simp only [] at h ⊢
      generalize st.FindIndex (addInt ((rng c % lp.toNat : Nat) : Int) 1) = index at h ⊢
      cases hd : st.IsDeleted index with
      | none => rw [hd] at h; exact absurd h (by simp)
      | some deleted =>
        rw [hd] at h
        simp only at h ⊢
        by_cases hb : (deleted || (userAt sub index).Points == 0) = true
        · rw [if_pos hb] at h ⊢
          exact ih _ _ _ _ _ h
        · rw [if_neg hb] at h ⊢
          exact ih _ _ _ _ _ h
    · rw [if_neg hcond] at h ⊢; exact h

/-! ## Selections -/

theorem subperm_map {α β : Type} (f : α → β) {l₁ l₂ : List α} (h : l₁.Subperm l₂) :
    (l₁.map f).Subperm (l₂.map f) := by
  obtain ⟨l, hp, hs⟩ := h
  exact ⟨l.map f, hp.map f, hs.map f⟩

theorem subperm_append {α : Type} {l₁ l₂ r₁ r₂ : List α} (h1 : l₁.Subperm l₂)
    (h2 : r₁.Subperm r₂) : (l₁ ++ r₁).Subperm (l₂ ++ r₂) := by
  obtain ⟨l, hp, hs⟩ := h1
  obtain ⟨r, hp2, hs2⟩ := h2
  exact ⟨l ++ r, hp.append hp2, hs.append hs2⟩

theorem subperm_nodup {α : Type} {l₁ l₂ : List α} (h : l₁.Subperm l₂) (hn : l₂.Nodup) :
    l₁.Nodup := by
  obtain ⟨l, hp, hs⟩ := h
  exact hp.nodup_iff.1 (hn.sublist hs)

/-- A duplicate-free list of valid indices selects a sub-multiset of the users. -/
theorem map_userAt_subperm (users : List User) (idxs : List Nat) (hnd : idxs.Nodup)
    (hlt : ∀ i ∈ idxs, i < users.length) : (idxs.map (userAt users)).Subperm users := by
  have h1 : idxs.Subperm (List.range users.length) := by
    apply List.subperm_of_subset hnd
    intro i hi
    exact List.mem_range.2 (hlt i hi)
  have h2 := subperm_map (userAt users) h1
  rwa [map_userAt_range] at h2

theorem eligible_eq_range (users : List User) :
    eligible users
      = ((List.range users.length).filter (fun i => decide (0 < (userAt users i).Points))).length := by
  unfold eligible
  conv_lhs => rw [← map_userAt_range users]
  rw [List.countP_map, List.countP_eq_length_filter]
  rfl

theorem eligible_le_length (users : List User) : eligible users ≤ users.length :=
  List.countP_le_length _

theorem eligible_eq_length (users : List User) (h : ∀ u ∈ users, 1 ≤ u.Points) :
    eligible users = users.length := by
  unfold eligible
  rw [List.countP_eq_length]
  intro u hu
  have := h u hu
  simp
  omega

theorem eligible_eq_zero (users : List User) (h : ∀ u ∈ users, u.Points ≤ 0) :
    eligible users = 0 := by
  unfold eligible
  rw [List.countP_eq_zero]
  intro u hu
  have := h u hu
  simp
  omega

/-- In a tree without weight over non-negative points every user with positive
points has been marked deleted. -/
theorem deleted_of_total_le_zero (sub : List User) (st : SegmentTree) (hok : TreeOk sub st)
    (hnn : ∀ u ∈ sub, 0 ≤ u.Points) (ht : total st ≤ 0) (j : Nat) (hj : j < sub.length)
    (hp : 1 ≤ (userAt sub j).Points) : st.IsDeleted j = some true := by
  by_contra hd
  have hn := hok.hn
  have hnonneg : ∀ i ∈ Finset.Ico st.n (st.n * 2), 0 ≤ cell st.tree i := by
    intro i hi
    rw [Finset.mem_Ico] at hi
    have h := hok.hleaf (i - st.n) (by omega)
    rw [show st.n + (i - st.n) = i by omega] at h
    rw [h]
    split
    · exact le_refl _
    · exact hnn _ (userAt_mem sub _ (by omega))
  have hmem : st.n + j ∈ Finset.Ico st.n (st.n * 2) := by
    rw [Finset.mem_Ico]; omega
  have hle := Finset.single_le_sum hnonneg hmem
  have hleaf := hok.hleaf j (by omega)
  rw [if_neg hd] at hleaf
  unfold total cellSum at ht
  omega

theorem drawLoop_mono_add (rng : Nat → Nat) (sub : List User) (quota : Nat) (k : Nat) :
    ∀ (fuel : Nat) (st : SegmentTree) (res : List User) (lp : Int) (c : Nat)
      (r : List User × Int × Nat),
      drawLoop rng sub quota fuel st res lp c = some r →
      drawLoop rng sub quota (fuel + k) st res lp c = some r := by
  induction k with
  | zero => intro fuel st res lp c r h; exact h
  | succ k ih =>
    intro fuel st res lp c r h
    exact drawLoop_mono rng sub quota (fuel + k) st res lp c r (ih fuel st res lp c r h)

theorem drawFresh_mono (rng : Nat → Nat) (fuel k quota : Nat) (sub : List User) (c : Nat)
    (r : List User × Int × Nat) (h : drawFresh rng fuel quota sub c = some r) :
    drawFresh rng (fuel + k) quota sub c = some r :=
  drawLoop_mono_add rng sub quota k fuel _ _ _ _ r h

/-- Without wrap-around the draw loop on a fresh tree returns once the fuel
covers the quota, with one winner per draw, every winner with positive points,
and `min quota eligible` winners when no points are negative. -/
theorem drawFresh_spec (rng : Nat → Nat) (fuel quota : Nat) (sub : List User) (c : Nat)
    (hb : absWeight sub < 2 ^ 63) (hf : quota ≤ fuel) :
    ∃ res lp, drawFresh rng fuel quota sub c = some (res, lp, c + res.length) ∧
      (∀ u ∈ res, 1 ≤ u.Points) ∧
      ((∀ u ∈ sub, 0 ≤ u.Points) → res.length = min quota (eligible sub)) := by
  have hok := NewSegmentTree_ok sub
  have hsum : (NewSegmentTree sub).Sum 0 sub.length = total (NewSegmentTree sub) :=
    hok.sum_total hb
  obtain ⟨idxs, st1, r1, r2, r3, r4, r5, r6, r7⟩ := drawLoop_spec rng sub hb quota fuel
    (NewSegmentTree sub) [] _ c hok hsum (by simpa using hf)
  simp only [List.nil_append, List.length_nil, Nat.zero_add, Nat.zero_le, forall_true_left]
    at r1 r6 r7
  have hsp := map_userAt_subperm sub idxs r2 (fun i hi => (r3 i hi).1)
  have hpos : ∀ u ∈ idxs.map (userAt sub), 1 ≤ u.Points := by
    intro u hu
    rw [List.mem_map] at hu
    obtain ⟨i, hi, rfl⟩ := hu
    exact (r3 i hi).2.2
  refine ⟨idxs.map (userAt sub), total st1, ?_, hpos, ?_⟩
  · unfold drawFresh
    rw [r1]
    simp
  · intro hnn
    rw [List.length_map]
    have hle : idxs.length ≤ eligible sub := by
      have h1 := (List.Subperm.countP_le (fun u => decide (0 < u.Points)) hsp)
      have h2 : List.countP (fun u => decide (0 < u.Points)) (idxs.map (userAt sub))
          = (idxs.map (userAt sub)).length := by
        rw [List.countP_eq_length]
        intro u hu
        have := hpos u hu
        simp
        omega
      rw [h2, List.length_map] at h1
      exact h1
    by_cases hq : idxs.length < quota
    · have ht := r6 hq
      have hall : ((List.range sub.length).filter
          (fun i => decide (0 < (userAt sub i).Points))).Subperm idxs := by
        apply List.subperm_of_subset ((List.nodup_range _).filter _)
        intro j hj
        rw [List.mem_filter, List.mem_range] at hj
        have hp : 1 ≤ (userAt sub j).Points := by
          have := hj.2
          simp at this
          omega
        have hd := deleted_of_total_le_zero sub st1 r4 hnn ht j hj.1 hp
        rw [r5, IsDeleted_NewSegmentTree sub j hj.1] at hd
        simpa using hd
      have := hall.length_le
      rw [← eligible_eq_range] at this
      omega
    · omega

/-- Whatever the fuel and the points, a result of the draw loop on a fresh tree
is well formed. -/
theorem drawFresh_sound (rng : Nat → Nat) (fuel quota : Nat) (sub : List User) (c : Nat)
    (res : List User) (lp : Int) (c1 : Nat)
    (h : drawFresh rng fuel quota sub c = some (res, lp, c1)) :
    SubGroupOk quota sub res := by
  obtain ⟨idxs, r1, r2, r3, r4⟩ := drawLoop_sound rng sub quota fuel _ _ _ _ res lp c1
    (NewSegmentTree_ok sub) h
  simp only [List.nil_append, List.length_nil, Nat.zero_add, Nat.zero_le, forall_true_left]
    at r1 r4
  subst r1
  refine ⟨⟨idxs, r2, fun i hi => (r3 i hi).1, rfl⟩,
    map_userAt_subperm sub idxs r2 (fun i hi => (r3 i hi).1), ?_, by simpa using r4, ?_⟩
  · intro u hu
    rw [List.mem_map] at hu
    obtain ⟨i, hi, rfl⟩ := hu
    exact (r3 i hi).2.2
  · intro hb hnn
    have h1 := drawFresh_mono rng fuel quota quota sub c _ h
    obtain ⟨res2, lp2, h2, _, h4⟩ := drawFresh_spec rng (fuel + quota) quota sub c hb (by omega)
    rw [h1] at h2
    simp only [Option.some.injEq, Prod.mk.injEq] at h2
    rw [h2.1]
    exact h4 hnn

/-- Without wrap-around a result of the draw loop on a fresh tree made one
draw per winner. -/
theorem drawFresh_draws (rng : Nat → Nat) (fuel quota : Nat) (sub : List User) (c : Nat)
    (hb : absWeight sub < 2 ^ 63) (res : List User) (lp : Int) (c1 : Nat)
    (h : drawFresh rng fuel quota sub c = some (res, lp, c1)) :
    c1 = c + res.length ∧ ∀ u ∈ res, 1 ≤ u.Points := by
  have h1 := drawFresh_mono rng fuel quota quota sub c _ h
  obtain ⟨res2, lp2, h2, h3, _⟩ := drawFresh_spec rng (fuel + quota) quota sub c hb (by omega)
  rw [h1] at h2
  simp only [Option.some.injEq, Prod.mk.injEq] at h2
  obtain ⟨e1, _, e3⟩ := h2
  subst e1
  exact ⟨e3, h3⟩

/-! ## Splitting a slice into chunks -/

theorem chunk_last (users : List User) (k size : Nat) :
    chunk users k size (k - 1) = users.drop ((k - 1) * size) := by
  unfold chunk
  rw [if_pos rfl]
  apply List.take_of_length_le
  simp

theorem chunk_inner (users : List User) (k size i : Nat) (h : i ≠ k - 1) :
    chunk users k size i = (users.drop (i * size)).take size := by
  unfold chunk
  rw [if_neg h]
  congr 1
  omega

theorem flatten_chunks_from (users : List User) (k size : Nat) :
    ∀ (m i : Nat), i + m + 1 = k →
      ((List.range' i (m + 1)).map (chunk users k size)).flatten = users.drop (i * size) := by
  intro m
  induction m with
  | zero =>
    intro i hi
    have : i = k - 1 := by omega
    subst this
    simp [List.range', chunk_last]
  | succ m ih =>
    intro i hi
    rw [List.range'_succ, List.map_cons, List.flatten_cons, ih (i + 1) (by omega),
      chunk_inner users k size i (by omega)]
    have e : (i + 1) * size = i * size + size := by ring
    rw [e, ← List.drop_drop, List.take_append_drop]

/-- The chunks, in order, make up the slice. -/
theorem flatten_chunks (users : List User) (k size : Nat) (hk : 1 ≤ k) :
    ((List.range k).map (chunk users k size)).flatten = users := by
  obtain ⟨m, rfl⟩ : ∃ m, k = m + 1 := ⟨k - 1, by omega⟩
  rw [List.range_eq_range', flatten_chunks_from users (m + 1) size m 0 (by omega)]
  simp

theorem chunk_length_ge (users : List User) (k size i : Nat) (hi : i < k)
    (hsz : k * size ≤ users.length) : size ≤ (chunk users k size i).length := by
  have h1 : (i + 1) * size ≤ k * size := Nat.mul_le_mul_right _ (by omega)
  have e : (i + 1) * size = i * size + size := by ring
  by_cases h : i = k - 1
  · subst h
    rw [chunk_last, List.length_drop]
    omega
  · rw [chunk_inner _ _ _ _ h, List.length_take, List.length_drop]
    omega

theorem mem_chunk (users : List User) (k size i : Nat) (u : User)
    (h : u ∈ chunk users k size i) : u ∈ users :=
  List.mem_of_mem_drop (List.mem_of_mem_take h)

theorem chunkLoop_sound (proc : List User → Nat → Option (List User × Nat))
    (Q : List User → List User → Prop)
    (hQ : ∀ sub c r c1, proc sub c = some (r, c1) → Q sub r)
    (users : List User) (k size : Nat) :
    ∀ (l : List Nat) (c : Nat) (rs : List (List User)) (c2 : Nat),
      chunkLoop proc users k size l c = some (rs, c2) →
      List.Forall₂ (fun i r => Q (chunk users k size i) r) l rs := by
  intro l
  induction l with
  | nil =>
    intro c rs c2 h
    simp only [chunkLoop, Option.some.injEq, Prod.mk.injEq] at h
    obtain ⟨rfl, rfl⟩ := h
    exact List.Forall₂.nil
  | cons i rest ih =>
    intro c rs c2 h
    simp only [chunkLoop] at h
    cases hp : proc (chunk users k size i) c with
    | none => rw [hp] at h; exact absurd h (by simp)
    | some x =>
      obtain ⟨r, c1⟩ := x
      rw [hp] at h
      simp only at h
      cases hr : chunkLoop proc users k size rest c1 with
      | none => rw [hr] at h; exact absurd h (by simp)
      | some y =>
        obtain ⟨rs1, c3⟩ := y
        rw [hr] at h
        simp only [Option.some.injEq, Prod.mk.injEq] at h
        obtain ⟨rfl, rfl⟩ := h
        exact List.Forall₂.cons (hQ _ _ _ _ hp) (ih _ _ _ hr)

theorem chunkLoop_total (proc : List User → Nat → Option (List User × Nat))
    (users : List User) (k size : Nat) :
    ∀ (l : List Nat), (∀ i ∈ l, ∀ c, ∃ r c1, proc (chunk users k size i) c = some (r, c1)) →
      ∀ (c : Nat), ∃ rs c2, chunkLoop proc users k size l c = some (rs, c2) := by
  intro l
  induction l with
  | nil => intro _ c; exact ⟨[], c, rfl⟩
  | cons i rest ih =>
    intro h c
    obtain ⟨r, c1, hp⟩ := h i (List.mem_cons_self _ _) c
    obtain ⟨rs, c2, hr⟩ := ih (fun j hj => h j (List.mem_cons_of_mem _ hj)) c1
    refine ⟨r :: rs, c2, ?_⟩
    simp only [chunkLoop, hp, hr]

/-- When every chunk yields nothing and makes no draw, so does the loop. -/
theorem chunkLoop_nil (proc : List User → Nat → Option (List User × Nat))
    (h : ∀ sub c, proc sub c = some ([], c)) (users : List User) (k size : Nat) :
    ∀ (l : List Nat) (c : Nat),
      ∃ rs, chunkLoop proc users k size l c = some (rs, c) ∧ rs.flatten = [] := by
  intro l
  induction l with
  | nil => intro c; exact ⟨[], rfl, rfl⟩
  | cons i rest ih =>
    intro c
    obtain ⟨rs, hr, hf⟩ := ih c
    refine ⟨[] :: rs, ?_, by simpa using hf⟩
    simp only [chunkLoop, h, hr]

theorem absWeight_chunk_le (users : List User) (k size i : Nat) :
    absWeight (chunk users k size i) ≤ absWeight users :=
  le_trans (absWeight_take_le _ _) (absWeight_drop_le _ _)

theorem chunkLoop_mono (proc1 proc2 : List User → Nat → Option (List User × Nat))
    (h : ∀ sub c x, proc1 sub c = some x → proc2 sub c = some x) (users : List User)
    (k size : Nat) :
    ∀ (l : List Nat) (c : Nat) (x : List (List User) × Nat),
      chunkLoop proc1 users k size l c = some x → chunkLoop proc2 users k size l c = some x := by
  intro l
  induction l with
  | nil => intro c x hx; exact hx
  | cons i rest ih =>
    intro c x hx
    simp only [chunkLoop] at hx ⊢
    cases hp : proc1 (chunk users k size i) c with
    | none => rw [hp] at hx; exact absurd hx (by simp)
    | some y =>
      obtain ⟨r, c1⟩ := y
      rw [hp] at hx
      rw [h _ _ _ hp]
      simp only at hx ⊢
      cases hr : chunkLoop proc1 users k size rest c1 with
      | none => rw [hr] at hx; exact absurd hx (by simp)
      | some z =>
        rw [hr] at hx
        rw [ih _ _ hr]
        exact hx

/-! Facts about the concatenation of the per-chunk results. -/

theorem forall2_subperm_flatten (f : Nat → List User) :
    ∀ (l : List Nat) (rs : List (List User)),
      List.Forall₂ (fun i r => List.Subperm r (f i)) l rs →
      rs.flatten.Subperm (l.map f).flatten := by
  intro l rs h
  induction h with
  | nil => simp
  | cons h1 _ ih =>
    simp only [List.map_cons, List.flatten_cons]
    exact subperm_append h1 ih

theorem forall2_length_le (P : Nat → List User → Prop) (q : Nat)
    (hP : ∀ i r, P i r → r.length ≤ q) :
    ∀ (l : List Nat) (rs : List (List User)), List.Forall₂ P l rs →
      rs.flatten.length ≤ l.length * q := by
  intro l rs h
  induction h with
  | nil => simp
  | cons h1 _ ih =>
    simp only [List.flatten_cons, List.length_append, List.length_cons]
    have := hP _ _ h1
    have e : ∀ a : Nat, (a + 1) * q = a * q + q := fun a => by ring
    rw [e]
    omega

theorem forall2_length_eq (P : Nat → List User → Prop) (q : Nat) (l : List Nat)
    (rs : List (List User)) (h : List.Forall₂ P l rs)
    (hP : ∀ i r, i ∈ l → P i r → r.length = q) :
    rs.flatten.length = l.length * q := by
  induction h with
  | nil => simp
  | cons h1 _ ih =>
    simp only [List.flatten_cons, List.length_append, List.length_cons]
    have := hP _ _ (List.mem_cons_self _ _) h1
    have e : ∀ a : Nat, (a + 1) * q = a * q + q := fun a => by ring
    rw [e, ih (fun i r hi => hP i r (List.mem_cons_of_mem _ hi))]
    omega

theorem forall2_mem (P : Nat → List User → Prop) (R : User → Prop)
    (hP : ∀ i r, P i r → ∀ u ∈ r, R u) :
    ∀ (l : List Nat) (rs : List (List User)), List.Forall₂ P l rs →
      ∀ u ∈ rs.flatten, R u := by
  intro l rs h
  induction h with
  | nil => intro u hu; simp at hu
  | cons h1 _ ih =>
    intro u hu
    simp only [List.flatten_cons, List.mem_append] at hu
    rcases hu with hu | hu
    · exact hP _ _ h1 u hu
    · exact ih u hu

/-! ## pickWinnersFromGroup -/

theorem subGroupsLoop_eq (rng : Nat → Nat) (fuel : Nat) (users : List User)
    (numWinners numSubGroups subGroupSize : Nat) :
    ∀ (l : List Nat) (c : Nat),
      subGroupsLoop rng fuel users numWinners numSubGroups subGroupSize l c
        = chunkLoop (procSub rng fuel (numWinners / numSubGroups)) users numSubGroups
            subGroupSize l c := by
  intro l
  induction l with
  | nil => intro c; rfl
  | cons i rest ih =>
    intro c
    simp only [subGroupsLoop, chunkLoop, procSub, drawFresh, chunk]
    cases drawLoop rng
        (List.take ((if i = numSubGroups - 1 then users.length else i * subGroupSize + subGroupSize)
          - i * subGroupSize) (List.drop (i * subGroupSize) users))
        (numWinners / numSubGroups) fuel _ [] _ c with
    | none => rfl
    | some x =>
      obtain ⟨r, lp, c1⟩ := x
      simp only
      rw [ih c1]
      try rfl

theorem procSub_sound (rng : Nat → Nat) (fuel quota : Nat) (sub : List User) (c : Nat)
    (r : List User) (c1 : Nat) (h : procSub rng fuel quota sub c = some (r, c1)) :
    SubGroupOk quota sub r := by
  unfold procSub at h
  cases hd : drawFresh rng fuel quota sub c with
  | none => rw [hd] at h; exact absurd h (by simp)
  | some x =>
    obtain ⟨res, lp, c2⟩ := x
    rw [hd] at h
    simp only [Option.some.injEq, Prod.mk.injEq] at h
    obtain ⟨rfl, rfl⟩ := h
    exact drawFresh_sound rng fuel quota sub c _ _ _ hd

theorem procSub_total (rng : Nat → Nat) (fuel quota : Nat) (hf : quota ≤ fuel)
    (sub : List User) (hb : absWeight sub < 2 ^ 63) (c : Nat) :
    ∃ r c1, procSub rng fuel quota sub c = some (r, c1) := by
  obtain ⟨res, lp, h, _⟩ := drawFresh_spec rng fuel quota sub c hb hf
  exact ⟨res, c + res.length, by simp [procSub, h]⟩

/-- With the quota 0 a subgroup yields nothing and makes no draw. -/
theorem procSub_zero (rng : Nat → Nat) (fuel : Nat) (sub : List User) (c : Nat) :
    procSub rng fuel 0 sub c = some ([], c) := by
  simp [procSub, drawFresh, drawLoop_quota_zero]

theorem procSub_mono (rng : Nat → Nat) (fuel k quota : Nat) (sub : List User) (c : Nat)
    (x : List User × Nat) (h : procSub rng fuel quota sub c = some x) :
    procSub rng (fuel + k) quota sub c = some x := by
  unfold procSub at h ⊢
  cases hd : drawFresh rng fuel quota sub c with
  | none => rw [hd] at h; exact absurd h (by simp)
  | some y =>
    rw [hd] at h
    rw [drawFresh_mono rng fuel k quota sub c y hd]
    exact h

theorem numSubGroupsOf_pos (len : Nat) : 1 ≤ numSubGroupsOf len := le_max_left _ _

theorem numSubGroupsOf_mul_le (len : Nat) :
    numSubGroupsOf len * (len / numSubGroupsOf len) ≤ len :=
  Nat.mul_div_le _ _

theorem pickWinnersFromGroup_eq (rng : Nat → Nat) (fuel : Nat) (users : List User)
    (numWinners c : Nat) :
    pickWinnersFromGroup rng fuel users numWinners c
      = match chunkLoop (procSub rng fuel (numWinners / numSubGroupsOf users.length)) users
          (numSubGroupsOf users.length) (users.length / numSubGroupsOf users.length)
          (List.range (numSubGroupsOf users.length)) c with
        | none => none
        | some (rs, c1) => some (rs.flatten, c1) := by
  unfold pickWinnersFromGroup
  simp only [subGroupsLoop_eq]
  rfl

theorem GroupOk.le_request {numWinners : Nat} {group res : List User}
    (h : GroupOk numWinners group res) : res.length ≤ numWinners :=
  le_trans h.le (Nat.mul_div_le _ _)

theorem pickWinnersFromGroup_sound (rng : Nat → Nat) (fuel : Nat) (users : List User)
    (numWinners c : Nat) (res : List User) (c1 : Nat)
    (h : pickWinnersFromGroup rng fuel users numWinners c = some (res, c1)) :
    GroupOk numWinners users res := by
  rw [pickWinnersFromGroup_eq] at h
  cases hl : chunkLoop (procSub rng fuel (numWinners / numSubGroupsOf users.length)) users
      (numSubGroupsOf users.length) (users.length / numSubGroupsOf users.length)
      (List.range (numSubGroupsOf users.length)) c with
  | none => rw [hl] at h; exact absurd h (by simp)
  | some x =>
    obtain ⟨rs, c2⟩ := x
    rw [hl] at h
    simp only [Option.some.injEq, Prod.mk.injEq] at h
    obtain ⟨rfl, rfl⟩ := h
    have hall := chunkLoop_sound _ _ (procSub_sound rng fuel _) users _ _ _ _ _ _ hl
    have hs := numSubGroupsOf_pos users.length
    refine ⟨?_, ?_, ?_, ?_⟩
    · have := forall2_subperm_flatten
        (chunk users (numSubGroupsOf users.length) (users.length / numSubGroupsOf users.length))
        _ _ (hall.imp (fun _ _ h => h.subperm))
      rwa [flatten_chunks users _ _ hs] at this
    · exact forall2_mem _ (fun u => u.Points ≠ 0) (fun _ _ h => h.nz) _ _ hall
    · have := forall2_length_le _ (numWinners / numSubGroupsOf users.length)
        (fun _ _ h => h.le) _ _ hall
      simpa using this
    · intro hb hpos hle
      have := forall2_length_eq _ (numWinners / numSubGroupsOf users.length) _ _ hall (by
        intro i r hi hr
        rw [List.mem_range] at hi
        have hcnt := hr.count (lt_of_le_of_lt (absWeight_chunk_le _ _ _ _) hb) (fun u hu => by
          have := hpos u (mem_chunk _ _ _ _ _ hu); omega)
        rw [eligible_eq_length _ (fun u hu => hpos u (mem_chunk _ _ _ _ _ hu))] at hcnt
        have hge := chunk_length_ge users _ _ i hi (numSubGroupsOf_mul_le users.length)
        have : numWinners / numSubGroupsOf users.length
            ≤ users.length / numSubGroupsOf users.length := Nat.div_le_div_right hle
        omega)
      simpa using this

theorem pickWinnersFromGroup_total (rng : Nat → Nat) (fuel : Nat) (users : List User)
    (hb : absWeight users < 2 ^ 63) (numWinners c : Nat) (hf : numWinners ≤ fuel) :
    ∃ res c1, pickWinnersFromGroup rng fuel users numWinners c = some (res, c1) := by
  rw [pickWinnersFromGroup_eq]
  obtain ⟨rs, c2, h⟩ := chunkLoop_total
    (procSub rng fuel (numWinners / numSubGroupsOf users.length)) users
    (numSubGroupsOf users.length) (users.length / numSubGroupsOf users.length)
    (List.range (numSubGroupsOf users.length))
    (fun i _ c => procSub_total rng fuel (numWinners / numSubGroupsOf users.length)
      (le_trans (Nat.div_le_self _ _) hf) _
      (lt_of_le_of_lt (absWeight_chunk_le _ _ _ _) hb) c) c
  exact ⟨rs.flatten, c2, by rw [h]⟩

/-- When the quota of the subgroups is 0 the partition yields nothing and makes
no draw. -/
theorem pickWinnersFromGroup_zero (rng : Nat → Nat) (fuel : Nat) (users : List User)
    (numWinners c : Nat) (hq : numWinners / numSubGroupsOf users.length = 0) :
    pickWinnersFromGroup rng fuel users numWinners c = some ([], c) := by
  rw [pickWinnersFromGroup_eq, hq]
  obtain ⟨rs, h, hf⟩ := chunkLoop_nil (procSub rng fuel 0) (procSub_zero rng fuel) users
    (numSubGroupsOf users.length) (users.length / numSubGroupsOf users.length)
    (List.range (numSubGroupsOf users.length)) c
  rw [h]
  simp [hf]

theorem pickWinnersFromGroup_mono (rng : Nat → Nat) (fuel k : Nat) (users : List User)
    (numWinners c : Nat) (x : List User × Nat)
    (h : pickWinnersFromGroup rng fuel users numWinners c = some x) :
    pickWinnersFromGroup rng (fuel + k) users numWinners c = some x := by
  rw [pickWinnersFromGroup_eq] at h ⊢
  cases hl : chunkLoop (procSub rng fuel (numWinners / numSubGroupsOf users.length)) users
      (numSubGroupsOf users.length) (users.length / numSubGroupsOf users.length)
      (List.range (numSubGroupsOf users.length)) c with
  | none => rw [hl] at h; exact absurd h (by simp)
  | some y =>
    rw [hl] at h
    rw [chunkLoop_mono _ _ (fun sub c x => procSub_mono rng fuel k _ sub c x) _ _ _ _ _ _ hl]
    exact h

/-! ## The primary pass of Do -/

theorem groupsLoop_eq (rng : Nat → Nat) (fuel numWorkers : Nat) (users : List User)
    (numWinners groupSize : Nat) :
    ∀ (l : List Nat) (c : Nat),
      groupsLoop rng fuel numWorkers users numWinners groupSize l c
        = chunkLoop (fun group c => pickWinnersFromGroup rng fuel group (numWinners / numWorkers) c)
            users numWorkers groupSize l c := by
  intro l
  induction l with
  | nil => intro c; rfl
  | cons i rest ih =>
    intro c
    simp only [groupsLoop, chunkLoop, chunk]
    cases pickWinnersFromGroup rng fuel
        (List.take ((if i = numWorkers - 1 then users.length else i * groupSize + groupSize)
          - i * groupSize) (List.drop (i * groupSize) users))
        (numWinners / numWorkers) c with
    | none => rfl
    | some x =>
      obtain ⟨r, c1⟩ := x
      simp only
      rw [ih c1]
      try rfl

theorem primaryPass_eq (rng : Nat → Nat) (fuel numWorkers : Nat) (users : List User)
    (numWinners c : Nat) :
    primaryPass rng fuel numWorkers users numWinners c
      = match chunkLoop
          (fun group c => pickWinnersFromGroup rng fuel group (numWinners / numWorkers) c)
          users numWorkers (users.length / numWorkers) (List.range numWorkers) c with
        | none => none
        | some (rs, c1) => some (rs.flatten, c1) := by
  unfold primaryPass
  simp only [groupsLoop_eq]
  try rfl

theorem PrimaryOk.le_requested {numWorkers numWinners : Nat} {users res : List User}
    (h : PrimaryOk numWorkers numWinners users res) : res.length ≤ numWinners :=
  le_trans h.le (Nat.mul_div_le _ _)

theorem PrimaryOk.mem {numWorkers numWinners : Nat} {users res : List User}
    (h : PrimaryOk numWorkers numWinners users res) (u : User) (hu : u ∈ res) : u ∈ users :=
  h.subperm.subset hu

theorem primaryPass_sound (rng : Nat → Nat) (fuel numWorkers : Nat) (hW : 1 ≤ numWorkers)
    (users : List User) (numWinners c : Nat) (res : List User) (c1 : Nat)
    (h : primaryPass rng fuel numWorkers users numWinners c = some (res, c1)) :
    PrimaryOk numWorkers numWinners users res := by
  rw [primaryPass_eq] at h
  cases hl : chunkLoop
      (fun group c => pickWinnersFromGroup rng fuel group (numWinners / numWorkers) c)
      users numWorkers (users.length / numWorkers) (List.range numWorkers) c with
  | none => rw [hl] at h; exact absurd h (by simp)
  | some x =>
    obtain ⟨rs, c2⟩ := x
    rw [hl] at h
    simp only [Option.some.injEq, Prod.mk.injEq] at h
    obtain ⟨rfl, rfl⟩ := h
    have hall := chunkLoop_sound _ (GroupOk (numWinners / numWorkers))
      (fun sub c r c1 h => pickWinnersFromGroup_sound rng fuel sub _ c r c1 h)
      users _ _ _ _ _ _ hl
    refine ⟨?_, ?_, ?_⟩
    · have := forall2_subperm_flatten
        (chunk users numWorkers (users.length / numWorkers))
        _ _ (hall.imp (fun _ _ h => h.subperm))
      rwa [flatten_chunks users _ _ hW] at this
    · exact forall2_mem _ (fun u => u.Points ≠ 0) (fun _ _ h => h.nz) _ _ hall
    · have := forall2_length_le _ (numWinners / numWorkers)
        (fun _ _ h => h.le_request) _ _ hall
      simpa using this

/-- Without wrap-around the primary pass returns once the fuel covers the
request. -/
theorem primaryPass_total (rng : Nat → Nat) (fuel numWorkers : Nat) (users : List User)
    (hb : absWeight users < 2 ^ 63) (numWinners c : Nat) (hf : numWinners ≤ fuel) :
    ∃ res c1, primaryPass rng fuel numWorkers users numWinners c = some (res, c1) := by
  rw [primaryPass_eq]
  obtain ⟨rs, c2, h⟩ := chunkLoop_total
    (fun group c => pickWinnersFromGroup rng fuel group (numWinners / numWorkers) c)
    users numWorkers (users.length / numWorkers) (List.range numWorkers)
    (fun i _ c => pickWinnersFromGroup_total rng fuel _
      (lt_of_le_of_lt (absWeight_chunk_le _ _ _ _) hb) _ c
      (le_trans (Nat.div_le_self _ _) hf)) c
  exact ⟨rs.flatten, c2, by rw [h]⟩

/-- When the quota of the workers is 0 the primary pass yields nothing and
makes no draw. -/
theorem primaryPass_zero (rng : Nat → Nat) (fuel numWorkers : Nat) (users : List User)
    (numWinners c : Nat) (hq : numWinners / numWorkers = 0) :
    primaryPass rng fuel numWorkers users numWinners c = some ([], c) := by
  rw [primaryPass_eq, hq]
  obtain ⟨rs, h, hf⟩ := chunkLoop_nil
    (fun group c => pickWinnersFromGroup rng fuel group 0 c)
    (fun sub c => pickWinnersFromGroup_zero rng fuel sub 0 c (Nat.zero_div _)) users
    numWorkers (users.length / numWorkers) (List.range numWorkers) c
  rw [h]
  simp [hf]

theorem primaryPass_mono (rng : Nat → Nat) (fuel k numWorkers : Nat) (users : List User)
    (numWinners c : Nat) (x : List User × Nat)
    (h : primaryPass rng fuel numWorkers users numWinners c = some x) :
    primaryPass rng (fuel + k) numWorkers users numWinners c = some x := by
  rw [primaryPass_eq] at h ⊢
  cases hl : chunkLoop
      (fun group c => pickWinnersFromGroup rng fuel group (numWinners / numWorkers) c)
      users numWorkers (users.length / numWorkers) (List.range numWorkers) c with
  | none => rw [hl] at h; exact absurd h (by simp)
  | some y =>
    rw [hl] at h
    rw [chunkLoop_mono _ _
      (fun sub c x => pickWinnersFromGroup_mono rng fuel k sub _ c x) _ _ _ _ _ _ hl]
    exact h

/-- With one worker the primary pass is `pickWinnersFromGroup` on the whole population. -/
theorem primaryPass_one (rng : Nat → Nat) (fuel : Nat) (users : List User)
    (numWinners c : Nat) :
    primaryPass rng fuel 1 users numWinners c
      = pickWinnersFromGroup rng fuel users numWinners c := by
  rw [primaryPass_eq]
  have hr1 : List.range 1 = [0] := rfl
  have e : chunk users 1 users.length 0 = users := by
    have := chunk_last users 1 users.length
    simpa using this
  simp only [hr1, chunkLoop, Nat.div_one, e]
  cases pickWinnersFromGroup rng fuel users numWinners c with
  | none => rfl
  | some x => obtain ⟨r, c1⟩ := x; simp

/-! ## Do -/

theorem Do_succ (rng : Nat → Nat) (fuel numWorkers : Nat) (users : List User)
    (numWinners c : Nat) :
    Do rng (fuel + 1) numWorkers users numWinners c =
      match primaryPass rng fuel numWorkers users numWinners c with
      | none => none
      | some (winners, c1) =>
        if winners.length < numWinners then
          match Do rng fuel numWorkers winners (numWinners - winners.length) c1 with
          | none => none
          | some (extraWinners, c2) => some (winners ++ extraWinners, c2)
        else some (winners, c1) := rfl

/-- Shape of a returning run of `Do`: the primary pass `P`, followed by the
result of the recursive call when `P` falls short. -/
theorem Do_some (rng : Nat → Nat) (fuel numWorkers : Nat) (users : List User)
    (numWinners c : Nat) (r : List User) (c2 : Nat)
    (h : Do rng (fuel + 1) numWorkers users numWinners c = some (r, c2)) :
    ∃ P c1, primaryPass rng fuel numWorkers users numWinners c = some (P, c1) ∧
      ((numWinners ≤ P.length ∧ r = P ∧ c2 = c1) ∨
       (P.length < numWinners ∧ ∃ extra,
          Do rng fuel numWorkers P (numWinners - P.length) c1 = some (extra, c2) ∧
          r = P ++ extra)) := by
  rw [Do_succ] at h
  cases hp : primaryPass rng fuel numWorkers users numWinners c with
  | none => rw [hp] at h; exact absurd h (by simp)
  | some x =>
    obtain ⟨P, c1⟩ := x
    rw [hp] at h
    simp only at h
    refine ⟨P, c1, rfl, ?_⟩
    by_cases hlt : P.length < numWinners
    · rw [if_pos hlt] at h
      right
      refine ⟨hlt, ?_⟩
      cases hd : Do rng fuel numWorkers P (numWinners - P.length) c1 with
      | none => rw [hd] at h; exact absurd h (by simp)
      | some y =>
        obtain ⟨extra, c3⟩ := y
        rw [hd] at h
        simp only [Option.some.injEq, Prod.mk.injEq] at h
        obtain ⟨rfl, rfl⟩ := h
        exact ⟨extra, rfl, rfl⟩
    · rw [if_neg hlt] at h
      simp only [Option.some.injEq, Prod.mk.injEq] at h
      obtain ⟨rfl, rfl⟩ := h
      left
      exact ⟨by omega, rfl, rfl⟩

/-- Any slice `Do` returns has exactly `numWinners` entries. -/
theorem Do_length (rng : Nat → Nat) (numWorkers : Nat) (hW : 1 ≤ numWorkers) :
    ∀ (fuel : Nat) (users : List User) (numWinners c : Nat) (r : List User) (c2 : Nat),
      Do rng fuel numWorkers users numWinners c = some (r, c2) → r.length = numWinners := by
  intro fuel
  induction fuel with
  | zero => intro users numWinners c r c2 h; exact absurd h (by simp [Do])
  | succ fuel ih =>
    intro users numWinners c r c2 h
    obtain ⟨P, c1, hp, hcase⟩ := Do_some rng fuel numWorkers users numWinners c r c2 h
    have hok := primaryPass_sound rng fuel numWorkers hW users numWinners c P c1 hp
    have hle := hok.le_requested
    rcases hcase with ⟨h1, rfl, _⟩ | ⟨h1, extra, hd, rfl⟩
    · omega
    · have := ih _ _ _ _ _ hd
      rw [List.length_append, this]
      omega

/-- Every user `Do` returns is one of the given users and its points are not 0. -/
theorem Do_mem (rng : Nat → Nat) (numWorkers : Nat) (hW : 1 ≤ numWorkers) :
    ∀ (fuel : Nat) (users : List User) (numWinners c : Nat) (r : List User) (c2 : Nat),
      Do rng fuel numWorkers users numWinners c = some (r, c2) →
      ∀ u ∈ r, u ∈ users ∧ u.Points ≠ 0 := by
  intro fuel
  induction fuel with
  | zero => intro users numWinners c r c2 h; exact absurd h (by simp [Do])
  | succ fuel ih =>
    intro users numWinners c r c2 h
    obtain ⟨P, c1, hp, hcase⟩ := Do_some rng fuel numWorkers users numWinners c r c2 h
    have hok := primaryPass_sound rng fuel numWorkers hW users numWinners c P c1 hp
    rcases hcase with ⟨h1, rfl, _⟩ | ⟨h1, extra, hd, rfl⟩
    · intro u hu
      exact ⟨hok.mem u hu, hok.nz u hu⟩
    · intro u hu
      rw [List.mem_append] at hu
      rcases hu with hu | hu
      · exact ⟨hok.mem u hu, hok.nz u hu⟩
      · obtain ⟨m1, m2⟩ := ih _ _ _ _ _ hd u hu
        exact ⟨hok.mem u m1, m2⟩

/-- More fuel does not change a result of `Do`. -/
theorem Do_mono (rng : Nat → Nat) (numWorkers : Nat) :
    ∀ (fuel : Nat) (users : List User) (numWinners c : Nat) (x : List User × Nat),
      Do rng fuel numWorkers users numWinners c = some x →
      Do rng (fuel + 1) numWorkers users numWinners c = some x := by
  intro fuel
  induction fuel with
  | zero => intro users numWinners c x h; exact absurd h (by simp [Do])
  | succ fuel ih =>
    intro users numWinners c x h
    rw [Do_succ] at h ⊢
    cases hp : primaryPass rng fuel numWorkers users numWinners c with
    | none => rw [hp] at h; exact absurd h (by simp)
    | some y =>
      obtain ⟨P, c1⟩ := y
      rw [hp] at h
      rw [primaryPass_mono rng fuel 1 numWorkers users numWinners c _ hp]
      simp only at h ⊢
      by_cases hlt : P.length < numWinners
      · rw [if_pos hlt] at h ⊢
        cases hd : Do rng fuel numWorkers P (numWinners - P.length) c1 with
        | none => rw [hd] at h; exact absurd h (by simp)
        | some z =>
          rw [hd] at h
          rw [ih _ _ _ _ hd]
          exact h
      · rw [if_neg hlt] at h ⊢
        exact h

/-- When every user has 0 points and at least one winner is requested the
deficit recursion never ends: the primary pass is empty and the recursive call
repeats the same request on the empty population. -/
theorem Do_diverges (rng : Nat → Nat) (numWorkers : Nat) (hW : 1 ≤ numWorkers) :
    ∀ (fuel : Nat) (users : List User) (numWinners c : Nat),
      (∀ u ∈ users, u.Points = 0) → 1 ≤ numWinners →
      Do rng fuel numWorkers users numWinners c = none := by
  intro fuel
  induction fuel with
  | zero => intro users numWinners c _ _; rfl
  | succ fuel ih =>
    intro users numWinners c hz hk
    rw [Do_succ]
    cases hp : primaryPass rng fuel numWorkers users numWinners c with
    | none => rfl
    | some y =>
      obtain ⟨P, c1⟩ := y
      have hok := primaryPass_sound rng fuel numWorkers hW users numWinners c P c1 hp
      have hP : P = [] := by
        cases P with
        | nil => rfl
        | cons u rest =>
          have h1 := hok.nz u (List.mem_cons_self _ _)
          have h2 := hz u (hok.mem u (List.mem_cons_self _ _))
          exact absurd h2 h1
      subst hP
      simp only [List.length_nil]
      rw [if_pos (by omega), ih [] _ c1 (by intro u hu; simp at hu) (by omega)]

/-- A request smaller than the worker count gives every worker the quota 0, so
the primary pass is empty and the deficit recursion never ends. -/
theorem Do_diverges_small (rng : Nat → Nat) (numWorkers : Nat) (fuel : Nat) (users : List User)
    (numWinners c : Nat) (hk : 1 ≤ numWinners) (hlt : numWinners < numWorkers) :
    Do rng fuel numWorkers users numWinners c = none := by
  have hW : 1 ≤ numWorkers := by omega
  cases fuel with
  | zero => rfl
  | succ fuel =>
    rw [Do_succ, primaryPass_zero rng fuel numWorkers users numWinners c (Nat.div_eq_of_lt hlt)]
    simp only [List.length_nil]
    rw [if_pos (by omega), Do_diverges rng numWorkers hW fuel [] _ c
      (by intro u hu; simp at hu) (by omega)]

/-- A request for no winner returns at once, without a draw. -/
theorem Do_zero (rng : Nat → Nat) (numWorkers : Nat) (fuel : Nat)
    (users : List User) (c : Nat) :
    Do rng (fuel + 1) numWorkers users 0 c = some ([], c) := by
  rw [Do_succ, primaryPass_zero rng fuel numWorkers users 0 c (Nat.zero_div _)]
  simp

theorem Do_mono_add (rng : Nat → Nat) (numWorkers k : Nat) :
    ∀ (fuel : Nat) (users : List User) (numWinners c : Nat) (x : List User × Nat),
      Do rng fuel numWorkers users numWinners c = some x →
      Do rng (fuel + k) numWorkers users numWinners c = some x := by
  induction k with
  | zero => intro fuel users numWinners c x h; exact h
  | succ k ih =>
    intro fuel users numWinners c x h
    exact Do_mono rng numWorkers (fuel + k) users numWinners c x (ih fuel users numWinners c x h)

/-- Three winners out of 10000 users with one worker: two subgroups with quota
1 each give two winners, and the third is drawn again from these two. -/
theorem Do_tenThousand (rng : Nat → Nat) :
    ∃ r c, Do rng 4 1 tenThousandUsers 3 0 = some (r, c) ∧ ¬ (r.map User.ID).Nodup := by
  have hlen : tenThousandUsers.length = 10000 := by simp [tenThousandUsers]
  have hone : ∀ u ∈ tenThousandUsers, u.Points = 1 := by
    intro u hu
    simp only [tenThousandUsers, List.mem_map] at hu
    obtain ⟨i, _, rfl⟩ := hu
    rfl
  have hpos : ∀ u ∈ tenThousandUsers, 1 ≤ u.Points := fun u hu => by rw [hone u hu]
  have hb : absWeight tenThousandUsers < 2 ^ 63 := by
    have := absWeight_le_length tenThousandUsers 1 (fun u hu => by rw [hone u hu]; simp)
    rw [hlen] at this
    norm_num at this ⊢
    omega
  obtain ⟨P, c1, hp⟩ := primaryPass_total rng 3 1 tenThousandUsers hb 3 0 (le_refl _)
  have hp1 := hp
  rw [primaryPass_one] at hp1
  have hok := pickWinnersFromGroup_sound rng 3 tenThousandUsers 3 0 P c1 hp1
  have hPlen : P.length = 2 := by
    have := hok.full hb hpos (by rw [hlen]; norm_num)
    rw [hlen] at this
    simpa [numSubGroupsOf] using this
  have hPone : ∀ u ∈ P, u.Points = 1 := fun u hu => hone u (hok.subperm.subset hu)
  have hbP : absWeight P < 2 ^ 63 := by
    have := absWeight_le_length P 1 (fun u hu => by rw [hPone u hu]; simp)
    rw [hPlen] at this
    norm_num at this ⊢
    omega
  obtain ⟨P2, c2, hq⟩ := primaryPass_total rng 2 1 P hbP 1 c1 (by norm_num)
  have hq1 := hq
  rw [primaryPass_one] at hq1
  have hok2 := pickWinnersFromGroup_sound rng 2 P 1 c1 P2 c2 hq1
  have hP2len : P2.length = 1 := by
    have := hok2.full hbP (fun u hu => by rw [hPone u hu]) (by omega)
    rw [hPlen] at this
    simpa [numSubGroupsOf] using this
  refine ⟨P ++ P2, c2, ?_, ?_⟩
  · rw [Do_succ, hp]
    simp only
    rw [if_pos (by omega), Do_succ, hPlen, hq]
    simp only
    rw [if_neg (by omega)]
  · obtain ⟨u, hu⟩ : ∃ u, P2 = [u] := List.length_eq_one.1 hP2len
    subst hu
    have hmem : u ∈ P := hok2.subperm.subset (List.mem_singleton_self u)
    rw [List.map_append, List.nodup_append]
    intro ⟨_, _, hdis⟩
    exact hdis (List.mem_map_of_mem _ hmem) (List.mem_map_of_mem _ (List.mem_singleton_self u))

/-! ## Sums of leaves as sums of slices -/

theorem sum_slice_eq_cellSum (t : List Int) (a : Nat) :
    ∀ k, a + k ≤ t.length → ((t.drop a).take k).sum = cellSum t a (a + k) := by
  intro k
  induction k with
  | zero => intro _; simp [cellSum]
  | succ k ih =>
    intro h
    have hk : k < (t.drop a).length := by rw [List.length_drop]; omega
    rw [List.sum_take_succ _ _ hk, ih (by omega), ← Nat.add_assoc,
      cellSum_succ_top t (by omega), cell_eq_getElem t (a + k) (by omega)]
    simp

theorem NewSegmentTree_leaves (users : List User) :
    (NewSegmentTree users).tree.drop users.length = users.map User.Points := by
  apply List.ext_getElem
  · rw [List.length_drop, NewSegmentTree_length, List.length_map]
    omega
  · intro i h1 h2
    rw [List.length_map] at h2
    have hlen := NewSegmentTree_length users
    have := NewSegmentTree_leaf users i h2
    rw [cell_eq_getElem _ _ (by omega), userAt_eq_getElem users i h2] at this
    simp only [List.getElem_drop, List.getElem_map]
    exact this

theorem cellSum_leaves_take (users : List User) (m : Nat) (hm : m ≤ users.length) :
    cellSum (NewSegmentTree users).tree users.length (users.length + m)
      = ((users.take m).map User.Points).sum := by
  rw [← sum_slice_eq_cellSum _ _ _ (by rw [NewSegmentTree_length]; omega),
    NewSegmentTree_leaves, List.map_take]

/-! ## Sequences of updates -/

theorem applyOp_inv (st : SegmentTree) (op : TreeOp) (hlen : st.tree.length = st.n * 2)
    (hinv : TreeInv st.tree st.n) (hi : op.index < st.n) :
    (applyOp st op).n = st.n ∧ (applyOp st op).tree.length = st.n * 2 ∧
    TreeInv (applyOp st op).tree st.n := by
  cases op with
  | update index value =>
    obtain ⟨r1, _, _, r4⟩ := Update_spec st index value hlen hinv hi
    exact ⟨rfl, r1, r4⟩
  | markAsDeleted index =>
    obtain ⟨r1, _, _, r4⟩ := Update_spec st index 0 hlen hinv hi
    exact ⟨rfl, r1, r4⟩

theorem applyOps_inv : ∀ (ops : List TreeOp) (st : SegmentTree),
    st.tree.length = st.n * 2 → TreeInv st.tree st.n → (∀ op ∈ ops, op.index < st.n) →
    (applyOps st ops).n = st.n ∧ (applyOps st ops).tree.length = st.n * 2 ∧
    TreeInv (applyOps st ops).tree st.n := by
  intro ops
  induction ops with
  | nil => intro st h1 h2 _; exact ⟨rfl, h1, h2⟩
  | cons op rest ih =>
    intro st h1 h2 h3
    obtain ⟨a1, a2, a3⟩ := applyOp_inv st op h1 h2 (h3 op (List.mem_cons_self _ _))
    have := ih (applyOp st op) (by rw [a1]; exact a2) (by rw [a1]; exact a3)
      (by intro o ho; rw [a1]; exact h3 o (List.mem_cons_of_mem _ ho))
    rw [a1] at this
    exact this

/-! ## The claims -/

/-- C1 (count property), evaluated where it fails: two workers, two users with
one point each and one requested winner.  Both users are eligible, yet every
worker gets the quota `1 / 2 = 0`, the primary pass is empty and `Do` calls
itself on the empty population with the same request, whatever the fuel: it
never returns a slice of one winner. -/
theorem C1_count_never_returns :
    1 ≤ eligible [⟨1, 1⟩, ⟨2, 1⟩] ∧
    ∀ (rng : Nat → Nat) (fuel c : Nat), Do rng fuel 2 [⟨1, 1⟩, ⟨2, 1⟩] 1 c = none :=
  ⟨by decide, fun rng fuel c =>
    Do_diverges_small rng 2 fuel _ 1 c (by decide) (by decide)⟩

/-- C2 (uniqueness of the returned winners), evaluated where it fails: one
worker, 10000 users with distinct IDs and one point each, three requested
winners.  `Do` returns, and the returned slice holds the same ID twice. -/
theorem C2_duplicate_winner :
    (tenThousandUsers.map User.ID).Nodup ∧ (∀ u ∈ tenThousandUsers, 0 < u.Points) ∧
    3 ≤ tenThousandUsers.length ∧
    ∃ r c, Do sampleRng 4 1 tenThousandUsers 3 0 = some (r, c) ∧ ¬ (r.map User.ID).Nodup := by
  refine ⟨?_, ?_, ?_, Do_tenThousand sampleRng⟩
  · unfold tenThousandUsers
    rw [List.map_map]
    apply List.Nodup.map _ (List.nodup_range _)
    intro a b h
    simp only [Function.comp] at h
    omega
  · intro u hu
    simp only [tenThousandUsers, List.mem_map] at hu
    obtain ⟨i, _, rfl⟩ := hu
    exact Int.one_pos
  · simp [tenThousandUsers]

/-- C3 (primary-pass uniqueness): with at least one worker and pairwise distinct
IDs, whatever the points and the draws, the winners the primary pass of `Do`
collects have pairwise distinct IDs; the draw loop over one fresh tree accepts a
duplicate-free list of indices of its subgroup, so on a subgroup with distinct
IDs it never accepts the same user twice.  The primary pass does return once
the fuel covers the request, provided the absolute values of the points add up
to less than `2 ^ 63` (on wrapped sums the draw loop can retry for ever). -/
theorem C3_primary_pass_distinct (rng : Nat → Nat) (numWorkers : Nat) (hW : 1 ≤ numWorkers)
    (users : List User) (hid : (users.map User.ID).Nodup) (numWinners : Nat) :
    (absWeight users < 2 ^ 63 → ∀ fuel c, numWinners ≤ fuel →
      ∃ winners c1, primaryPass rng fuel numWorkers users numWinners c = some (winners, c1)) ∧
    (∀ fuel c winners c1,
      primaryPass rng fuel numWorkers users numWinners c = some (winners, c1) →
      (winners.map User.ID).Nodup) ∧
    (∀ fuel quota (sub : List User) c res localPoints c1,
      drawLoop rng sub quota fuel (NewSegmentTree sub) [] ((NewSegmentTree sub).Sum 0 sub.length) c
        = some (res, localPoints, c1) →
      (∃ idxs : List Nat, idxs.Nodup ∧ (∀ i ∈ idxs, i < sub.length) ∧
        res = idxs.map (userAt sub)) ∧
      ((sub.map User.ID).Nodup → (res.map User.ID).Nodup)) := by
  refine ⟨?_, ?_, ?_⟩
  · intro hb fuel c hf
    exact primaryPass_total rng fuel numWorkers users hb numWinners c hf
  · intro fuel c winners c1 h
    have hok := primaryPass_sound rng fuel numWorkers hW users numWinners c winners c1 h
    exact subperm_nodup (subperm_map User.ID hok.subperm) hid
  · intro fuel quota sub c res localPoints c1 h
    have hok := drawFresh_sound rng fuel quota sub c res localPoints c1 h
    exact ⟨hok.idx, fun hs => subperm_nodup (subperm_map User.ID hok.subperm) hs⟩

theorem C3_primary_pass_distinct_witness :
    1 ≤ 2 ∧ (([⟨1, 5⟩, ⟨2, 1⟩, ⟨3, 3⟩, ⟨4, 4⟩] : List User).map User.ID).Nodup ∧
    primaryPass sampleRng 2 2 [⟨1, 5⟩, ⟨2, 1⟩, ⟨3, 3⟩, ⟨4, 4⟩] 2 0
      = some ([⟨1, 5⟩, ⟨4, 4⟩], 2) ∧
    (([⟨1, 5⟩, ⟨4, 4⟩] : List User).map User.ID).Nodup :=
  ⟨by decide, by decide, by decide,
    (C3_primary_pass_distinct sampleRng 2 (by decide) [⟨1, 5⟩, ⟨2, 1⟩, ⟨3, 3⟩, ⟨4, 4⟩]
      (by decide) 2).2.1 2 0 [⟨1, 5⟩, ⟨4, 4⟩] 2 (by decide)⟩

/-- C4 (termination of `Do`), evaluated where it fails: one worker, the empty
population and one requested winner.  The primary pass yields nothing, so the
recursive call is made with the same target 1 on the same empty population;
no amount of fuel lets `Do` return. -/
theorem C4_recursion_without_progress :
    ∀ (rng : Nat → Nat) (fuel c : Nat), Do rng fuel 1 [] 1 c = none :=
  fun rng fuel c =>
    Do_diverges rng 1 (le_refl _) fuel [] 1 c (by intro u hu; simp at hu) (le_refl _)

/-- C5 (degraded result), evaluated where it fails: one worker, one user with 5
points, two requested winners.  Only one user is eligible, yet `Do` returns two
entries, not fewer: the deficit is drawn among the winners already selected, so
the same user is returned twice; and whatever the draws, this is the only slice
`Do` returns on this input. -/
theorem C5_deficit_filled_with_repeat :
    (∀ u ∈ ([⟨1, 5⟩] : List User), 0 ≤ u.Points) ∧ eligible [⟨1, 5⟩] < 2 ∧
    Do sampleRng 3 1 [⟨1, 5⟩] 2 0 = some ([⟨1, 5⟩, ⟨1, 5⟩], 2) ∧
    ¬ (([⟨1, 5⟩, ⟨1, 5⟩] : List User).length < 2) ∧
    ¬ (([⟨1, 5⟩, ⟨1, 5⟩] : List User).map User.ID).Nodup ∧
    ∀ (rng : Nat → Nat) (fuel c : Nat) (r : List User) (c2 : Nat),
      Do rng fuel 1 [⟨1, 5⟩] 2 c = some (r, c2) → r = [⟨1, 5⟩, ⟨1, 5⟩] := by
  refine ⟨by decide, by decide, by decide, by decide, by decide, ?_⟩
  intro rng fuel c r c2 h
  have hlen := Do_length rng 1 (le_refl _) fuel _ 2 c r c2 h
  have hmem := Do_mem rng 1 (le_refl _) fuel _ 2 c r c2 h
  match r, hlen, hmem with
  | [a, b], _, hmem =>
    have ha := (hmem a (by simp)).1
    have hb := (hmem b (by simp)).1
    rw [List.mem_singleton] at ha hb
    rw [ha, hb]

/-- C6 (empty and all-zero populations), evaluated where it fails: one worker,
one user with 0 points and one requested winner.  The primary pass is empty
and `Do` recurses on the empty population with the same request for ever
instead of returning the empty slice. -/
theorem C6_all_zero_never_returns :
    (∀ u ∈ ([⟨1, 0⟩] : List User), u.Points = 0) ∧
    ∀ (rng : Nat → Nat) (fuel c : Nat), Do rng fuel 1 [⟨1, 0⟩] 1 c = none :=
  ⟨by decide, fun rng fuel c =>
    Do_diverges rng 1 (le_refl _) fuel [⟨1, 0⟩] 1 c (by decide) (le_refl _)⟩

/-- C7 (zero request): with at least one worker, `Do(users, 0)` returns the
empty slice; one activation of `Do` is enough (no recursive call) and the draw
counter is unchanged (no draw). -/
theorem C7_zero_request (rng : Nat → Nat) (numWorkers : Nat) (hW : 1 ≤ numWorkers)
    (users : List User) (c : Nat) :
    ∀ fuel, Do rng (fuel + 1) numWorkers users 0 c = some ([], c) :=
  fun fuel => Do_zero rng numWorkers fuel users c

theorem C7_zero_request_witness :
    1 ≤ 3 ∧ Do sampleRng 1 3 [⟨1, 5⟩, ⟨2, 7⟩] 0 0 = some ([], 0) :=
  ⟨by decide, C7_zero_request sampleRng 3 (by decide) [⟨1, 5⟩, ⟨2, 7⟩] 0 0⟩

/-- C8 (zero-weight exclusion): with at least one worker, whenever `Do` returns,
no user in the returned slice has `Points = 0`. -/
theorem C8_zero_weight_excluded (rng : Nat → Nat) (numWorkers : Nat) (hW : 1 ≤ numWorkers)
    (fuel : Nat) (users : List User) (numWinners c : Nat) (r : List User) (c2 : Nat)
    (h : Do rng fuel numWorkers users numWinners c = some (r, c2)) :
    ∀ u ∈ r, u.Points ≠ 0 := by
  intro u hu
  exact (Do_mem rng numWorkers hW fuel users numWinners c r c2 h u hu).2

theorem C8_zero_weight_excluded_witness :
    1 ≤ 1 ∧
    Do sampleRng 5 1 [⟨1, 5⟩, ⟨2, 0⟩, ⟨3, 3⟩, ⟨4, 4⟩] 4 0
      = some ([⟨1, 5⟩, ⟨4, 4⟩, ⟨3, 3⟩, ⟨4, 4⟩], 4) ∧
    ∀ u ∈ ([⟨1, 5⟩, ⟨4, 4⟩, ⟨3, 3⟩, ⟨4, 4⟩] : List User), u.Points ≠ 0 :=
  ⟨by decide, by decide,
    C8_zero_weight_excluded sampleRng 1 (by decide) 5 [⟨1, 5⟩, ⟨2, 0⟩, ⟨3, 3⟩, ⟨4, 4⟩] 4 0
      [⟨1, 5⟩, ⟨4, 4⟩, ⟨3, 3⟩, ⟨4, 4⟩] 4 (by decide)⟩

/-- C9 as stated fails: two users with `2 ^ 63 - 1` points and 1 point, both
values of a 64-bit `int`.  Right after `NewSegmentTree` the arithmetic sum of the
points is `2 ^ 63`, but `Sum(0, 2)` is `-2 ^ 63`: the addition wraps. -/
theorem C9_counterexample :
    (∀ u ∈ ([⟨1, 2 ^ 63 - 1⟩, ⟨2, 1⟩] : List User), -2 ^ 63 ≤ u.Points ∧ u.Points < 2 ^ 63) ∧
    (NewSegmentTree [⟨1, 2 ^ 63 - 1⟩, ⟨2, 1⟩]).Sum 0 2 = -2 ^ 63 ∧
    (([⟨1, 2 ^ 63 - 1⟩, ⟨2, 1⟩] : List User).map User.Points).sum = 2 ^ 63 ∧
    (NewSegmentTree [⟨1, 2 ^ 63 - 1⟩, ⟨2, 1⟩]).Sum 0 2
      ≠ (([⟨1, 2 ^ 63 - 1⟩, ⟨2, 1⟩] : List User).map User.Points).sum :=
  ⟨by decide, by decide, by decide, by decide⟩

/-- C9 as amended: after `NewSegmentTree(users)` and any sequence of `Update` /
`MarkAsDeleted` calls on indices below `n = len(users)`, when the absolute
values of the current leaves `tree[n .. 2n-1]` add up to less than `2 ^ 63`, for
`lo ≤ hi ≤ n` the value `Sum(lo, hi)` is the sum of the current leaves
`tree[n+lo .. n+hi-1]`; and when the absolute values of the points add up to
less than `2 ^ 63`, on the fresh tree `Sum(0, n)` is the sum of all points. -/
theorem C9_range_sum (users : List User) (ops : List TreeOp)
    (hops : ∀ op ∈ ops, op.index < users.length) (lo hi : Nat) (h1 : lo ≤ hi)
    (h2 : hi ≤ users.length)
    (hb : absSum (applyOps (NewSegmentTree users) ops).tree users.length (users.length * 2)
      < 2 ^ 63) :
    (applyOps (NewSegmentTree users) ops).Sum lo hi
      = (((applyOps (NewSegmentTree users) ops).tree.drop (users.length + lo)).take
          (hi - lo)).sum ∧
    (absWeight users < 2 ^ 63 →
      (NewSegmentTree users).Sum 0 users.length = (users.map User.Points).sum) := by
  constructor
  · obtain ⟨a1, a2, a3⟩ := applyOps_inv ops (NewSegmentTree users)
      (NewSegmentTree_length users) (NewSegmentTree_inv users) hops
    rw [NewSegmentTree_n] at a1 a2 a3
    have hs := Sum_eq_cellSum (applyOps (NewSegmentTree users) ops)
      (by rw [a1]; exact a3) (by rw [a1]; exact hb) lo hi h1 (by rw [a1]; exact h2)
    rw [a1] at hs
    rw [hs, sum_slice_eq_cellSum _ _ _ (by rw [a2]; omega)]
    congr 1
    omega
  · intro hu
    have hok := NewSegmentTree_ok users
    have hs := Sum_eq_cellSum (NewSegmentTree users) hok.hinv
      (lt_of_le_of_lt hok.absSum_le hu) 0 users.length (Nat.zero_le _) (le_refl _)
    rw [NewSegmentTree_n] at hs
    rw [hs, Nat.add_zero, cellSum_leaves_take users users.length (le_refl _), List.take_length]

theorem C9_range_sum_witness :
    (∀ op ∈ [TreeOp.markAsDeleted 2, TreeOp.update 0 7],
      op.index < ([⟨1, 1⟩, ⟨2, 2⟩, ⟨3, 3⟩, ⟨4, 4⟩, ⟨5, 5⟩] : List User).length) ∧
    1 ≤ 4 ∧ 4 ≤ ([⟨1, 1⟩, ⟨2, 2⟩, ⟨3, 3⟩, ⟨4, 4⟩, ⟨5, 5⟩] : List User).length ∧
    absSum (applyOps (NewSegmentTree [⟨1, 1⟩, ⟨2, 2⟩, ⟨3, 3⟩, ⟨4, 4⟩, ⟨5, 5⟩])
      [TreeOp.markAsDeleted 2, TreeOp.update 0 7]).tree 5 (5 * 2) < 2 ^ 63 ∧
    (applyOps (NewSegmentTree [⟨1, 1⟩, ⟨2, 2⟩, ⟨3, 3⟩, ⟨4, 4⟩, ⟨5, 5⟩])
      [TreeOp.markAsDeleted 2, TreeOp.update 0 7]).Sum 1 4 = 6 ∧
    (applyOps (NewSegmentTree [⟨1, 1⟩, ⟨2, 2⟩, ⟨3, 3⟩, ⟨4, 4⟩, ⟨5, 5⟩])
      [TreeOp.markAsDeleted 2, TreeOp.update 0 7]).Sum 1 4
      = (((applyOps (NewSegmentTree [⟨1, 1⟩, ⟨2, 2⟩, ⟨3, 3⟩, ⟨4, 4⟩, ⟨5, 5⟩])
          [TreeOp.markAsDeleted 2, TreeOp.update 0 7]).tree.drop (5 + 1)).take (4 - 1)).sum :=
  ⟨by decide, by decide, by decide, by decide, by decide,
    (C9_range_sum [⟨1, 1⟩, ⟨2, 2⟩, ⟨3, 3⟩, ⟨4, 4⟩, ⟨5, 5⟩]
      [TreeOp.markAsDeleted 2, TreeOp.update 0 7] (by decide) 1 4 (by decide) (by decide)
      (by decide)).1⟩

/-- C10 as stated fails: three users with one point each and target 1.  The
running sum of index 0 already reaches the target, but `FindIndex` answers 1:
with `n = 3` the left subtree of the root holds the leaves 1 and 2. -/
theorem C10_counterexample :
    (∀ u ∈ ([⟨1, 1⟩, ⟨2, 1⟩, ⟨3, 1⟩] : List User), 0 ≤ u.Points) ∧
    (1 : Int) ≤ (NewSegmentTree [⟨1, 1⟩, ⟨2, 1⟩, ⟨3, 1⟩]).Sum 0 3 ∧
    (NewSegmentTree [⟨1, 1⟩, ⟨2, 1⟩, ⟨3, 1⟩]).FindIndex 1 = 1 ∧
    ¬ firstReaching [⟨1, 1⟩, ⟨2, 1⟩, ⟨3, 1⟩] 1
        ((NewSegmentTree [⟨1, 1⟩, ⟨2, 1⟩, ⟨3, 1⟩]).FindIndex 1) := by
  exact ⟨by decide, by decide, by decide, by decide⟩

/-- C10 as amended: when the number of weights is a power of two, all weights
are non-negative, their total is below `2 ^ 63` and `1 ≤ target ≤ Sum(0, n)`,
`FindIndex(target)` is an index below `n` and the smallest one whose running
sum reaches the target. -/
theorem C10_search_power_of_two (users : List User) (k : Nat)
    (hn : users.length = 2 ^ k) (hnn : ∀ u ∈ users, 0 ≤ u.Points)
    (hb : (users.map User.Points).sum < 2 ^ 63) (target : Int)
    (h1 : 1 ≤ target) (h2 : target ≤ (NewSegmentTree users).Sum 0 users.length) :
    (NewSegmentTree users).FindIndex target < users.length ∧
    firstReaching users target ((NewSegmentTree users).FindIndex target) := by
  have hok := NewSegmentTree_ok users
  have hba : absWeight users < 2 ^ 63 := by rw [absWeight_of_nonneg users hnn]; exact hb
  have hinv := hok.exact hba
  have hbd := hok.cell_lt hba
  rw [NewSegmentTree_n] at hinv hbd
  have hpos : 1 ≤ users.length := by rw [hn]; exact Nat.two_pow_pos k
  have hst := hok.sum_total hba
  have hroot := total_eq_root (NewSegmentTree users) (hok.exact hba) hpos
  rw [NewSegmentTree_n] at hst
  rw [hst, hroot] at h2
  have hk : k ≤ users.length := by rw [hn]; exact le_of_lt (Nat.lt_two_pow k)
  obtain ⟨r1, r2, r3, r4⟩ := findLoop_pow2 (NewSegmentTree users).tree users.length hinv hbd
    k users.length 1 target (le_refl _) hk (by rw [hn]; omega) (by rw [hn]; omega) h1 h2
  have e1 : 1 * 2 ^ k = users.length := by rw [hn]; omega
  have e2 : (1 + 1) * 2 ^ k = users.length * 2 := by rw [hn]; ring
  rw [e1] at r1 r3 r4
  rw [e2] at r2
  have hidx : (NewSegmentTree users).FindIndex target
      = findLoop (NewSegmentTree users).tree users.length users.length 1 target
        - users.length := rfl
  have hlt : (NewSegmentTree users).FindIndex target < users.length := by omega
  have hr : findLoop (NewSegmentTree users).tree users.length users.length 1 target
      = users.length + (NewSegmentTree users).FindIndex target := by omega
  rw [hr] at r3 r4
  refine ⟨hlt, ?_, ?_⟩
  · unfold runningSum
    rw [← cellSum_leaves_take users _ (by omega)]
    exact r4
  · intro j hj
    unfold runningSum
    rw [← cellSum_leaves_take users _ (by omega)]
    have hsplit := cellSum_append (NewSegmentTree users).tree
      (by omega : users.length ≤ users.length + (j + 1))
      (by omega : users.length + (j + 1)
        ≤ users.length + (NewSegmentTree users).FindIndex target)
    have hnonneg : 0 ≤ cellSum (NewSegmentTree users).tree (users.length + (j + 1))
        (users.length + (NewSegmentTree users).FindIndex target) := by
      unfold cellSum
      apply Finset.sum_nonneg
      intro i hi
      rw [Finset.mem_Ico] at hi
      have := NewSegmentTree_leaf users (i - users.length) (by omega)
      rw [show users.length + (i - users.length) = i by omega] at this
      rw [this]
      exact hnn _ (userAt_mem users _ (by omega))
    omega

theorem C10_search_power_of_two_witness :
    ([⟨1, 2⟩, ⟨2, 0⟩, ⟨3, 3⟩, ⟨4, 4⟩] : List User).length = 2 ^ 2 ∧
    (∀ u ∈ ([⟨1, 2⟩, ⟨2, 0⟩, ⟨3, 3⟩, ⟨4, 4⟩] : List User), 0 ≤ u.Points) ∧
    (([⟨1, 2⟩, ⟨2, 0⟩, ⟨3, 3⟩, ⟨4, 4⟩] : List User).map User.Points).sum < 2 ^ 63 ∧
    (1 : Int) ≤ 3 ∧
    (3 : Int) ≤ (NewSegmentTree [⟨1, 2⟩, ⟨2, 0⟩, ⟨3, 3⟩, ⟨4, 4⟩]).Sum 0 4 ∧
    (NewSegmentTree [⟨1, 2⟩, ⟨2, 0⟩, ⟨3, 3⟩, ⟨4, 4⟩]).FindIndex 3 = 2 ∧
    firstReaching [⟨1, 2⟩, ⟨2, 0⟩, ⟨3, 3⟩, ⟨4, 4⟩] 3
      ((NewSegmentTree [⟨1, 2⟩, ⟨2, 0⟩, ⟨3, 3⟩, ⟨4, 4⟩]).FindIndex 3) :=
  ⟨by decide, by decide, by decide, by decide, by decide, by decide,
    (C10_search_power_of_two [⟨1, 2⟩, ⟨2, 0⟩, ⟨3, 3⟩, ⟨4, 4⟩] 2 (by decide)
      (by decide) (by decide) 3 (by decide) (by decide)).2⟩

/-! ## Trees reached by marking -/

theorem markAll_ok (users : List User) : ∀ (dels : List Nat) (st : SegmentTree),
    TreeOk users st → (∀ i ∈ dels, i < users.length) → TreeOk users (markAll st dels) := by
  intro dels
  induction dels with
  | nil => intro st h _; exact h
  | cons d rest ih =>
    intro st h hd
    have h1 := (MarkAsDeleted_ok users st h d
      (by rw [h.hn]; exact hd d (List.mem_cons_self _ _))).1
    exact ih _ h1 (fun i hi => hd i (List.mem_cons_of_mem _ hi))

theorem TreeOk.leaf_nonneg {users : List User} {st : SegmentTree} (h : TreeOk users st)
    (hnn : ∀ u ∈ users, 0 ≤ u.Points) (i : Nat) (h1 : st.n ≤ i) (h2 : i < st.n * 2) :
    0 ≤ cell st.tree i := by
  have hl := h.hleaf (i - st.n) (by omega)
  rw [show st.n + (i - st.n) = i by omega] at hl
  rw [hl]
  split
  · exact le_refl _
  · exact hnn _ (userAt_mem users _ (by rw [← h.hn]; omega))

theorem node_nonneg (t : List Int) (n : Nat) (hinv : ExactInv t n)
    (hleaf : ∀ i, n ≤ i → i < n * 2 → 0 ≤ cell t i) :
    ∀ (d i : Nat), 1 ≤ i → i < n * 2 → n * 2 ≤ i + d → 0 ≤ cell t i := by
  intro d
  induction d with
  | zero => intro i _ h2 h3; omega
  | succ d ih =>
    intro i h1 h2 h3
    by_cases hi : i < n
    · rw [hinv i h1 hi]
      have a := ih (i * 2) (by omega) (by omega) (by omega)
      have b := ih (i * 2 + 1) (by omega) (by omega) (by omega)
      omega
    · exact hleaf i (by omega) h2

/-! ## Where the descent of FindIndex can end -/

theorem node_eq_sum_leavesBelow (t : List Int) (n : Nat) (hinv : ExactInv t n) :
    ∀ (fuel index : Nat), 1 ≤ index → n ≤ index + fuel →
      cell t index = ((leavesBelow n fuel index).map (cell t)).sum := by
  intro fuel
  induction fuel with
  | zero => intro index _ _; simp [leavesBelow]
  | succ fuel ih =>
    intro index h1 h2
    unfold leavesBelow
    by_cases hi : index < n
    · rw [if_pos hi, List.map_append, List.sum_append, ← ih _ (by omega) (by omega),
        ← ih _ (by omega) (by omega)]
      exact hinv index h1 hi
    · rw [if_neg hi]
      simp

theorem leavesBelow_range (n : Nat) :
    ∀ (fuel index : Nat), 1 ≤ index → n ≤ index + fuel → index < n * 2 →
      ∀ r ∈ leavesBelow n fuel index, n ≤ r ∧ r < n * 2 := by
  intro fuel
  induction fuel with
  | zero =>
    intro index _ h2 h3 r hr
    simp only [leavesBelow, List.mem_singleton] at hr
    omega
  | succ fuel ih =>
    intro index h1 h2 h3 r hr
    unfold leavesBelow at hr
    by_cases hi : index < n
    · rw [if_pos hi, List.mem_append] at hr
      rcases hr with hr | hr
      · exact ih _ (by omega) (by omega) (by omega) r hr
      · exact ih _ (by omega) (by omega) (by omega) r hr
    · rw [if_neg hi, List.mem_singleton] at hr
      omega

theorem sum_map_indicator (r : Nat) (f : Nat → Int) (hf : ∀ x, f x = if x = r then 1 else 0) :
    ∀ l : List Nat, (l.map f).sum = (l.count r : Int) := by
  intro l
  induction l with
  | nil => simp
  | cons a l ih =>
    rw [List.map_cons, List.sum_cons, ih, hf a, List.count_cons]
    by_cases h : a = r
    · subst h; simp; ring
    · have h2 : (a == r) = false := by simpa using h
      simp [h, h2]

/-- Every leaf is reached by exactly one path from the root. -/
theorem count_leavesBelow_root (n r : Nat) (h1 : n ≤ r) (h2 : r < n * 2) :
    (leavesBelow n n 1).count r = 1 := by
  have hn : 1 ≤ n := by omega
  -- the tree over the indicator weights of leaf `r`
  let users : List User :=
    (List.range n).map (fun (j : Nat) => User.mk 0 (if j = r - n then 1 else 0))
  have hlen : users.length = n := by simp [users]
  have habs : absWeight users = 1 := by
    rw [absWeight_eq, hlen]
    have hterm : ∀ j ∈ Finset.range n,
        |(userAt users j).Points| = if j = r - n then (1 : Int) else 0 := by
      intro j hj
      rw [Finset.mem_range] at hj
      rw [userAt_eq_getElem users j (by omega)]
      simp only [users, List.getElem_map, List.getElem_range]
      split <;> simp
    rw [Finset.sum_congr rfl hterm, Finset.sum_ite_eq']
    simp
    omega
  have hinv := (NewSegmentTree_ok users).exact (by rw [habs]; norm_num)
  rw [NewSegmentTree_n, hlen] at hinv
  have hleaf : ∀ x, n ≤ x → x < n * 2 →
      cell (NewSegmentTree users).tree x = if x = r then 1 else 0 := by
    intro x hx1 hx2
    have := NewSegmentTree_leaf users (x - n) (by omega)
    rw [hlen, show n + (x - n) = x by omega, userAt_eq_getElem users _ (by omega)] at this
    rw [this]
    simp only [users, List.getElem_map, List.getElem_range]
    by_cases hxr : x = r
    · subst hxr; simp
    · have : x - n ≠ r - n := by omega
      simp [hxr, this]
  have hroot : cell (NewSegmentTree users).tree 1 = 1 := by
    rw [← cellSum_level _ n hinv n hn (le_refl _)]
    unfold cellSum
    have hc : ∑ x ∈ Finset.Ico n (n * 2), cell (NewSegmentTree users).tree x
        = ∑ x ∈ Finset.Ico n (n * 2), (if x = r then (1 : Int) else 0) := by
      apply Finset.sum_congr rfl
      intro x hx
      rw [Finset.mem_Ico] at hx
      exact hleaf x hx.1 hx.2
    rw [hc, Finset.sum_ite_eq']
    simp [h1, h2]
  have hsum := node_eq_sum_leavesBelow _ n hinv n 1 (le_refl _) (by omega)
  rw [hroot] at hsum
  have hmap : (leavesBelow n n 1).map (cell (NewSegmentTree users).tree)
      = (leavesBelow n n 1).map (fun x => if x = r then (1 : Int) else 0) := by
    apply List.map_congr_left
    intro x hx
    obtain ⟨a, b⟩ := leavesBelow_range n n 1 (le_refl _) (by omega) (by omega) x hx
    exact hleaf x a b
  rw [hmap, sum_map_indicator r _ (fun _ => rfl)] at hsum
  omega

/-- Counting lemma of the descent: among the targets `1 .. tree[index]`, as many
end on leaf `r` as `r` holds, once for every path from `index` to `r`. -/
theorem hits_eq (t : List Int) (n : Nat) (hinv : ExactInv t n)
    (hnn : ∀ i, 1 ≤ i → i < n * 2 → 0 ≤ cell t i)
    (hbd : ∀ i, 1 ≤ i → i < n * 2 → cell t i < 2 ^ 63) :
    ∀ (fuel index r : Nat), 1 ≤ index → n ≤ index + fuel → index < n * 2 →
      hits t n fuel index r = (leavesBelow n fuel index).count r * (cell t r).toNat := by
  have hleafcase : ∀ (fuel index r : Nat), ¬ index < n →
      (∀ tg, findLoop t n fuel index tg = index) →
      hits t n fuel index r = ([index] : List Nat).count r * (cell t r).toNat := by
    intro fuel index r _ hfl
    unfold hits
    simp only [hfl]
    by_cases hr : index = r
    · subst hr
      simp
    · have h2 : (index == r) = false := by simpa using hr
      simp [hr, List.count_cons, h2]
  intro fuel
  induction fuel with
  | zero =>
    intro index r _ h2 _
    exact hleafcase 0 index r (by omega) (fun _ => rfl)
  | succ fuel ih =>
    intro index r h1 h2 h3
    by_cases hi : index < n
    · have hL := hnn (index * 2) (by omega) (by omega)
      have hR := hnn (index * 2 + 1) (by omega) (by omega)
      have hV := hinv index h1 hi
      have ihL := ih (index * 2) r (by omega) (by omega) (by omega)
      have ihR := ih (index * 2 + 1) r (by omega) (by omega) (by omega)
      have hleaves : leavesBelow n (fuel + 1) index
          = leavesBelow n fuel (index * 2) ++ leavesBelow n fuel (index * 2 + 1) := by
        rw [leavesBelow, if_pos hi]
      rw [hleaves, List.count_append, Nat.add_mul, ← ihL, ← ihR]
      unfold hits
      rw [Finset.card_filter, Finset.card_filter, Finset.card_filter, hV,
        Int.toNat_add hL hR, Finset.sum_range_add]
      congr 1
      · apply Finset.sum_congr rfl
        intro k hk
        rw [Finset.mem_range] at hk
        have hle : cell t (index * 2) ≥ (k : Int) + 1 := by omega
        rw [findLoop, if_pos hi, if_pos hle]
      · apply Finset.sum_congr rfl
        intro k hk
        rw [Finset.mem_range] at hk
        have hRb := hbd (index * 2 + 1) (by omega) (by omega)
        have hcast : (((cell t (index * 2)).toNat + k : Nat) : Int) + 1
            = (cell t (index * 2)) + ((k : Int) + 1) := by
          rw [Nat.cast_add, Int.toNat_of_nonneg hL]
          ring
        have hgt : ¬ cell t (index * 2) ≥ (cell t (index * 2)) + ((k : Int) + 1) := by omega
        have hsub : subInt (cell t (index * 2) + ((k : Int) + 1)) (cell t (index * 2))
            = (k : Int) + 1 := by
          rw [subInt_eq _ _ (by omega) (by omega)]
          ring
        rw [hcast, findLoop, if_pos hi, if_neg hgt, hsub]
    · have hleaves : leavesBelow n (fuel + 1) index = [index] := by
        rw [leavesBelow, if_neg hi]
      rw [hleaves]
      exact hleafcase (fuel + 1) index r hi (fun tg => by rw [findLoop, if_neg hi])

/-- The targets `1 .. T`, as a shifted range. -/
theorem card_filter_Icc_one (T : Int) (p : Int → Prop) [DecidablePred p] :
    ((Finset.Icc 1 T).filter p).card
      = ((Finset.range T.toNat).filter (fun (k : Nat) => p ((k : Int) + 1))).card := by
  rw [Int.Icc_eq_finset_map, Finset.filter_map, Finset.card_map]
  have e : (T + 1 - 1).toNat = T.toNat := by congr 1; ring
  rw [e]
  congr 1
  apply Finset.filter_congr
  intro k _
  simp [add_comm]

/-- In a well-formed tree over non-negative weights, the number of targets in
`[1, Sum(0, n)]` that `FindIndex` sends to index `i` is the weight of leaf `i`. -/
theorem FindIndex_count (users : List User) (st : SegmentTree) (hok : TreeOk users st)
    (hnn : ∀ u ∈ users, 0 ≤ u.Points) (hb : absWeight users < 2 ^ 63) (i : Nat)
    (hi : i < st.n) :
    (((Finset.Icc 1 (st.Sum 0 st.n)).filter (fun tg => st.FindIndex tg = i)).card : Int)
      = cell st.tree (st.n + i) := by
  have hn : 1 ≤ st.n := by omega
  have hex := hok.exact hb
  have hnodes : ∀ j, 1 ≤ j → j < st.n * 2 → 0 ≤ cell st.tree j := fun j h1 h2 =>
    node_nonneg st.tree st.n hex (fun x a b => hok.leaf_nonneg hnn x a b)
      (st.n * 2) j h1 h2 (by omega)
  rw [hok.sum_total hb, total_eq_root st hex hn, card_filter_Icc_one]
  have hcongr : (Finset.range (cell st.tree 1).toNat).filter
        (fun (k : Nat) => st.FindIndex ((k : Int) + 1) = i)
      = (Finset.range (cell st.tree 1).toNat).filter
        (fun (k : Nat) => findLoop st.tree st.n st.n 1 ((k : Int) + 1) = st.n + i) := by
    apply Finset.filter_congr
    intro k hk
    rw [Finset.mem_range] at hk
    have hge := (findLoop_range st.tree st.n st.n 1 ((k : Int) + 1) (le_refl _)
      (by omega)).1
    unfold SegmentTree.FindIndex
    omega
  rw [hcongr]
  have h := hits_eq st.tree st.n hex hnodes (hok.cell_lt hb) st.n 1 (st.n + i) (le_refl _)
    (by omega) (by omega)
  unfold hits at h
  rw [h, count_leavesBelow_root st.n (st.n + i) (by omega) (by omega), Nat.one_mul]
  exact Int.toNat_of_nonneg (hnodes _ (by omega) (by omega))

/-! ## The draw loop, iteration by iteration -/

theorem drawLoop_eq_iter (rng : Nat → Nat) (sub : List User) (quota : Nat) :
    ∀ (fuel : Nat) (s : DrawState),
      drawLoop rng sub quota fuel s.st s.res s.localPoints s.c =
        match drawIter rng sub quota fuel s with
        | none => none
        | some s1 =>
          if s1.res.length < quota ∧ s1.localPoints > 0 then none
          else some (s1.res, s1.localPoints, s1.c) := by
  intro fuel
  induction fuel with
  | zero => intro s; rfl
  | succ fuel ih =>
    intro s
    rw [drawLoop, drawIter]
    by_cases hcond : s.res.length < quota ∧ s.localPoints > 0
    · rw [if_pos hcond, if_pos hcond]
      simp only [drawBody]
      generalize s.st.FindIndex (addInt ((rng s.c % s.localPoints.toNat : Nat) : Int) 1) = index
      cases hd : s.st.IsDeleted index with
      | none => rfl
      | some deleted =>
        simp only
        by_cases hb : (deleted || (userAt sub index).Points == 0) = true
        · rw [if_pos hb, if_pos hb]
          exact ih { s with c := s.c + 1 }
        · rw [if_neg hb, if_neg hb]
          exact ih { st := s.st.MarkAsDeleted index,
                     res := s.res ++ [userAt sub index],
                     localPoints := subInt s.localPoints (userAt sub index).Points,
                     c := s.c + 1 }
    · rw [if_neg hcond, if_neg hcond]
      simp only [hcond, if_false]

/-- Without wrap-around an iteration under the loop invariant never retries:
the drawn index is in range, not deleted and has positive points, a winner is
appended, and the invariant holds again. -/
theorem drawBody_accepts (rng : Nat → Nat) (sub : List User) (hb : absWeight sub < 2 ^ 63)
    (s : DrawState) (hok : TreeOk sub s.st) (hlp : s.localPoints = total s.st)
    (hpos : s.localPoints > 0) :
    ∃ index s1, drawBody rng sub s = some s1 ∧ index < sub.length ∧
      s.st.IsDeleted index = some false ∧ 1 ≤ (userAt sub index).Points ∧
      s1 = { st := s.st.MarkAsDeleted index, res := s.res ++ [userAt sub index],
             localPoints := s.localPoints - (userAt sub index).Points, c := s.c + 1 } ∧
      TreeOk sub s1.st ∧ s1.localPoints = total s1.st := by
  have hnat : ((s.localPoints.toNat : Nat) : Int) = s.localPoints :=
    Int.toNat_of_nonneg (by omega)
  have hlt : rng s.c % s.localPoints.toNat < s.localPoints.toNat := Nat.mod_lt _ (by omega)
  have habs := hok.abs_total
  have hself := le_abs_self (total s.st)
  have hrand : addInt ((rng s.c % s.localPoints.toNat : Nat) : Int) 1
      = ((rng s.c % s.localPoints.toNat : Nat) : Int) + 1 :=
    addInt_of_range _ _ (by omega) (by omega)
  have ht1 : (1 : Int) ≤ ((rng s.c % s.localPoints.toNat : Nat) : Int) + 1 := by omega
  have ht2 : ((rng s.c % s.localPoints.toNat : Nat) : Int) + 1 ≤ total s.st := by omega
  generalize hix : s.st.FindIndex (((rng s.c % s.localPoints.toNat : Nat) : Int) + 1) = index
  obtain ⟨f1, f2, f3⟩ := FindIndex_live sub s.st hok hb _ ht1 ht2
  rw [hix] at f1 f2 f3
  obtain ⟨m1, m2, _⟩ := MarkAsDeleted_ok sub s.st hok _ f1
  have hleaf := hok.hleaf _ f1
  rw [f2, if_neg (by simp)] at hleaf
  rw [hleaf] at m2
  have habs2 := m1.abs_total
  have hneg := neg_abs_le (total (s.st.MarkAsDeleted index))
  have hself2 := le_abs_self (total (s.st.MarkAsDeleted index))
  have hsub : subInt s.localPoints (userAt sub index).Points
      = s.localPoints - (userAt sub index).Points :=
    subInt_eq _ _ (by omega) (by omega)
  have hne : ¬ ((userAt sub index).Points = 0) := by omega
  refine ⟨index, _, ?_, by rw [← hok.hn]; exact f1, f2, f3, rfl, m1, ?_⟩
  · simp only [drawBody]
    rw [hrand, hix, f2]
    simp only [hne, Bool.false_or, beq_iff_eq, if_false]
    rw [hsub]
  · show s.localPoints - _ = total (s.st.MarkAsDeleted _)
    rw [m2, hlp]

theorem drawIter_inv (rng : Nat → Nat) (sub : List User) (hb : absWeight sub < 2 ^ 63)
    (quota : Nat) :
    ∀ (k : Nat) (s : DrawState), TreeOk sub s.st → s.localPoints = total s.st →
      ∃ s1, drawIter rng sub quota k s = some s1 ∧ TreeOk sub s1.st ∧
        s1.localPoints = total s1.st ∧ s1.res.length + s.c = s.res.length + s1.c := by
  intro k
  induction k with
  | zero => intro s h1 h2; exact ⟨s, rfl, h1, h2, rfl⟩
  | succ k ih =>
    intro s h1 h2
    rw [drawIter]
    by_cases hcond : s.res.length < quota ∧ s.localPoints > 0
    · rw [if_pos hcond]
      obtain ⟨index, s1, hb1, _, _, _, hs1, a1, a2⟩ :=
        drawBody_accepts rng sub hb s h1 h2 hcond.2
      obtain ⟨s2, r0, r1, r2, r3⟩ := ih s1 a1 a2
      rw [hb1]
      refine ⟨s2, r0, r1, r2, ?_⟩
      have e1 : s1.res.length = s.res.length + 1 := by rw [hs1]; simp
      have e2 : s1.c = s.c + 1 := by rw [hs1]
      omega
    · rw [if_neg hcond]
      exact ⟨s, rfl, h1, h2, rfl⟩

theorem drawStart_inv (sub : List User) (hb : absWeight sub < 2 ^ 63) (c : Nat) :
    TreeOk sub (drawStart sub c).st ∧ (drawStart sub c).localPoints = total (drawStart sub c).st :=
  ⟨NewSegmentTree_ok sub, (NewSegmentTree_ok sub).sum_total hb⟩

/-! ## Bounds of the slices -/

theorem chunk_eq_slice (users : List User) (k size i : Nat) :
    chunk users k size i
      = (users.drop (sliceStart size i)).take
          (sliceStop users.length k size i - sliceStart size i) := rfl

theorem slice_bounds (len k size : Nat) (hsz : k * size ≤ len) (i : Nat) (hi : i < k) :
    sliceStart size i ≤ sliceStop len k size i ∧
    sliceStop len k size i ≤ len ∧
    (i + 1 < k → sliceStop len k size i = sliceStart size (i + 1)) ∧
    (i = k - 1 → sliceStop len k size i = len) := by
  have h2 : (i + 1) * size ≤ k * size := Nat.mul_le_mul_right _ (by omega)
  have e : (i + 1) * size = i * size + size := by ring
  unfold sliceStart sliceStop
  by_cases hl : i = k - 1
  · rw [if_pos hl]
    exact ⟨by omega, le_refl _, fun h => by omega, fun _ => rfl⟩
  · rw [if_neg hl]
    exact ⟨by omega, by omega, fun _ => by omega, fun h => absurd h hl⟩

theorem sliceStart_mono (size i j : Nat) (h : i ≤ j) : sliceStart size i ≤ sliceStart size j :=
  Nat.mul_le_mul_right _ h

theorem chunk_length (users : List User) (k size : Nat) (hsz : k * size ≤ users.length)
    (i : Nat) (hi : i < k) :
    (chunk users k size i).length
      = sliceStop users.length k size i - sliceStart size i := by
  obtain ⟨b1, b2, _, _⟩ := slice_bounds users.length k size hsz i hi
  rw [chunk_eq_slice, List.length_take, List.length_drop]
  omega

/-- Arithmetic of the subgroup split: with `q = max(1, len / 5000)` subgroups of
`len / q` entries, the last one running to `len`, no subgroup reaches 10000. -/
theorem slice_length_lt (len q z i : Nat) (hq : q = max 1 (len / 5000)) (hz1 : q * z ≤ len)
    (hz2 : len < q * z + q) (hi : i < q) :
    sliceStop len q z i - sliceStart z i < 10000 := by
  have h2 : (i + 1) * z ≤ q * z := Nat.mul_le_mul_right _ (by omega)
  have e : (i + 1) * z = i * z + z := by ring
  unfold sliceStart sliceStop
  by_cases hsmall : len < 5000
  · have hq1 : q = 1 := by
      rw [hq]
      have : len / 5000 = 0 := by omega
      rw [this]
      rfl
    subst hq1
    have hi0 : i = 0 := by omega
    subst hi0
    simp
    omega
  · have hqd : q = len / 5000 := by
      rw [hq]
      apply max_eq_right
      omega
    have hzlt : z < 10000 := by
      by_contra hc
      have : q * 10000 ≤ q * z := Nat.mul_le_mul_left _ (by omega)
      omega
    have hzge : 5000 ≤ z := by
      by_contra hc
      have : q * z ≤ q * 4999 := Nat.mul_le_mul_left _ (by omega)
      omega
    by_cases hl : i = q - 1
    · rw [if_pos hl]
      subst hl
      have hlow : (q - 1) * 5000 ≤ (q - 1) * z := Nat.mul_le_mul_left _ hzge
      omega
    · rw [if_neg hl]
      omega

/-- Every subgroup has fewer than 10000 users. -/
theorem subGroup_length_lt (users : List User) (i : Nat) (hi : i < numSubGroupsOf users.length) :
    (chunk users (numSubGroupsOf users.length)
      (users.length / numSubGroupsOf users.length) i).length < 10000 := by
  rw [chunk_length users _ _ (numSubGroupsOf_mul_le _) i hi]
  have hpos := numSubGroupsOf_pos users.length
  have hz1 := numSubGroupsOf_mul_le users.length
  have hz2 : users.length < numSubGroupsOf users.length
      * (users.length / numSubGroupsOf users.length) + numSubGroupsOf users.length := by
    have a := Nat.div_add_mod users.length (numSubGroupsOf users.length)
    have b := Nat.mod_lt users.length (show numSubGroupsOf users.length > 0 by omega)
    generalize users.length / numSubGroupsOf users.length = z at *
    generalize users.length % numSubGroupsOf users.length = m at *
    omega
  exact slice_length_lt users.length _ _ i rfl hz1 hz2 hi

/-! ## More facts for the claims -/

/-- Without wrap-around `Sum(0, n)` of a well-formed tree adds up the points of
the users that are not marked deleted. -/
theorem Sum_eq_live (users : List User) (st : SegmentTree) (hok : TreeOk users st)
    (hb : absWeight users < 2 ^ 63) :
    st.Sum 0 st.n
      = ∑ j ∈ Finset.range st.n,
          if st.IsDeleted j = some true then 0 else (userAt users j).Points := by
  rw [hok.sum_total hb]
  unfold total cellSum
  rw [Finset.sum_Ico_eq_sum_range, show st.n * 2 - st.n = st.n by omega]
  apply Finset.sum_congr rfl
  intro j hj
  rw [Finset.mem_range] at hj
  exact hok.hleaf j hj

theorem markAll_n (users : List User) (dels : List Nat) (hd : ∀ i ∈ dels, i < users.length) :
    (markAll (NewSegmentTree users) dels).n = users.length :=
  (markAll_ok users dels _ (NewSegmentTree_ok users) hd).hn

/-- On the eight users whose total wraps to 1 the draw loop retries for ever:
every draw lands on index 4, a user with 0 points. -/
theorem drawLoop_wrapUsers (rng : Nat → Nat) :
    ∀ (fuel c : Nat), drawLoop rng wrapUsers 1 fuel (NewSegmentTree wrapUsers) [] 1 c = none := by
  intro fuel
  induction fuel with
  | zero =>
    intro c
    simp only [drawLoop]
    rw [if_pos (by decide)]
  | succ fuel ih =>
    intro c
    rw [drawLoop, if_pos (by decide)]
    simp only []
    have e : (1 : Int).toNat = 1 := rfl
    have hf : (NewSegmentTree wrapUsers).FindIndex (addInt ((0 : Nat) : Int) 1) = 4 := by decide
    have hd : (NewSegmentTree wrapUsers).IsDeleted 4 = some false := by decide
    have hp : (false || (userAt wrapUsers 4).Points == 0) = true := by decide
    rw [e, Nat.mod_one, hf, hd]
    simp only
    rw [if_pos hp]
    exact ih (c + 1)

/-! ## The claims, continued -/

/-- C11 as stated fails: two users with `2 ^ 62` points each.  The weights are
non-negative, but `T = Sum(0, 2)` wraps to `-2 ^ 63`, so there is no target in
`[1, T]` at all, while leaf 0 weighs `2 ^ 62`. -/
theorem C11_counterexample :
    (∀ u ∈ ([⟨1, 2 ^ 62⟩, ⟨2, 2 ^ 62⟩] : List User), 0 ≤ u.Points ∧ u.Points < 2 ^ 63) ∧
    (NewSegmentTree [⟨1, 2 ^ 62⟩, ⟨2, 2 ^ 62⟩]).Sum 0 2 = -2 ^ 63 ∧
    cell (NewSegmentTree [⟨1, 2 ^ 62⟩, ⟨2, 2 ^ 62⟩]).tree (2 + 0) = 2 ^ 62 ∧
    (((Finset.Icc 1 ((NewSegmentTree [⟨1, 2 ^ 62⟩, ⟨2, 2 ^ 62⟩]).Sum 0 2)).filter
        (fun tg => (NewSegmentTree [⟨1, 2 ^ 62⟩, ⟨2, 2 ^ 62⟩]).FindIndex tg = 0)).card : Int)
      = 0 := by
  have h : (NewSegmentTree [⟨1, 2 ^ 62⟩, ⟨2, 2 ^ 62⟩]).Sum 0 2 = -2 ^ 63 := by decide
  refine ⟨by decide, h, by decide, ?_⟩
  rw [h, Finset.Icc_eq_empty (by norm_num), Finset.filter_empty, Finset.card_empty]
  rfl

/-- C11 as amended: on a tree built from non-negative weights whose total is
below `2 ^ 63` and changed only by `MarkAsDeleted` calls on valid indices, with
`T = Sum(0, n)`, exactly as many targets in `[1, T]` are sent to index `i` by
`FindIndex` as leaf `i` currently weighs (0 when `i` is marked deleted, its
points otherwise), out of `T` targets in all: a uniform draw selects `i` with
probability `weight(i) / T`. -/
theorem C11_weight_proportional (users : List User) (hnn : ∀ u ∈ users, 0 ≤ u.Points)
    (hb : (users.map User.Points).sum < 2 ^ 63)
    (dels : List Nat) (hd : ∀ i ∈ dels, i < users.length) (i : Nat) (hi : i < users.length) :
    (((Finset.Icc 1 ((markAll (NewSegmentTree users) dels).Sum 0 users.length)).filter
        (fun tg => (markAll (NewSegmentTree users) dels).FindIndex tg = i)).card : Int)
      = cell (markAll (NewSegmentTree users) dels).tree (users.length + i) ∧
    cell (markAll (NewSegmentTree users) dels).tree (users.length + i)
      = (if (markAll (NewSegmentTree users) dels).IsDeleted i = some true then 0
         else (userAt users i).Points) ∧
    ((Finset.Icc 1 ((markAll (NewSegmentTree users) dels).Sum 0 users.length)).card : Int)
      = (markAll (NewSegmentTree users) dels).Sum 0 users.length := by
  have hba : absWeight users < 2 ^ 63 := by rw [absWeight_of_nonneg users hnn]; exact hb
  have hok := markAll_ok users dels _ (NewSegmentTree_ok users) hd
  have hn := hok.hn
  have h1 := FindIndex_count users _ hok hnn hba i (by rw [hn]; exact hi)
  rw [hn] at h1
  have h2 := hok.hleaf i (by rw [hn]; exact hi)
  rw [hn] at h2
  refine ⟨h1, h2, ?_⟩
  have hT : 0 ≤ (markAll (NewSegmentTree users) dels).Sum 0 users.length := by
    have := hok.sum_total hba
    rw [hn] at this
    rw [this, total_eq_root _ (hok.exact hba) (by omega)]
    exact node_nonneg _ _ (hok.exact hba) (fun x a b => hok.leaf_nonneg hnn x a b)
      ((markAll (NewSegmentTree users) dels).n * 2) 1 (le_refl _) (by omega) (by omega)
  rw [Int.card_Icc]
  omega

theorem C11_weight_proportional_witness :
    (∀ u ∈ ([⟨1, 2⟩, ⟨2, 0⟩, ⟨3, 3⟩, ⟨4, 1⟩, ⟨5, 4⟩] : List User), 0 ≤ u.Points) ∧
    (([⟨1, 2⟩, ⟨2, 0⟩, ⟨3, 3⟩, ⟨4, 1⟩, ⟨5, 4⟩] : List User).map User.Points).sum < 2 ^ 63 ∧
    (∀ i ∈ [3], i < ([⟨1, 2⟩, ⟨2, 0⟩, ⟨3, 3⟩, ⟨4, 1⟩, ⟨5, 4⟩] : List User).length) ∧
    2 < ([⟨1, 2⟩, ⟨2, 0⟩, ⟨3, 3⟩, ⟨4, 1⟩, ⟨5, 4⟩] : List User).length ∧
    cell (markAll (NewSegmentTree [⟨1, 2⟩, ⟨2, 0⟩, ⟨3, 3⟩, ⟨4, 1⟩, ⟨5, 4⟩]) [3]).tree (5 + 2) = 3 ∧
    (((Finset.Icc 1
        ((markAll (NewSegmentTree [⟨1, 2⟩, ⟨2, 0⟩, ⟨3, 3⟩, ⟨4, 1⟩, ⟨5, 4⟩]) [3]).Sum 0 5)).filter
        (fun tg =>
          (markAll (NewSegmentTree [⟨1, 2⟩, ⟨2, 0⟩, ⟨3, 3⟩, ⟨4, 1⟩, ⟨5, 4⟩]) [3]).FindIndex tg
            = 2)).card : Int)
      = cell (markAll (NewSegmentTree [⟨1, 2⟩, ⟨2, 0⟩, ⟨3, 3⟩, ⟨4, 1⟩, ⟨5, 4⟩]) [3]).tree (5 + 2) :=
  ⟨by decide, by decide, by decide, by decide, by decide,
    (C11_weight_proportional [⟨1, 2⟩, ⟨2, 0⟩, ⟨3, 3⟩, ⟨4, 1⟩, ⟨5, 4⟩] (by decide) (by decide)
      [3] (by decide) 2 (by decide)).1⟩

/-- C12 (tree invariant): after `NewSegmentTree(users)` every internal node
satisfies `tree[i] == tree[2i] + tree[2i+1]`, with the `+` of the program; and
on any tree of `2n` cells with this invariant, `Update(index, value)` with
`index < n` keeps the invariant at every internal node, sets leaf `index` to
`value` and leaves every other leaf unchanged. -/
theorem C12_tree_invariant (users : List User) (st : SegmentTree)
    (hlen : st.tree.length = st.n * 2) (hinv : TreeInv st.tree st.n) (index : Nat)
    (hi : index < st.n) (value : Int) :
    TreeInv (NewSegmentTree users).tree users.length ∧
    TreeInv (st.Update index value).tree st.n ∧
    (st.Update index value).n = st.n ∧
    cell (st.Update index value).tree (st.n + index) = value ∧
    ∀ j, j ≠ index → cell (st.Update index value).tree (st.n + j) = cell st.tree (st.n + j) := by
  obtain ⟨_, r2, r3, r4⟩ := Update_spec st index value hlen hinv hi
  exact ⟨NewSegmentTree_inv users, r4, rfl, r2, r3⟩

theorem C12_tree_invariant_witness :
    (NewSegmentTree [⟨1, 1⟩, ⟨2, 2⟩, ⟨3, 3⟩]).tree.length
      = (NewSegmentTree [⟨1, 1⟩, ⟨2, 2⟩, ⟨3, 3⟩]).n * 2 ∧
    1 < (NewSegmentTree [⟨1, 1⟩, ⟨2, 2⟩, ⟨3, 3⟩]).n ∧
    ((NewSegmentTree [⟨1, 1⟩, ⟨2, 2⟩, ⟨3, 3⟩]).Update 1 7).tree = [0, 11, 10, 1, 7, 3] ∧
    TreeInv ((NewSegmentTree [⟨1, 1⟩, ⟨2, 2⟩, ⟨3, 3⟩]).Update 1 7).tree
      (NewSegmentTree [⟨1, 1⟩, ⟨2, 2⟩, ⟨3, 3⟩]).n :=
  ⟨by decide, by decide, by decide,
    (C12_tree_invariant [⟨1, 1⟩, ⟨2, 2⟩, ⟨3, 3⟩] (NewSegmentTree [⟨1, 1⟩, ⟨2, 2⟩, ⟨3, 3⟩])
      (by decide) (NewSegmentTree_inv [⟨1, 1⟩, ⟨2, 2⟩, ⟨3, 3⟩]) 1 (by decide) 7).2.1⟩

/-- C13 as stated fails: three users with `2 ^ 62`, `2 ^ 62` and 5 points.  After
`MarkAsDeleted(2)` the users that are not tombstoned weigh `2 ^ 63` in total,
but `Sum(0, 3)` is `-2 ^ 63`: the addition in the root wraps. -/
theorem C13_counterexample :
    (∀ u ∈ ([⟨1, 2 ^ 62⟩, ⟨2, 2 ^ 62⟩, ⟨3, 5⟩] : List User), 0 ≤ u.Points ∧ u.Points < 2 ^ 63) ∧
    ((NewSegmentTree [⟨1, 2 ^ 62⟩, ⟨2, 2 ^ 62⟩, ⟨3, 5⟩]).MarkAsDeleted 2).IsDeleted 2
      = some true ∧
    ((NewSegmentTree [⟨1, 2 ^ 62⟩, ⟨2, 2 ^ 62⟩, ⟨3, 5⟩]).MarkAsDeleted 2).Sum 0 3 = -2 ^ 63 ∧
    (∑ j ∈ Finset.range 3,
      (if ((NewSegmentTree [⟨1, 2 ^ 62⟩, ⟨2, 2 ^ 62⟩, ⟨3, 5⟩]).MarkAsDeleted 2).IsDeleted j
          = some true then 0
       else (userAt [⟨1, 2 ^ 62⟩, ⟨2, 2 ^ 62⟩, ⟨3, 5⟩] j).Points)) = 2 ^ 63 :=
  ⟨by decide, by decide, by decide, by decide⟩

/-- C13 as amended: on the fresh tree of `n` users `IsDeleted(j)` is false for
every `j < n`; on a tree reached by `MarkAsDeleted` calls on valid indices,
`MarkAsDeleted(i)` for `i < n` (in whichever bitmask word `i` lives) makes
`IsDeleted(i)` true, leaves `IsDeleted(j)` unchanged for every other `j < n`,
sets leaf `i` to 0 and leaves the other leaves unchanged; and when the absolute
values of the points add up to less than `2 ^ 63`, before as after the call
`Sum(0, n)` is the total of the points of the users that are not marked
deleted. -/
theorem C13_tombstoning (users : List User) (dels : List Nat)
    (hd : ∀ i ∈ dels, i < users.length) (i : Nat) (hi : i < users.length) :
    (∀ j, j < users.length → (NewSegmentTree users).IsDeleted j = some false) ∧
    ((markAll (NewSegmentTree users) dels).MarkAsDeleted i).IsDeleted i = some true ∧
    (∀ j, j < users.length → j ≠ i →
      ((markAll (NewSegmentTree users) dels).MarkAsDeleted i).IsDeleted j
        = (markAll (NewSegmentTree users) dels).IsDeleted j) ∧
    cell ((markAll (NewSegmentTree users) dels).MarkAsDeleted i).tree (users.length + i) = 0 ∧
    (∀ j, j ≠ i →
      cell ((markAll (NewSegmentTree users) dels).MarkAsDeleted i).tree (users.length + j)
        = cell (markAll (NewSegmentTree users) dels).tree (users.length + j)) ∧
    (absWeight users < 2 ^ 63 →
      (markAll (NewSegmentTree users) dels).Sum 0 users.length
        = ∑ j ∈ Finset.range users.length,
            (if (markAll (NewSegmentTree users) dels).IsDeleted j = some true then 0
             else (userAt users j).Points) ∧
      ((markAll (NewSegmentTree users) dels).MarkAsDeleted i).Sum 0 users.length
        = ∑ j ∈ Finset.range users.length,
            (if ((markAll (NewSegmentTree users) dels).MarkAsDeleted i).IsDeleted j = some true
             then 0 else (userAt users j).Points)) := by
  have hok := markAll_ok users dels _ (NewSegmentTree_ok users) hd
  have hn := hok.hn
  obtain ⟨m1, _, _⟩ := MarkAsDeleted_ok users _ hok i (by rw [hn]; exact hi)
  obtain ⟨k1, k2⟩ := MarkAsDeleted_reads users _ hok i (by rw [hn]; exact hi)
  obtain ⟨_, u2, u3, _⟩ := Update_spec (markAll (NewSegmentTree users) dels) i 0 hok.hlen
    hok.hinv (by rw [hn]; exact hi)
  rw [hn] at u2 u3
  refine ⟨fun j hj => IsDeleted_NewSegmentTree users j hj, k1, fun j _ hj => k2 j hj, u2, u3, ?_⟩
  intro hb
  have s1 := Sum_eq_live users _ hok hb
  have s2 := Sum_eq_live users _ m1 hb
  rw [MarkAsDeleted_n] at s2
  rw [hn] at s1 s2
  exact ⟨s1, s2⟩

theorem C13_tombstoning_witness :
    (∀ i ∈ [3], i < (List.replicate 70 (User.mk 1 2)).length) ∧
    65 < (List.replicate 70 (User.mk 1 2)).length ∧
    ((markAll (NewSegmentTree (List.replicate 70 (User.mk 1 2))) [3]).MarkAsDeleted 65).bitmask
      = [8, 2] ∧
    ((markAll (NewSegmentTree (List.replicate 70 (User.mk 1 2))) [3]).MarkAsDeleted 65).IsDeleted 65
      = some true :=
  ⟨by decide, by decide, by decide,
    (C13_tombstoning (List.replicate 70 (User.mk 1 2)) [3] (by decide) 65 (by decide)).2.1⟩

/-- C14 (worker count of `NewPicker`), evaluated where it fails: the process runs
with `GOMAXPROCS = 8` and `NewPicker(4)` is called.  `runtime.GOMAXPROCS(4)`
returns the previous setting, so the Picker gets 8 workers, not
`min(4, 8) = 4`; the call also changes the process-wide setting to 4. -/
theorem C14_previous_setting :
    (NewPicker 8 4).1.numWorkers = 8 ∧ (NewPicker 8 4).2 = 4 ∧
    (NewPicker 8 4).1.numWorkers ≠ min 4 8 ∧
    ∀ (setting : Nat) (numWorkers : Int), (NewPicker setting numWorkers).1.numWorkers = setting :=
  ⟨by decide, by decide, by decide, fun _ _ => rfl⟩

/-- C15 as stated fails: eight users with non-negative points
`2 ^ 62, 2 ^ 62, 0, 0, 0, 2 ^ 63 - 1, 2, 0`.  On the fresh tree `Sum(0, 8)` wraps
to 1, and `FindIndex(1)` is index 4, a user with 0 points: the draw loop takes
the `continue` branch, and since nothing changes it takes it again at every
draw, so the loop never ends. -/
theorem C15_counterexample :
    (∀ u ∈ wrapUsers, 0 ≤ u.Points ∧ u.Points < 2 ^ 63) ∧
    (NewSegmentTree wrapUsers).Sum 0 wrapUsers.length = 1 ∧
    (NewSegmentTree wrapUsers).FindIndex 1 = 4 ∧
    (NewSegmentTree wrapUsers).IsDeleted 4 = some false ∧
    (userAt wrapUsers 4).Points = 0 ∧
    ∀ (rng : Nat → Nat) (fuel c : Nat),
      drawLoop rng wrapUsers 1 fuel (NewSegmentTree wrapUsers) []
        ((NewSegmentTree wrapUsers).Sum 0 wrapUsers.length) c = none := by
  have h : (NewSegmentTree wrapUsers).Sum 0 wrapUsers.length = 1 := by decide
  refine ⟨by decide, h, by decide, by decide, by decide, ?_⟩
  intro rng fuel c
  rw [h]
  exact drawLoop_wrapUsers rng fuel c

/-- C15 as amended: on a tree built from `n` weights whose absolute values add
up to less than `2 ^ 63` and changed only by `MarkAsDeleted` calls on valid
indices, for `1 ≤ target ≤ Sum(0, n)` the index `FindIndex(target)` is below
`n`, not marked deleted and has positive points.  Hence in the draw loop of
such a subgroup every iteration appends a winner: the loop reaches a state
after any number of iterations, there the number of draws made equals the
number of winners accepted, and when the loop condition holds the body adds one
winner. -/
theorem C15_no_retry (rng : Nat → Nat) (users : List User) (hb : absWeight users < 2 ^ 63)
    (dels : List Nat) (hd : ∀ i ∈ dels, i < users.length) (target : Int) (h1 : 1 ≤ target)
    (h2 : target ≤ (markAll (NewSegmentTree users) dels).Sum 0 users.length) :
    ((markAll (NewSegmentTree users) dels).FindIndex target < users.length ∧
      (markAll (NewSegmentTree users) dels).IsDeleted
        ((markAll (NewSegmentTree users) dels).FindIndex target) = some false ∧
      0 < (userAt users ((markAll (NewSegmentTree users) dels).FindIndex target)).Points) ∧
    ∀ (quota c k : Nat), ∃ s, drawIter rng users quota k (drawStart users c) = some s ∧
      s.res.length + c = s.c ∧
      (s.res.length < quota ∧ s.localPoints > 0 →
        ∃ s1, drawBody rng users s = some s1 ∧ s1.res.length = s.res.length + 1) := by
  have hok := markAll_ok users dels _ (NewSegmentTree_ok users) hd
  have hn := hok.hn
  have hs := hok.sum_total hb
  rw [hn] at hs
  rw [hs] at h2
  obtain ⟨f1, f2, f3⟩ := FindIndex_live users _ hok hb target h1 h2
  rw [hn] at f1
  refine ⟨⟨f1, f2, by omega⟩, ?_⟩
  intro quota c k
  obtain ⟨s1, s2⟩ := drawStart_inv users hb c
  obtain ⟨s, i0, i1, i2, i3⟩ := drawIter_inv rng users hb quota k (drawStart users c) s1 s2
  refine ⟨s, i0, by simpa [drawStart] using i3, ?_⟩
  intro hcond
  obtain ⟨index, t, hbody, _, _, _, ht, _, _⟩ := drawBody_accepts rng users hb s i1 i2 hcond.2
  refine ⟨t, hbody, ?_⟩
  rw [ht]
  simp

theorem C15_no_retry_witness :
    absWeight [⟨1, 2⟩, ⟨2, 0⟩, ⟨3, 3⟩, ⟨4, 1⟩, ⟨5, 4⟩] < 2 ^ 63 ∧
    (∀ i ∈ [3], i < ([⟨1, 2⟩, ⟨2, 0⟩, ⟨3, 3⟩, ⟨4, 1⟩, ⟨5, 4⟩] : List User).length) ∧
    (1 : Int) ≤ 6 ∧
    (6 : Int)
      ≤ (markAll (NewSegmentTree [⟨1, 2⟩, ⟨2, 0⟩, ⟨3, 3⟩, ⟨4, 1⟩, ⟨5, 4⟩]) [3]).Sum 0 5 ∧
    (markAll (NewSegmentTree [⟨1, 2⟩, ⟨2, 0⟩, ⟨3, 3⟩, ⟨4, 1⟩, ⟨5, 4⟩]) [3]).FindIndex 6 = 0 ∧
    (markAll (NewSegmentTree [⟨1, 2⟩, ⟨2, 0⟩, ⟨3, 3⟩, ⟨4, 1⟩, ⟨5, 4⟩]) [3]).IsDeleted
      ((markAll (NewSegmentTree [⟨1, 2⟩, ⟨2, 0⟩, ⟨3, 3⟩, ⟨4, 1⟩, ⟨5, 4⟩]) [3]).FindIndex 6)
      = some false :=
  ⟨by decide, by decide, by decide, by decide, by decide,
    (C15_no_retry sampleRng [⟨1, 2⟩, ⟨2, 0⟩, ⟨3, 3⟩, ⟨4, 1⟩, ⟨5, 4⟩] (by decide) [3]
      (by decide) 6 (by decide) (by decide)).1.2.1⟩

/-- C16 as stated fails: a subgroup of two users with `2 ^ 62` points each and
the quota 1.  Both users have positive points, so `min(1, 2) = 1` winner is
due, but `localPoints = Sum(0, 2)` wraps to `-2 ^ 63`, the loop is not entered
and no winner is contributed, whatever the draws. -/
theorem C16_counterexample :
    (∀ u ∈ ([⟨1, 2 ^ 62⟩, ⟨2, 2 ^ 62⟩] : List User), 0 ≤ u.Points ∧ u.Points < 2 ^ 63) ∧
    min 1 (eligible [⟨1, 2 ^ 62⟩, ⟨2, 2 ^ 62⟩]) = 1 ∧
    ∀ (rng : Nat → Nat) (fuel c : Nat),
      drawLoop rng [⟨1, 2 ^ 62⟩, ⟨2, 2 ^ 62⟩] 1 fuel (NewSegmentTree [⟨1, 2 ^ 62⟩, ⟨2, 2 ^ 62⟩]) []
        ((NewSegmentTree [⟨1, 2 ^ 62⟩, ⟨2, 2 ^ 62⟩]).Sum 0
          ([⟨1, 2 ^ 62⟩, ⟨2, 2 ^ 62⟩] : List User).length) c
        = some ([], -2 ^ 63, c) := by
  have h : (NewSegmentTree [⟨1, 2 ^ 62⟩, ⟨2, 2 ^ 62⟩]).Sum 0
      ([⟨1, 2 ^ 62⟩, ⟨2, 2 ^ 62⟩] : List User).length = -2 ^ 63 := by decide
  refine ⟨by decide, by decide, ?_⟩
  intro rng fuel c
  rw [h]
  cases fuel with
  | zero =>
    simp only [drawLoop]
    rw [if_neg (by decide)]
  | succ fuel =>
    rw [drawLoop, if_neg (by decide)]

/-- C16 as amended: on a subgroup with non-negative points whose total is below
`2 ^ 63`, whatever the draws, the loop is over after at most `quota` iterations
and contributes exactly `min(quota, number of users with Points > 0)` winners,
one per draw; and in every state the loop goes through, `localPoints` equals
`Sum(0, len)` of the subgroup's tree. -/
theorem C16_draw_loop (rng : Nat → Nat) (sub : List User) (hnn : ∀ u ∈ sub, 0 ≤ u.Points)
    (hb : (sub.map User.Points).sum < 2 ^ 63) (quota c fuel : Nat) (hf : quota ≤ fuel) :
    (∃ res localPoints,
      drawLoop rng sub quota fuel (NewSegmentTree sub) [] ((NewSegmentTree sub).Sum 0 sub.length) c
        = some (res, localPoints, c + res.length) ∧
      res.length = min quota (eligible sub) ∧
      ∃ s, drawIter rng sub quota fuel (drawStart sub c) = some s ∧ s.res = res) ∧
    ∀ k, ∃ s, drawIter rng sub quota k (drawStart sub c) = some s ∧
      s.localPoints = s.st.Sum 0 sub.length := by
  have hba : absWeight sub < 2 ^ 63 := by rw [absWeight_of_nonneg sub hnn]; exact hb
  constructor
  · obtain ⟨res, lp, h1, _, h2⟩ := drawFresh_spec rng fuel quota sub c hba hf
    refine ⟨res, lp, h1, h2 hnn, ?_⟩
    have hlink := drawLoop_eq_iter rng sub quota fuel (drawStart sub c)
    unfold drawFresh at h1
    simp only [drawStart] at hlink
    rw [h1] at hlink
    simp only [drawStart]
    cases hdi : drawIter rng sub quota fuel
        { st := NewSegmentTree sub, res := [],
          localPoints := (NewSegmentTree sub).Sum 0 sub.length, c := c } with
    | none =>
      rw [hdi] at hlink
      exact absurd hlink (by simp)
    | some s =>
      rw [hdi] at hlink
      simp only at hlink
      split at hlink
      · exact absurd hlink (by simp)
      · simp only [Option.some.injEq, Prod.mk.injEq] at hlink
        exact ⟨s, rfl, hlink.1.symm⟩
  · intro k
    obtain ⟨s1, s2⟩ := drawStart_inv sub hba c
    obtain ⟨s, i0, i1, i2, _⟩ := drawIter_inv rng sub hba quota k (drawStart sub c) s1 s2
    refine ⟨s, i0, ?_⟩
    rw [i2, ← i1.sum_total hba, i1.hn]

theorem C16_draw_loop_witness :
    (∀ u ∈ ([⟨1, 2⟩, ⟨2, 0⟩, ⟨3, 3⟩] : List User), 0 ≤ u.Points) ∧
    (([⟨1, 2⟩, ⟨2, 0⟩, ⟨3, 3⟩] : List User).map User.Points).sum < 2 ^ 63 ∧ 5 ≤ 7 ∧
    drawLoop sampleRng [⟨1, 2⟩, ⟨2, 0⟩, ⟨3, 3⟩] 5 7 (NewSegmentTree [⟨1, 2⟩, ⟨2, 0⟩, ⟨3, 3⟩]) []
        ((NewSegmentTree [⟨1, 2⟩, ⟨2, 0⟩, ⟨3, 3⟩]).Sum 0 3) 0
      = some ([⟨1, 2⟩, ⟨3, 3⟩], 0, 2) ∧
    eligible [⟨1, 2⟩, ⟨2, 0⟩, ⟨3, 3⟩] = 2 ∧
    ∃ s, drawIter sampleRng [⟨1, 2⟩, ⟨2, 0⟩, ⟨3, 3⟩] 5 1
        (drawStart [⟨1, 2⟩, ⟨2, 0⟩, ⟨3, 3⟩] 0) = some s ∧
      s.localPoints = s.st.Sum 0 ([⟨1, 2⟩, ⟨2, 0⟩, ⟨3, 3⟩] : List User).length :=
  ⟨by decide, by decide, by decide, by decide, by decide,
    (C16_draw_loop sampleRng [⟨1, 2⟩, ⟨2, 0⟩, ⟨3, 3⟩] (by decide) (by decide) 5 0 7
      (by decide)).2 1⟩

/-- C17 (deficit correction draws from the winners): whenever `Do` returns `r`,
the primary pass returned some `P`, and either `P` has the requested length and
`r = P`, or `P` is short and `r` is `P` followed by what `Do(P, numWinners - len(P))`
returns; in that case every appended winner is a user already in `P`, and the
IDs of `r` are not pairwise distinct. -/
theorem C17_deficit_from_winners (rng : Nat → Nat) (numWorkers : Nat) (hW : 1 ≤ numWorkers)
    (fuel : Nat) (users : List User) (numWinners c : Nat) (r : List User) (c2 : Nat)
    (h : Do rng fuel numWorkers users numWinners c = some (r, c2)) :
    ∃ P c1, primaryPass rng (fuel - 1) numWorkers users numWinners c = some (P, c1) ∧
      ((numWinners ≤ P.length ∧ r = P) ∨
       (P.length < numWinners ∧ ∃ extra,
          Do rng (fuel - 1) numWorkers P (numWinners - P.length) c1 = some (extra, c2) ∧
          r = P ++ extra ∧ (∀ u ∈ extra, u ∈ P) ∧ ¬ (r.map User.ID).Nodup)) := by
  cases fuel with
  | zero => exact absurd h (by simp [Do])
  | succ fuel =>
    obtain ⟨P, c1, hp, hcase⟩ := Do_some rng fuel numWorkers users numWinners c r c2 h
    refine ⟨P, c1, hp, ?_⟩
    rcases hcase with ⟨a1, a2, _⟩ | ⟨a1, extra, hd, hr⟩
    · exact Or.inl ⟨a1, a2⟩
    · right
      have hmem := Do_mem rng numWorkers hW fuel P _ c1 extra c2 hd
      have hlen := Do_length rng numWorkers hW fuel P _ c1 extra c2 hd
      refine ⟨a1, extra, hd, hr, fun u hu => (hmem u hu).1, ?_⟩
      cases extra with
      | nil => simp at hlen; omega
      | cons u rest =>
        have hu := (hmem u (List.mem_cons_self _ _)).1
        rw [hr, List.map_append, List.nodup_append]
        intro ⟨_, _, hdis⟩
        exact hdis (List.mem_map_of_mem _ hu)
          (List.mem_map_of_mem _ (List.mem_cons_self _ _))

theorem C17_deficit_from_winners_witness :
    1 ≤ 1 ∧ Do sampleRng 4 1 [⟨1, 2⟩, ⟨2, 0⟩] 3 0 = some ([⟨1, 2⟩, ⟨1, 2⟩, ⟨1, 2⟩], 3) ∧
    ∃ P c1, primaryPass sampleRng (4 - 1) 1 [⟨1, 2⟩, ⟨2, 0⟩] 3 0 = some (P, c1) ∧
      ((3 ≤ P.length ∧ ([⟨1, 2⟩, ⟨1, 2⟩, ⟨1, 2⟩] : List User) = P) ∨
       (P.length < 3 ∧ ∃ extra,
          Do sampleRng (4 - 1) 1 P (3 - P.length) c1 = some (extra, 3) ∧
          ([⟨1, 2⟩, ⟨1, 2⟩, ⟨1, 2⟩] : List User) = P ++ extra ∧ (∀ u ∈ extra, u ∈ P) ∧
          ¬ (([⟨1, 2⟩, ⟨1, 2⟩, ⟨1, 2⟩] : List User).map User.ID).Nodup)) :=
  ⟨by decide, by decide,
    C17_deficit_from_winners sampleRng 1 (by decide) 4 [⟨1, 2⟩, ⟨2, 0⟩] 3 0
      [⟨1, 2⟩, ⟨1, 2⟩, ⟨1, 2⟩] 3 (by decide)⟩

/-- C18 as stated fails: a partition of 9999 users is handled as one subgroup of
9999 users, more than 5000. -/
theorem C18_counterexample :
    numSubGroupsOf partition9999.length = 1 ∧
    (chunk partition9999 (numSubGroupsOf partition9999.length)
      (partition9999.length / numSubGroupsOf partition9999.length) 0).length = 9999 ∧
    ¬ (9999 ≤ 5000) := by
  have hlen : partition9999.length = 9999 := List.length_replicate _ _
  have hs : numSubGroupsOf 9999 = 1 := by decide
  refine ⟨by rw [hlen, hs], ?_, by decide⟩
  rw [hlen, hs, chunk_last partition9999 1 (9999 / 1), List.length_drop, hlen]

/-- C18 as amended: every subgroup formed from a partition (`max(1, L / 5000)`
subgroups of `L / numSubGroups` users, the last one extended to the end of the
partition) contains fewer than 10000 users. -/
theorem C18_subgroup_below_10000 (users : List User) (i : Nat)
    (hi : i < numSubGroupsOf users.length) :
    (chunk users (numSubGroupsOf users.length)
      (users.length / numSubGroupsOf users.length) i).length < 10000 :=
  subGroup_length_lt users i hi

theorem C18_subgroup_below_10000_witness :
    0 < numSubGroupsOf ([⟨1, 2⟩, ⟨2, 0⟩, ⟨3, 3⟩] : List User).length ∧
    (chunk [⟨1, 2⟩, ⟨2, 0⟩, ⟨3, 3⟩]
      (numSubGroupsOf ([⟨1, 2⟩, ⟨2, 0⟩, ⟨3, 3⟩] : List User).length)
      (([⟨1, 2⟩, ⟨2, 0⟩, ⟨3, 3⟩] : List User).length
        / numSubGroupsOf ([⟨1, 2⟩, ⟨2, 0⟩, ⟨3, 3⟩] : List User).length) 0).length < 10000 :=
  ⟨by decide, C18_subgroup_below_10000 [⟨1, 2⟩, ⟨2, 0⟩, ⟨3, 3⟩] 0 (by decide)⟩

/-- C19 (partitioning covers the population exactly once): with `W ≥ 1` workers
and `N = len(users)`, the bounds of the `W` partition slices are in range
(`start ≤ end ≤ N`), slice `i + 1` starts where slice `i` ends, so the slices
are contiguous and pairwise disjoint, the first starts at 0 and the last ends
at `N`, and the slices in order concatenate to `users`; the subgroups of any
partition concatenate to that partition, so the subgroups of all partitions in
order concatenate to `users`. -/
theorem C19_partition_exact (users : List User) (numWorkers : Nat) (hW : 1 ≤ numWorkers) :
    (∀ i, i < numWorkers →
      sliceStart (users.length / numWorkers) i
        ≤ sliceStop users.length numWorkers (users.length / numWorkers) i ∧
      sliceStop users.length numWorkers (users.length / numWorkers) i ≤ users.length ∧
      chunk users numWorkers (users.length / numWorkers) i
        = (users.drop (sliceStart (users.length / numWorkers) i)).take
            (sliceStop users.length numWorkers (users.length / numWorkers) i
              - sliceStart (users.length / numWorkers) i)) ∧
    (∀ i, i + 1 < numWorkers →
      sliceStop users.length numWorkers (users.length / numWorkers) i
        = sliceStart (users.length / numWorkers) (i + 1)) ∧
    (∀ i j, i < j → j < numWorkers →
      sliceStop users.length numWorkers (users.length / numWorkers) i
        ≤ sliceStart (users.length / numWorkers) j) ∧
    sliceStart (users.length / numWorkers) 0 = 0 ∧
    sliceStop users.length numWorkers (users.length / numWorkers) (numWorkers - 1)
      = users.length ∧
    ((List.range numWorkers).map (chunk users numWorkers (users.length / numWorkers))).flatten
      = users ∧
    (∀ group : List User,
      ((List.range (numSubGroupsOf group.length)).map
        (chunk group (numSubGroupsOf group.length)
          (group.length / numSubGroupsOf group.length))).flatten = group) ∧
    ((List.range numWorkers).map (fun i =>
      ((List.range
          (numSubGroupsOf (chunk users numWorkers (users.length / numWorkers) i).length)).map
        (chunk (chunk users numWorkers (users.length / numWorkers) i)
          (numSubGroupsOf (chunk users numWorkers (users.length / numWorkers) i).length)
          ((chunk users numWorkers (users.length / numWorkers) i).length
            / numSubGroupsOf
                (chunk users numWorkers (users.length / numWorkers) i).length))).flatten)).flatten
      = users := by
  have hsz : numWorkers * (users.length / numWorkers) ≤ users.length := Nat.mul_div_le _ _
  have hsub : ∀ group : List User,
      ((List.range (numSubGroupsOf group.length)).map
        (chunk group (numSubGroupsOf group.length)
          (group.length / numSubGroupsOf group.length))).flatten = group :=
    fun group => flatten_chunks group _ _ (numSubGroupsOf_pos _)
  refine ⟨?_, ?_, ?_, ?_, ?_, flatten_chunks users _ _ hW, hsub, ?_⟩
  · intro i hi
    obtain ⟨b1, b2, _, _⟩ := slice_bounds users.length numWorkers _ hsz i hi
    exact ⟨b1, b2, rfl⟩
  · intro i hi
    exact (slice_bounds users.length numWorkers _ hsz i (by omega)).2.2.1 hi
  · intro i j hij hj
    rw [(slice_bounds users.length numWorkers _ hsz i (by omega)).2.2.1 (by omega)]
    exact sliceStart_mono _ _ _ (by omega)
  · simp [sliceStart]
  · exact (slice_bounds users.length numWorkers _ hsz (numWorkers - 1) (by omega)).2.2.2 rfl
  · simp only [hsub]
    exact flatten_chunks users _ _ hW

theorem C19_partition_exact_witness :
    1 ≤ 5 ∧
    ((List.range 5).map
      (chunk [⟨1, 2⟩, ⟨2, 0⟩, ⟨3, 3⟩] 5 (([⟨1, 2⟩, ⟨2, 0⟩, ⟨3, 3⟩] : List User).length / 5))).flatten
      = [⟨1, 2⟩, ⟨2, 0⟩, ⟨3, 3⟩] :=
  ⟨by decide, (C19_partition_exact [⟨1, 2⟩, ⟨2, 0⟩, ⟨3, 3⟩] 5 (by decide)).2.2.2.2.2.1⟩

/-- C20 (exact length on return): with at least one worker, the primary pass
yields at most `numWinners` winners, and whenever `Do` returns, the returned
slice has exactly `numWinners` entries, however many users have positive
points. -/
theorem C20_exact_length (rng : Nat → Nat) (numWorkers : Nat) (hW : 1 ≤ numWorkers)
    (users : List User) (numWinners : Nat) :
    (∀ fuel c winners c1,
      primaryPass rng fuel numWorkers users numWinners c = some (winners, c1) →
      winners.length ≤ numWinners) ∧
    (∀ fuel c r c2, Do rng fuel numWorkers users numWinners c = some (r, c2) →
      r.length = numWinners) := by
  constructor
  · intro fuel c winners c1 h
    exact (primaryPass_sound rng fuel numWorkers hW users numWinners c winners c1 h).le_requested
  · intro fuel c r c2 h
    exact Do_length rng numWorkers hW fuel users numWinners c r c2 h

theorem C20_exact_length_witness :
    1 ≤ 1 ∧ eligible [⟨1, 2⟩, ⟨2, 0⟩] = 1 ∧
    Do sampleRng 4 1 [⟨1, 2⟩, ⟨2, 0⟩] 3 0 = some ([⟨1, 2⟩, ⟨1, 2⟩, ⟨1, 2⟩], 3) ∧
    ([⟨1, 2⟩, ⟨1, 2⟩, ⟨1, 2⟩] : List User).length = 3 :=
  ⟨by decide, by decide, by decide,
    (C20_exact_length sampleRng 1 (by decide) [⟨1, 2⟩, ⟨2, 0⟩] 3).2 4 0
      [⟨1, 2⟩, ⟨1, 2⟩, ⟨1, 2⟩] 3 (by decide)⟩

end Segmentwinner
